import Mathlib

/-!
# KittyMemoryEx: pattern scanner and ELF image scanner

A shallow embedding of `KittyScanner.cpp` / `KittyScanner.hpp` / `KittyUtils.hpp`.

Conventions of the embedding:

* the `__LP64__` branch of `KittyUtils.hpp` is the one embedded: `uintptr_t` and `size_t`
  are 64 bits wide, `ElfW_(x)` is `Elf64_x` and `ELF_EICLASS_` is `2`; unsigned machine
  arithmetic is arithmetic on `Nat` reduced modulo `2 ^ 64`; the structs of `<elf.h>` are
  read from their bytes with the LP64 layout, fields being little-endian;
* a byte (`char`) is a `Nat`; the scanner only compares bytes for equality and the ELF
  decoders reduce every byte modulo 256;
* a `std::string` is a `List Char`; its `c_str()` ends at the end of the list, and the
  loops that walk a `c_str()` also stop at an embedded NUL character;
* a `const char *` argument is `Option (Nat → Byte)`: `none` is the null pointer and
  `some p` gives the byte `p j` stored at `pointer[j]`;
* the local scan buffer `buf` lives at the local address `buf0 = &buf[0]`, an extra
  argument of the scanning functions, because the scanner computes with raw local addresses;
* every remote `Read` a scanner call issues is recorded in the `reads` field of its outcome;
* the two unbounded loops (the `do ... while (true)` of `findBytesAll` and the symbol walk of
  the `ElfScanner` constructor) take a `fuel` argument and give `none` when it runs out.

The scanner theorems carry three facts about the machine as hypotheses: `end_ < 2 ^ 64`
(the argument is a `uintptr_t`), `0 < buf0` (the buffer is an object, its address is not
null) and `buf0 + (end_ - start) + mask.length < 2 ^ 64` (the end of the buffer plus the size
of the mask does not wrap; on LP64 an object ends below `2 ^ 63` and a string is shorter than
`2 ^ 63`).

A copy or read that is given more bytes than its destination holds (`memcpy` of
`e_phentsize` bytes into `phdr_entry`, `Read` of `p_memsz` bytes into `dyn_buff`, `Read` of
`_syment` bytes into `curr_sym`) is embedded by the bytes that land inside the destination.
The theorems that state that the constructor returns an image past such a copy assume that
it fits (`PhdrCopyFits`, `DynReadsFit`, `SymReadFits`).

`KittyUtils::validateHexString` and `KittyUtils::dataFromHex` are declared in
`KittyUtils.hpp` and defined elsewhere: the hex entry points take the validator as an
argument, and `dataFromHex` is modelled from the specification.
-/

namespace KittyMemoryEx

/-- One byte of memory (`char`). -/
abbrev Byte := Nat

/-- Number of values of `uintptr_t` and `size_t`. -/
def UINTPTR_MOD : Nat := 2 ^ 64

/-- Addition of `uintptr_t` / `size_t` values. -/
def uptrAdd (a b : Nat) : Nat := (a + b) % UINTPTR_MOD

/-- Subtraction of `uintptr_t` / `size_t` values. -/
def uptrSub (a b : Nat) : Nat := (a + (UINTPTR_MOD - b % UINTPTR_MOD)) % UINTPTR_MOD

/-- The NUL character that ends a `c_str()`. -/
def NUL : Char := Char.ofNat 0

/-- Modelled from the spec: the remote-memory capability `IKittyMemOp` (declared in
`KittyMemOp.hpp`, which is not among the sources). `Read address len` gives the returned
byte count together with the bytes the call stored at the beginning of the destination
buffer; `ReadStr address maxLen` gives the string read (empty on failure). A short or zero
count is possible and nothing ties the count to the stored bytes. -/
structure IKittyMemOp where
  Read : Nat → Nat → Nat × List Byte
  ReadStr : Nat → Nat → List Char

/-- A call `Read(address, &buf, len)` on a local object whose bytes are `buf`: the returned
count and the bytes of the object afterwards. At most `len` bytes are stored, over the old
contents; bytes that would land past the end of the object are not part of it. -/
def IKittyMemOp.readInto (m : IKittyMemOp) (address len : Nat) (buf : List Byte) :
    Nat × List Byte :=
  let r := m.Read address len
  let stored := (r.2.take len).take buf.length
  (r.1, stored ++ buf.drop stored.length)

/-- The value a function returned together with the remote reads `(address, length)` it
issued, in order. -/
structure Outcome (α : Type) where
  ret : α
  reads : List (Nat × Nat)
deriving DecidableEq

/-- Local memory as seen through raw addresses when `buf` is stored at address `buf0`. -/
def localMem (buf0 : Nat) (buf : List Byte) : Nat → Byte :=
  fun a => if buf0 ≤ a then buf.getD (a - buf0) 0 else 0

/-- The function `compare(data, pattern, mask)` of KittyScanner.cpp: `mem` is local memory,
`data` the address compared, `idx` the position reached in `pattern`, and the list is what is
left of `mask`. The loop runs while `*mask` is non-zero and the function ends with
`return !*mask`, which is `true` there. -/
def compare (mem : Nat → Byte) (data : Nat) (pattern : Nat → Byte) (idx : Nat) : List Char → Bool
  | [] => true
  | c :: mask =>
    if c = NUL then true
    else if c = 'x' ∧ mem data ≠ pattern idx then false
    else compare mem (data + 1) pattern (idx + 1) mask

/-- The `for` loop of `findInRange`: `k` iterations are left (`length - i`). -/
def findInRange.loop (mem : Nat → Byte) (start end_ : Nat) (pattern : Nat → Byte)
    (mask : List Char) : Nat → Nat → Nat
  | 0, _ => 0
  | k + 1, i =>
    let current_end := uptrAdd (uptrAdd start i) mask.length
    if current_end > end_ then 0
    else if !compare mem (uptrAdd start i) pattern 0 mask then
      findInRange.loop mem start end_ pattern mask k (i + 1)
    else uptrAdd start i

/-- The function `findInRange(start, end, pattern, mask)` of KittyScanner.cpp, over local
addresses. -/
def findInRange (mem : Nat → Byte) (start end_ : Nat) (pattern : Nat → Byte)
    (mask : List Char) : Nat :=
  let scan_size := mask.length
  if scan_size < 1 ∨ uptrAdd start scan_size > end_ then 0
  else
    let length := uptrSub end_ start
    findInRange.loop mem start end_ pattern mask length 0

/-- The class `KittyScannerMgr`: its only member is the (possibly null) capability. -/
structure KittyScannerMgr where
  _pMem : Option IKittyMemOp

/-- The method `KittyScannerMgr::findBytesFirst`. -/
def KittyScannerMgr.findBytesFirst (self : KittyScannerMgr) (buf0 : Nat) (start end_ : Nat)
    (bytes : Option (Nat → Byte)) (mask : List Char) : Outcome Nat :=
  match self._pMem, bytes with
  | some pMem, some pattern =>
    if start ≥ end_ ∨ mask.isEmpty then ⟨0, []⟩
    else
      let size := uptrSub end_ start
      let r := pMem.readInto start size (List.replicate size 0)
      if r.1 ≠ size then ⟨0, [(start, size)]⟩
      else
        let local_ := findInRange (localMem buf0 r.2) buf0 (uptrAdd buf0 size) pattern mask
        if local_ ≠ 0 then ⟨uptrAdd (uptrSub local_ buf0) start, [(start, size)]⟩
        else ⟨0, [(start, size)]⟩
  | _, _ => ⟨0, []⟩

/-- The `do ... while (true)` loop of `findBytesAll`: `curr_search_address` and `local_list`
are the loop variables; the result is `none` when `fuel` iterations did not reach `break`. -/
def KittyScannerMgr.findBytesAll.loop (mem : Nat → Byte) (bufEnd : Nat) (pattern : Nat → Byte)
    (mask : List Char) : Nat → Nat → List Nat → Option (List Nat)
  | 0, _, _ => none
  | fuel + 1, curr_search_address, local_list =>
    let curr :=
      match local_list.getLast? with
      | some back => uptrAdd back mask.length
      | none => curr_search_address
    let found := findInRange mem curr bufEnd pattern mask
    if found = 0 then some local_list
    else KittyScannerMgr.findBytesAll.loop mem bufEnd pattern mask fuel curr (local_list ++ [found])

/-- The method `KittyScannerMgr::findBytesAll`; `fuel` bounds the iterations of its
`do ... while (true)` loop and the result is `none` when the bound is hit. -/
def KittyScannerMgr.findBytesAll (self : KittyScannerMgr) (fuel : Nat) (buf0 : Nat)
    (start end_ : Nat) (bytes : Option (Nat → Byte)) (mask : List Char) :
    Option (Outcome (List Nat)) :=
  match self._pMem, bytes with
  | some pMem, some pattern =>
    if start ≥ end_ ∨ mask.isEmpty then some ⟨[], []⟩
    else
      let size := uptrSub end_ start
      let r := pMem.readInto start size (List.replicate size 0)
      if r.1 = 0 then some ⟨[], [(start, size)]⟩
      else
        match KittyScannerMgr.findBytesAll.loop (localMem buf0 r.2) (uptrAdd buf0 size)
            pattern mask fuel buf0 [] with
        | none => none
        | some local_list =>
          if local_list.isEmpty then some ⟨local_list, [(start, size)]⟩
          else some ⟨local_list.map (fun it => uptrAdd (uptrSub it buf0) start), [(start, size)]⟩
  | _, _ => some ⟨[], []⟩

/-- Modelled from the spec: `KittyUtils::validateHexString` (defined in KittyUtils.cpp, which
is not among the sources): "the hex text must contain only valid hex digits". -/
def validateHexString (hex : List Char) : Bool :=
  hex.all fun c => c.isDigit || ('a' ≤ c && c ≤ 'f') || ('A' ≤ c && c ≤ 'F')

/-- Value of one hex digit (0 for any other character). -/
def hexDigitVal (c : Char) : Nat :=
  if c.isDigit then c.toNat - '0'.toNat
  else if 'a' ≤ c ∧ c ≤ 'f' then c.toNat - 'a'.toNat + 10
  else if 'A' ≤ c ∧ c ≤ 'F' then c.toNat - 'A'.toNat + 10
  else 0

/-- Modelled from the spec: `KittyUtils::dataFromHex` (defined in KittyUtils.cpp, which is not
among the sources): the bytes a hex-encoded byte string decodes to, two digits per byte in
order. A trailing single digit decodes to no byte. -/
def dataFromHex : List Char → List Byte
  | hi :: lo :: rest => (16 * hexDigitVal hi + hexDigitVal lo) :: dataFromHex rest
  | _ => []

/-- The bytes of `std::vector<char> pattern(scan_size)` after
`KittyUtils::dataFromHex(hex, &pattern[0])`, as the pointer `pattern.data()`. -/
def hexPattern (hex : List Char) (scan_size : Nat) : Nat → Byte :=
  fun j => (((dataFromHex hex).take scan_size) ++ List.replicate (scan_size - (dataFromHex hex).length) 0).getD j 0

/-- The method `KittyScannerMgr::findHexAll`. The argument `validateHex` stands for
`KittyUtils::validateHexString`, which is only declared in KittyUtils.hpp (its definition is
not among the sources): it is taken as a test that leaves the string as it is. -/
def KittyScannerMgr.findHexAll (self : KittyScannerMgr) (validateHex : List Char → Bool)
    (fuel : Nat) (buf0 : Nat) (start end_ : Nat) (hex : List Char) (mask : List Char) :
    Option (Outcome (List Nat)) :=
  if self._pMem.isNone ∨ start ≥ end_ ∨ mask.isEmpty ∨ !validateHex hex then some ⟨[], []⟩
  else
    let scan_size := mask.length
    if hex.length / 2 ≠ scan_size then some ⟨[], []⟩
    else self.findBytesAll fuel buf0 start end_ (some (hexPattern hex scan_size)) mask

/-- The method `KittyScannerMgr::findHexFirst`, with `KittyUtils::validateHexString` as the
argument `validateHex` (see `findHexAll`). -/
def KittyScannerMgr.findHexFirst (self : KittyScannerMgr) (validateHex : List Char → Bool)
    (buf0 : Nat) (start end_ : Nat) (hex : List Char) (mask : List Char) : Outcome Nat :=
  if self._pMem.isNone ∨ start ≥ end_ ∨ mask.isEmpty ∨ !validateHex hex then ⟨0, []⟩
  else
    let scan_size := mask.length
    if hex.length / 2 ≠ scan_size then ⟨0, []⟩
    else self.findBytesFirst buf0 start end_ (some (hexPattern hex scan_size)) mask

/-- Value of a little-endian unsigned field made of the given bytes. -/
def leVal : List Byte → Nat
  | [] => 0
  | b :: bs => b % 256 + 256 * leVal bs

/-- The unsigned field of `size` bytes found at offset `off` of an object with bytes `bs`. -/
def leField (bs : List Byte) (off size : Nat) : Nat :=
  leVal ((bs.drop off).take size)

/-- The struct `Elf64_Ehdr` of `<elf.h>`. -/
structure Elf64_Ehdr where
  e_ident : List Byte
  e_type : Nat
  e_machine : Nat
  e_version : Nat
  e_entry : Nat
  e_phoff : Nat
  e_shoff : Nat
  e_flags : Nat
  e_ehsize : Nat
  e_phentsize : Nat
  e_phnum : Nat
  e_shentsize : Nat
  e_shnum : Nat
  e_shstrndx : Nat

/-- The struct `Elf64_Phdr` of `<elf.h>`. -/
structure Elf64_Phdr where
  p_type : Nat
  p_flags : Nat
  p_offset : Nat
  p_vaddr : Nat
  p_paddr : Nat
  p_filesz : Nat
  p_memsz : Nat
  p_align : Nat
deriving DecidableEq

/-- The struct `Elf64_Dyn` of `<elf.h>`; `d_un` is the union of `d_val` and `d_ptr`. -/
structure Elf64_Dyn where
  d_tag : Nat
  d_un : Nat
deriving DecidableEq

/-- The struct `Elf64_Sym` of `<elf.h>`. -/
structure Elf64_Sym where
  st_name : Nat
  st_info : Nat
  st_other : Nat
  st_shndx : Nat
  st_value : Nat
  st_size : Nat
deriving DecidableEq

/-- The value of `sizeof(Elf64_Ehdr)`. -/
def sizeofEhdr : Nat := 64
/-- The value of `sizeof(Elf64_Phdr)`. -/
def sizeofPhdr : Nat := 56
/-- The value of `sizeof(Elf64_Dyn)`. -/
def sizeofDyn : Nat := 16
/-- The value of `sizeof(Elf64_Sym)`. -/
def sizeofSym : Nat := 24

/-- An `Elf64_Ehdr` object read from its 64 bytes. -/
def decodeEhdr (bs : List Byte) : Elf64_Ehdr where
  e_ident := (bs.take 16).map (· % 256)
  e_type := leField bs 16 2
  e_machine := leField bs 18 2
  e_version := leField bs 20 4
  e_entry := leField bs 24 8
  e_phoff := leField bs 32 8
  e_shoff := leField bs 40 8
  e_flags := leField bs 48 4
  e_ehsize := leField bs 52 2
  e_phentsize := leField bs 54 2
  e_phnum := leField bs 56 2
  e_shentsize := leField bs 58 2
  e_shnum := leField bs 60 2
  e_shstrndx := leField bs 62 2

/-- An `Elf64_Phdr` object read from its 56 bytes. -/
def decodePhdr (bs : List Byte) : Elf64_Phdr where
  p_type := leField bs 0 4
  p_flags := leField bs 4 4
  p_offset := leField bs 8 8
  p_vaddr := leField bs 16 8
  p_paddr := leField bs 24 8
  p_filesz := leField bs 32 8
  p_memsz := leField bs 40 8
  p_align := leField bs 48 8

/-- An `Elf64_Dyn` object read from its 16 bytes. -/
def decodeDyn (bs : List Byte) : Elf64_Dyn where
  d_tag := leField bs 0 8
  d_un := leField bs 8 8

/-- An `Elf64_Sym` object read from its 24 bytes. -/
def decodeSym (bs : List Byte) : Elf64_Sym where
  st_name := leField bs 0 4
  st_info := leField bs 4 1
  st_other := leField bs 5 1
  st_shndx := leField bs 6 2
  st_value := leField bs 8 8
  st_size := leField bs 16 8

/-- The constant `EI_CLASS` of `<elf.h>`. -/
def EI_CLASS : Nat := 4
/-- The macro `ELF_EICLASS_` of KittyUtils.hpp. -/
def ELF_EICLASS_ : Nat := 2
/-- The constant `PT_LOAD` of `<elf.h>`. -/
def PT_LOAD : Nat := 1
/-- The constant `PT_DYNAMIC` of `<elf.h>`. -/
def PT_DYNAMIC : Nat := 2
/-- The constant `DT_NULL` of `<elf.h>`. -/
def DT_NULL : Nat := 0
/-- The constant `DT_STRTAB` of `<elf.h>`. -/
def DT_STRTAB : Nat := 5
/-- The constant `DT_SYMTAB` of `<elf.h>`. -/
def DT_SYMTAB : Nat := 6
/-- The constant `DT_STRSZ` of `<elf.h>`. -/
def DT_STRSZ : Nat := 10
/-- The constant `DT_SYMENT` of `<elf.h>`. -/
def DT_SYMENT : Nat := 11
/-- The constant `UINTPTR_MAX`. -/
def UINTPTR_MAX : Nat := UINTPTR_MOD - 1
/-- The bytes of the string literal `"\177ELF"` that `memcmp` looks at. -/
def ELFMAG : List Byte := [0x7f, 0x45, 0x4c, 0x46]

/-- The macro `KT_PAGE_START(x)`, that is `uintptr_t(x) & ~(KT_PAGE_SIZE - 1)`; the value of
`KT_PAGE_SIZE` (a `long` obtained from `sysconf`) is the argument `pageSize`. -/
def KT_PAGE_START (pageSize x : Nat) : Nat :=
  (x % UINTPTR_MOD) &&& (UINTPTR_MOD - 1 - uptrSub pageSize 1)

/-- The macro `KT_PAGE_END(x)`, that is `KT_PAGE_START(x + KT_PAGE_SIZE - 1)`. -/
def KT_PAGE_END (pageSize x : Nat) : Nat :=
  KT_PAGE_START pageSize (uptrSub (uptrAdd x pageSize) 1)

/-- The effect of `memcpy(&dst, src, n)` on the bytes of the object `dst`: the bytes that land
inside the object. When `n` exceeds the size of `dst` the copy also writes past its end
(`memcpyOverrun` counts those bytes), which this function does not describe: it is the
behaviour of the source only for `n ≤ dst.length`. -/
def memcpyInto (dst src : List Byte) (n : Nat) : List Byte :=
  let stored := (src.take n).take dst.length
  stored ++ dst.drop stored.length

/-- The data members of the class `ElfScanner`. -/
structure ElfScanner where
  _pMem : Option IKittyMemOp
  _elfBase : Nat
  _ehdr : Elf64_Ehdr
  _phdrs : List Elf64_Phdr
  _loads : Nat
  _loadBias : Nat
  _loadSize : Nat
  _dynamics : List Elf64_Dyn
  _stringTable : Nat
  _symbolTable : Nat
  _strsz : Nat
  _syment : Nat
  _symbols : List (Nat × List Char)

/-- The members as the first statements of the constructor leave them (`_ehdr = {}` and
empty vectors). -/
def ElfScanner.init : ElfScanner where
  _pMem := none
  _elfBase := 0
  _ehdr := decodeEhdr (List.replicate sizeofEhdr 0)
  _phdrs := []
  _loads := 0
  _loadBias := 0
  _loadSize := 0
  _dynamics := []
  _stringTable := 0
  _symbolTable := 0
  _strsz := 0
  _syment := 0
  _symbols := []

/-- The accessor `isValid()`. -/
def ElfScanner.isValid (self : ElfScanner) : Bool :=
  self._loads ≠ 0 && !self._phdrs.isEmpty && self._loadBias ≠ 0 && self._loadSize ≠ 0 &&
    !self._dynamics.isEmpty && self._stringTable ≠ 0 && self._symbolTable ≠ 0 &&
    self._strsz ≠ 0 && self._syment ≠ 0

/-- The accessor `header()`. -/
def ElfScanner.header (self : ElfScanner) : Elf64_Ehdr := self._ehdr
/-- The accessor `programHeaders()`. -/
def ElfScanner.programHeaders (self : ElfScanner) : List Elf64_Phdr := self._phdrs
/-- The accessor `loads()`. -/
def ElfScanner.loads (self : ElfScanner) : Nat := self._loads
/-- The accessor `loadBias()`. -/
def ElfScanner.loadBias (self : ElfScanner) : Nat := self._loadBias
/-- The accessor `loadSize()`. -/
def ElfScanner.loadSize (self : ElfScanner) : Nat := self._loadSize
/-- The accessor `dynamics()`. -/
def ElfScanner.dynamics (self : ElfScanner) : List Elf64_Dyn := self._dynamics
/-- The accessor `stringTable()`. -/
def ElfScanner.stringTable (self : ElfScanner) : Nat := self._stringTable
/-- The accessor `symbolTable()`. -/
def ElfScanner.symbolTable (self : ElfScanner) : Nat := self._symbolTable
/-- The accessor `stringTableSize()`. -/
def ElfScanner.stringTableSize (self : ElfScanner) : Nat := self._strsz
/-- The accessor `symbolEntrySize()`. -/
def ElfScanner.symbolEntrySize (self : ElfScanner) : Nat := self._syment
/-- The accessor `symbols()`. -/
def ElfScanner.symbols (self : ElfScanner) : List (Nat × List Char) := self._symbols

/-- The locals and members the "find load bias" loop of the constructor updates. -/
structure LoadScan where
  phdrs : List Elf64_Phdr
  loads : Nat
  min_vaddr : Nat
  max_vaddr : Nat

/-- The `phdr_entry` of iteration `i`: a zeroed `Elf64_Phdr` after
`memcpy(&phdr_entry, phdrs_buf.data() + (i * e_phentsize), e_phentsize)`. -/
def phdrEntry (ehdr : Elf64_Ehdr) (phdrs_buf : List Byte) (i : Nat) : Elf64_Phdr :=
  decodePhdr (memcpyInto (List.replicate sizeofPhdr 0)
    (phdrs_buf.drop (i * ehdr.e_phentsize)) ehdr.e_phentsize)

/-- One iteration of the "find load bias" loop. -/
def loadScanStep (ehdr : Elf64_Ehdr) (phdrs_buf : List Byte) (st : LoadScan) (i : Nat) :
    LoadScan :=
  let phdr_entry := phdrEntry ehdr phdrs_buf i
  let st := { st with phdrs := st.phdrs ++ [phdr_entry] }
  if phdr_entry.p_type = PT_LOAD then
    { st with
      loads := st.loads + 1
      min_vaddr := if phdr_entry.p_vaddr < st.min_vaddr then phdr_entry.p_vaddr else st.min_vaddr
      max_vaddr :=
        if uptrAdd phdr_entry.p_vaddr phdr_entry.p_memsz > st.max_vaddr then
          uptrAdd phdr_entry.p_vaddr phdr_entry.p_memsz
        else st.max_vaddr }
  else st

/-- The whole "find load bias" loop, `for (i = 0; i < e_phnum; i++)`. -/
def loadScan (ehdr : Elf64_Ehdr) (phdrs_buf : List Byte) : LoadScan :=
  (List.range ehdr.e_phnum).foldl (loadScanStep ehdr phdrs_buf) ⟨[], 0, UINTPTR_MAX, 0⟩

/-- The members the "read all dynamics" loops update. -/
structure DynScan where
  dynamics : List Elf64_Dyn
  stringTable : Nat
  symbolTable : Nat
  strsz : Nat
  syment : Nat

/-- The inner loop `for (auto &dyn : dyn_buff)`. -/
def dynScanEntries : List Elf64_Dyn → DynScan → DynScan
  | [], st => st
  | dyn :: rest, st =>
    if dyn.d_tag = DT_NULL then st
    else
      let st :=
        if dyn.d_tag = DT_STRTAB then { st with stringTable := dyn.d_un }
        else if dyn.d_tag = DT_SYMTAB then { st with symbolTable := dyn.d_un }
        else if dyn.d_tag = DT_STRSZ then { st with strsz := dyn.d_un }
        else if dyn.d_tag = DT_SYMENT then { st with syment := dyn.d_un }
        else st
      dynScanEntries rest { st with dynamics := st.dynamics ++ [dyn] }

/-- The elements of `std::vector<Elf64_Dyn> dyn_buff(n)` when its bytes are `bs`. -/
def dynEntries (bs : List Byte) (n : Nat) : List Elf64_Dyn :=
  (List.range n).map fun k => decodeDyn ((bs.drop (k * sizeofDyn)).take sizeofDyn)

/-- The outer loop `for (auto &phdr : _phdrs)` of "read all dynamics"; a failed read leaves
this loop (`break`). `Read` is asked to store `p_memsz` bytes in a vector of
`p_memsz / sizeof(Elf64_Dyn)` entries: the bytes that land inside the vector are kept. When
`p_memsz` is not a multiple of the entry size the read also writes past the end of the vector,
and for `p_memsz ≥ 2 ^ 63` the vector cannot be built; this function is the behaviour of the
source for the other segments only (`DynReadsFit`). -/
def readDynamics (pMem : IKittyMemOp) (loadBias : Nat) : List Elf64_Phdr → DynScan → DynScan
  | [], st => st
  | phdr :: rest, st =>
    if phdr.p_type = PT_DYNAMIC then
      let dyn_addr := uptrAdd loadBias phdr.p_vaddr
      let n := phdr.p_memsz / sizeofDyn
      let r := pMem.readInto dyn_addr phdr.p_memsz (List.replicate (n * sizeofDyn) 0)
      if r.1 = 0 then st
      else readDynamics pMem loadBias rest (dynScanEntries (dynEntries r.2 n) st)
    else readDynamics pMem loadBias rest st

/-- The lambda `fix_table_address`, as the new value of its argument. -/
def fix_table_address (loadBias table_addr : Nat) : Nat :=
  if table_addr ≠ 0 ∧ table_addr < loadBias then uptrAdd table_addr loadBias else table_addr

/-- The lambda `get_sym_address`. -/
def get_sym_address (loadBias : Nat) (sym_ent : Elf64_Sym) : Nat :=
  if sym_ent.st_value < loadBias then uptrAdd loadBias sym_ent.st_value else sym_ent.st_value

/-- The "linear search" loop `for (; sym_entry; sym_entry += _syment)`; the result is `none`
when `fuel` iterations did not end it. `Read` is asked to store `_syment` bytes in `curr_sym`:
the bytes that land inside it are kept. For `_syment > sizeof(Elf64_Sym)` the read also writes
past the end of `curr_sym`; this function is the behaviour of the source for
`_syment ≤ sizeof(Elf64_Sym)` only (`SymReadFits`). -/
def walkSymbols (pMem : IKittyMemOp) (loadBias stringTable strsz syment : Nat) :
    Nat → Nat → List (Nat × List Char) → Option (List (Nat × List Char))
  | 0, _, _ => none
  | fuel + 1, sym_entry, symbols =>
    if sym_entry = 0 then some symbols
    else
      let r := pMem.readInto sym_entry syment (List.replicate sizeofSym 0)
      let curr_sym := decodeSym r.2
      if r.1 = 0 ∨ curr_sym.st_name ≥ strsz then some symbols
      else if curr_sym.st_name = 0 ∨ curr_sym.st_value = 0 then
        walkSymbols pMem loadBias stringTable strsz syment fuel (uptrAdd sym_entry syment) symbols
      else
        let sym_str := pMem.ReadStr (uptrAdd stringTable curr_sym.st_name) 1024
        let symbols :=
          if !sym_str.isEmpty then symbols ++ [(get_sym_address loadBias curr_sym, sym_str)]
          else symbols
        walkSymbols pMem loadBias stringTable strsz syment fuel (uptrAdd sym_entry syment) symbols

/-- Last part of the constructor (from "check required dynamics for symbol lookup" to the
end), on the members `s` reached so far. -/
def ElfScanner.symbolsStage (fuel : Nat) (m : IKittyMemOp) (s : ElfScanner) :
    Option ElfScanner :=
  if s._stringTable = 0 ∨ s._symbolTable = 0 ∨ s._strsz = 0 ∨ s._syment = 0 then some s
  else
    let s :=
      { s with
        _stringTable := fix_table_address s._loadBias s._stringTable
        _symbolTable := fix_table_address s._loadBias s._symbolTable }
    match walkSymbols m s._loadBias s._stringTable s._strsz s._syment fuel s._symbolTable [] with
    | none => none
    | some symbols => some { s with _symbols := symbols }

/-- The part "read all dynamics" of the constructor, followed by the rest of it. -/
def ElfScanner.dynamicsStage (fuel : Nat) (m : IKittyMemOp) (s : ElfScanner) :
    Option ElfScanner :=
  let ds := readDynamics m s._loadBias s._phdrs
    ⟨s._dynamics, s._stringTable, s._symbolTable, s._strsz, s._syment⟩
  ElfScanner.symbolsStage fuel m
    { s with
      _dynamics := ds.dynamics
      _stringTable := ds.stringTable
      _symbolTable := ds.symbolTable
      _strsz := ds.strsz
      _syment := ds.syment }

/-- The parts "read all program headers" and "find load bias" of the constructor, followed by
the rest of it. The result is `none` when the `int` product `e_phnum * e_phentsize`
overflows. -/
def ElfScanner.loadStage (pageSize fuel : Nat) (m : IKittyMemOp) (s : ElfScanner) :
    Option ElfScanner :=
  if s._ehdr.e_phnum * s._ehdr.e_phentsize ≥ 2 ^ 31 then none
  else
    let size := s._ehdr.e_phnum * s._ehdr.e_phentsize
    let rp := m.readInto (uptrAdd s._elfBase s._ehdr.e_phoff) size (List.replicate size 0)
    if rp.1 = 0 then some s
    else
      let ls := loadScan s._ehdr rp.2
      let s := { s with _phdrs := ls.phdrs, _loads := ls.loads }
      if ls.loads = 0 then some s
      else if ls.max_vaddr = 0 then some s
      else
        let min_vaddr := KT_PAGE_START pageSize ls.min_vaddr
        let max_vaddr := KT_PAGE_END pageSize ls.max_vaddr
        ElfScanner.dynamicsStage fuel m
          { s with
            _loadBias := uptrSub s._elfBase min_vaddr
            _loadSize := uptrSub max_vaddr min_vaddr }

/-- The constructor `ElfScanner::ElfScanner(pMem, elfBase)`: the member initialisation, the
header read and the header checks, followed by the rest of it. `pageSize` is the value of
`KT_PAGE_SIZE` and `fuel` bounds the iterations of the symbol walk. The result is `none`
when no image is produced: the walk did not end within `fuel` iterations, or the `int`
product `e_phnum * e_phentsize` overflows. -/
def ElfScanner.new (pageSize fuel : Nat) (pMem : Option IKittyMemOp) (elfBase : Nat) :
    Option ElfScanner :=
  match pMem with
  | none => some ElfScanner.init
  | some m =>
    if elfBase = 0 then some ElfScanner.init
    else
      let rh := m.readInto elfBase sizeofEhdr (List.replicate sizeofEhdr 0)
      let ehdr := decodeEhdr rh.2
      let s : ElfScanner :=
        { ElfScanner.init with _pMem := some m, _elfBase := elfBase, _ehdr := ehdr }
      if rh.1 = 0 then some s
      else if ehdr.e_ident.take 4 ≠ ELFMAG then some s
      else if ehdr.e_ident.getD EI_CLASS 0 ≠ ELF_EICLASS_ then some s
      else if ehdr.e_phnum = 0 ∨ ehdr.e_phentsize = 0 ∨ ehdr.e_shnum = 0 ∨ ehdr.e_shentsize = 0 then
        some s
      else ElfScanner.loadStage pageSize fuel m s

/-- The method `ElfScanner::findSymbol`. -/
def ElfScanner.findSymbol (self : ElfScanner) (symbolName : List Char) : Nat :=
  if self._symbols.isEmpty then 0
  else
    match self._symbols.find? (fun sym => !sym.2.isEmpty && sym.2 == symbolName) with
    | some sym => sym.1
    | none => 0

/-! ## Spec-side notions used to state the scanner properties -/

/-- The matching rule of the specification: the pattern matches the buffer at offset `i` when
every must-match position `j` of the mask (character `x`) has `buf[i + j] = pattern[j]`;
every other mask character is a wildcard. -/
def MatchAt (buf : List Byte) (pattern : Nat → Byte) (mask : List Char) (i : Nat) : Prop :=
  ∀ j, j < mask.length → mask[j]? = some 'x' → buf[i + j]? = some (pattern j)

instance (buf : List Byte) (pattern : Nat → Byte) (mask : List Char) (i : Nat) :
    Decidable (MatchAt buf pattern mask i) := by
  unfold MatchAt; infer_instance

/-- The pattern matches at the remote address `a` of the range `[start, end_)` whose bytes are
`buf`: the window `[a, a + mask.length)` lies in the range and the matching rule holds at
offset `a - start`. -/
def MatchAddr (buf : List Byte) (pattern : Nat → Byte) (mask : List Char) (start end_ : Nat)
    (a : Nat) : Prop :=
  start ≤ a ∧ a + mask.length ≤ end_ ∧ MatchAt buf pattern mask (a - start)

instance (buf : List Byte) (pattern : Nat → Byte) (mask : List Char) (start end_ a : Nat) :
    Decidable (MatchAddr buf pattern mask start end_ a) := by
  unfold MatchAddr; infer_instance

/-- The greedy left-to-right sequence of the specification, for a matching predicate `P` and
scan size `n`, searching from address `lo`: the first element is the lowest address `≥ lo`
satisfying `P`, the rest is the greedy sequence from that address plus `n`, and the sequence
ends when no address `≥ lo` satisfies `P`. -/
def GreedyFrom (P : Nat → Prop) (n : Nat) : Nat → List Nat → Prop
  | lo, [] => ∀ a, lo ≤ a → ¬ P a
  | lo, a :: rest => lo ≤ a ∧ P a ∧ (∀ b, lo ≤ b → b < a → ¬ P b) ∧ GreedyFrom P n (a + n) rest

/-- The bytes of the local buffer of a scan of `[start, end_)` after the bulk read. -/
def scanBuffer (m : IKittyMemOp) (start end_ : Nat) : List Byte :=
  (m.readInto start (end_ - start) (List.replicate (end_ - start) 0)).2

/-- The count the bulk read of `[start, end_)` returns. -/
def scanCount (m : IKittyMemOp) (start end_ : Nat) : Nat :=
  (m.Read start (end_ - start)).1

/-- The answer of `compare` for the window of the local buffer that holds the bytes of the
remote address `a`, in a scan of the range starting at `start`. -/
def compareAt (buf0 : Nat) (buf : List Byte) (pattern : Nat → Byte) (mask : List Char)
    (start a : Nat) : Bool :=
  compare (localMem buf0 buf) (buf0 + (a - start)) pattern 0 mask

/-- The `_ehdr` member after the header read `Read(elfBase, &_ehdr, sizeof(_ehdr))`. -/
def headerAt (m : IKittyMemOp) (elfBase : Nat) : Elf64_Ehdr :=
  decodeEhdr (m.readInto elfBase sizeofEhdr (List.replicate sizeofEhdr 0)).2

/-- The bytes of `phdrs_buf` after the read of the program header table, for the header
found at `elfBase`. -/
def phdrTableAt (m : IKittyMemOp) (elfBase : Nat) : List Byte :=
  (m.readInto (uptrAdd elfBase (headerAt m elfBase).e_phoff)
    ((headerAt m elfBase).e_phnum * (headerAt m elfBase).e_phentsize)
    (List.replicate ((headerAt m elfBase).e_phnum * (headerAt m elfBase).e_phentsize) 0)).2

/-- The result of the "find load bias" loop for the image at `elfBase`. -/
def loadScanAt (m : IKittyMemOp) (elfBase : Nat) : LoadScan :=
  loadScan (headerAt m elfBase) (phdrTableAt m elfBase)

/-- What the "find load bias" loop maintains, `L` being the entries parsed so far: the list
built is `L`, `loads` counts the `PT_LOAD` entries of `L`, `min_vaddr` and `max_vaddr` bound
the `PT_LOAD` entries of `L`, and each is its initial value or is attained by one of them. -/
def LoadScan.Inv (st : LoadScan) (L : List Elf64_Phdr) : Prop :=
  st.phdrs = L ∧
  st.loads = L.countP (fun p => decide (p.p_type = PT_LOAD)) ∧
  (∀ p ∈ L, p.p_type = PT_LOAD →
    st.min_vaddr ≤ p.p_vaddr ∧ uptrAdd p.p_vaddr p.p_memsz ≤ st.max_vaddr) ∧
  (st.min_vaddr = UINTPTR_MAX ∨ ∃ p ∈ L, p.p_type = PT_LOAD ∧ p.p_vaddr = st.min_vaddr) ∧
  (st.max_vaddr = 0 ∨
    ∃ p ∈ L, p.p_type = PT_LOAD ∧ uptrAdd p.p_vaddr p.p_memsz = st.max_vaddr)

/-- The specification's `page_align_down`: the greatest multiple of the page size that is at
most `x`. -/
def pageAlignDown (pageSize x : Nat) : Nat := x / pageSize * pageSize

/-- The specification's `page_align_up`: the least multiple of the page size that is at
least `x`. -/
def pageAlignUp (pageSize x : Nat) : Nat := (x + pageSize - 1) / pageSize * pageSize

/-! ## Concrete capabilities and patterns of the worked examples -/

/-- A capability whose every `Read` is complete: it reports `len` bytes and stores `bytes`
(the rest of the destination keeps its zero initialisation). -/
def fullMem (bytes : List Byte) : IKittyMemOp :=
  ⟨fun _ len => (len, bytes), fun _ _ => []⟩

/-- A capability whose every `Read` reports `count` bytes and stores `bytes`. -/
def shortMem (count : Nat) (bytes : List Byte) : IKittyMemOp :=
  ⟨fun _ _ => (count, bytes), fun _ _ => []⟩

/-- The pointer to an array holding `bs`. -/
def bytesPtr (bs : List Byte) : Nat → Byte :=
  fun j => bs.getD j 0

/-- The `n` bytes of the little-endian field holding `v`. -/
def leBytes (n v : Nat) : List Byte :=
  (List.range n).map fun k => v / 256 ^ k % 256

/-- The 64 bytes of an ELF64 header with one program header of 56 bytes at offset 64. -/
def exampleEhdrBytes : List Byte :=
  [0x7f, 0x45, 0x4c, 0x46, 2, 1, 1, 0, 0, 0, 0, 0, 0, 0, 0, 0] ++ leBytes 2 3 ++
    leBytes 2 0xb7 ++ leBytes 4 1 ++ leBytes 8 0 ++ leBytes 8 64 ++ leBytes 8 0 ++ leBytes 4 0 ++
    leBytes 2 64 ++ leBytes 2 56 ++ leBytes 2 1 ++ leBytes 2 64 ++ leBytes 2 1 ++ leBytes 2 0

/-- The 56 bytes of a `PT_LOAD` program header at virtual address `0x0` of memory size
`0x2000`. -/
def examplePhdrBytes : List Byte :=
  leBytes 4 1 ++ leBytes 4 5 ++ leBytes 8 0 ++ leBytes 8 0 ++ leBytes 8 0 ++ leBytes 8 0x2000 ++
    leBytes 8 0x2000 ++ leBytes 8 0x1000

/-- A remote process with that image mapped at `0x70000000`; every other read fails. -/
def exampleElfMem : IKittyMemOp :=
  ⟨fun address len =>
      if address = 0x70000000 then (len, exampleEhdrBytes)
      else if address = 0x70000040 then (len, examplePhdrBytes)
      else (0, []),
    fun _ _ => []⟩

/-! ## Further notions used to state the ELF scanner properties -/

/-- The value recorded for a dynamic tag after the entries `dyns` were scanned in order: the
value of the last entry carrying the tag, and 0 when no entry carries it. -/
def dynValue (tag : Nat) (dyns : List Elf64_Dyn) : Nat :=
  match (dyns.filter fun d => decide (d.d_tag = tag)).getLast? with
  | some d => d.d_un
  | none => 0

/-- The specification's link-time-versus-absolute rule: a value numerically smaller than the
load bias gets the load bias added (modulo `2 ^ 64`), any other value is kept. -/
def fixAddr (loadBias v : Nat) : Nat :=
  if v < loadBias then (v + loadBias) % 2 ^ 64 else v

/-- The header read at `elfBase` passes every check of the constructor: the base is not null,
the read does not return 0, the magic and class bytes are right and the four counts and
sizes are not zero. -/
def HeaderAccepted (m : IKittyMemOp) (elfBase : Nat) : Prop :=
  elfBase ≠ 0 ∧ (m.Read elfBase sizeofEhdr).1 ≠ 0 ∧
    (headerAt m elfBase).e_ident.take 4 = ELFMAG ∧
    (headerAt m elfBase).e_ident.getD EI_CLASS 0 = ELF_EICLASS_ ∧
    (headerAt m elfBase).e_phnum ≠ 0 ∧ (headerAt m elfBase).e_phentsize ≠ 0 ∧
    (headerAt m elfBase).e_shnum ≠ 0 ∧ (headerAt m elfBase).e_shentsize ≠ 0

instance (m : IKittyMemOp) (elfBase : Nat) : Decidable (HeaderAccepted m elfBase) := by
  unfold HeaderAccepted; infer_instance

/-- The size of the program header table fits an `int` and its read does not return 0. -/
def TableRead (m : IKittyMemOp) (elfBase : Nat) : Prop :=
  (headerAt m elfBase).e_phnum * (headerAt m elfBase).e_phentsize < 2 ^ 31 ∧
    (m.Read (uptrAdd elfBase (headerAt m elfBase).e_phoff)
      ((headerAt m elfBase).e_phnum * (headerAt m elfBase).e_phentsize)).1 ≠ 0

instance (m : IKittyMemOp) (elfBase : Nat) : Decidable (TableRead m elfBase) := by
  unfold TableRead; infer_instance

/-- The program headers parsed from the table of the image at `elfBase`, in file order. -/
def parsedPhdrs (m : IKittyMemOp) (elfBase : Nat) : List Elf64_Phdr :=
  (List.range (headerAt m elfBase).e_phnum).map
    (phdrEntry (headerAt m elfBase) (phdrTableAt m elfBase))

/-- The members after the header read. -/
def headerState (m : IKittyMemOp) (elfBase : Nat) : ElfScanner :=
  { ElfScanner.init with _pMem := some m, _elfBase := elfBase, _ehdr := headerAt m elfBase }

/-- The members after the "find load bias" loop. -/
def scannedState (m : IKittyMemOp) (elfBase : Nat) : ElfScanner :=
  { headerState m elfBase with
    _phdrs := (loadScanAt m elfBase).phdrs
    _loads := (loadScanAt m elfBase).loads }

/-- The load bias the constructor computes for the image at `elfBase`. -/
def loadBiasAt (pageSize : Nat) (m : IKittyMemOp) (elfBase : Nat) : Nat :=
  uptrSub elfBase (KT_PAGE_START pageSize (loadScanAt m elfBase).min_vaddr)

/-- The load size the constructor computes for the image at `elfBase`. -/
def loadSizeAt (pageSize : Nat) (m : IKittyMemOp) (elfBase : Nat) : Nat :=
  uptrSub (KT_PAGE_END pageSize (loadScanAt m elfBase).max_vaddr)
    (KT_PAGE_START pageSize (loadScanAt m elfBase).min_vaddr)

/-- The members after the load bias and the load size are set. -/
def loadedState (pageSize : Nat) (m : IKittyMemOp) (elfBase : Nat) : ElfScanner :=
  { scannedState m elfBase with
    _loadBias := loadBiasAt pageSize m elfBase
    _loadSize := loadSizeAt pageSize m elfBase }

/-- The dynamic members after "read all dynamics", for the image at `elfBase`. -/
def dynamicsAt (pageSize : Nat) (m : IKittyMemOp) (elfBase : Nat) : DynScan :=
  readDynamics m (loadBiasAt pageSize m elfBase) (loadScanAt m elfBase).phdrs ⟨[], 0, 0, 0, 0⟩

/-- The members after "read all dynamics". -/
def dynState (pageSize : Nat) (m : IKittyMemOp) (elfBase : Nat) : ElfScanner :=
  { loadedState pageSize m elfBase with
    _dynamics := (dynamicsAt pageSize m elfBase).dynamics
    _stringTable := (dynamicsAt pageSize m elfBase).stringTable
    _symbolTable := (dynamicsAt pageSize m elfBase).symbolTable
    _strsz := (dynamicsAt pageSize m elfBase).strsz
    _syment := (dynamicsAt pageSize m elfBase).syment }

/-- The symbol table entry the walk reads at `address`: the count the read returns and the
entry decoded from `curr_sym`. -/
def readSym (m : IKittyMemOp) (syment address : Nat) : Nat × Elf64_Sym :=
  ((m.readInto address syment (List.replicate sizeofSym 0)).1,
    decodeSym (m.readInto address syment (List.replicate sizeofSym 0)).2)

/-- The address of the `k`-th symbol table entry, `symtab + k * syment` modulo `2 ^ 64`. -/
def symEntryAddr (symtab syment k : Nat) : Nat :=
  (symtab + k * syment) % 2 ^ 64

/-- The walk stops at the entry at `address`: its read fails or its name offset is at least
the string table size. -/
def WalkStops (m : IKittyMemOp) (strsz syment address : Nat) : Prop :=
  (readSym m syment address).1 = 0 ∨ (readSym m syment address).2.st_name ≥ strsz

instance (m : IKittyMemOp) (strsz syment address : Nat) :
    Decidable (WalkStops m strsz syment address) := by
  unfold WalkStops; infer_instance

/-- What the entry at `address` contributes to the symbol index: nothing when its name offset
or its value is 0 or its name is empty, else the pair of its fixed-up value and its name. -/
def symbolOf (m : IKittyMemOp) (loadBias stringTable syment address : Nat) :
    Option (Nat × List Char) :=
  let sym := (readSym m syment address).2
  if sym.st_name = 0 ∨ sym.st_value = 0 then none
  else
    let name := m.ReadStr ((stringTable + sym.st_name) % 2 ^ 64) 1024
    if name = [] then none else some (fixAddr loadBias sym.st_value, name)

/-- What "read all dynamics" maintains: each of the four recorded values is the value of the
last entry stored with its tag (0 when there is none), no stored entry has the tag
`DT_NULL`, and every stored value fits 64 bits. -/
def DynScan.Inv (st : DynScan) : Prop :=
  st.stringTable = dynValue DT_STRTAB st.dynamics ∧
  st.symbolTable = dynValue DT_SYMTAB st.dynamics ∧
  st.strsz = dynValue DT_STRSZ st.dynamics ∧
  st.syment = dynValue DT_SYMENT st.dynamics ∧
  ∀ d ∈ st.dynamics, d.d_tag ≠ DT_NULL ∧ d.d_un < UINTPTR_MOD

/-- The image at `elfBase` reaches the symbol walk: its header is accepted, its program header
table is read, the load bias is defined (a `PT_LOAD` entry was counted and the computed
maximum virtual address is not zero) and the four mandatory dynamic values are not zero. -/
def ReachesWalk (pageSize : Nat) (m : IKittyMemOp) (elfBase : Nat) : Prop :=
  HeaderAccepted m elfBase ∧ TableRead m elfBase ∧
    (loadScanAt m elfBase).loads ≠ 0 ∧ (loadScanAt m elfBase).max_vaddr ≠ 0 ∧
    (dynamicsAt pageSize m elfBase).stringTable ≠ 0 ∧
    (dynamicsAt pageSize m elfBase).symbolTable ≠ 0 ∧
    (dynamicsAt pageSize m elfBase).strsz ≠ 0 ∧ (dynamicsAt pageSize m elfBase).syment ≠ 0

instance (pageSize : Nat) (m : IKittyMemOp) (elfBase : Nat) :
    Decidable (ReachesWalk pageSize m elfBase) := by
  unfold ReachesWalk; infer_instance

/-- Number of bytes `memcpy(&dst, src, n)` writes past the end of an object `dst` of
`dstSize` bytes. -/
def memcpyOverrun (dstSize n : Nat) : Nat := n - dstSize

/-- Number of bytes the copy `memcpy(&phdr_entry, ..., e_phentsize)` of the "find load bias"
loop writes past the end of `phdr_entry`. -/
def phdrEntryOverrun (ehdr : Elf64_Ehdr) : Nat :=
  memcpyOverrun sizeofPhdr ehdr.e_phentsize

/-- The hex digit (lower case, as `std::hex` prints) of a value below 16. -/
def hexDigit (n : Nat) : Char :=
  if n < 10 then Char.ofNat (48 + n) else Char.ofNat (87 + n)

/-- The function template `KittyUtils::data2Hex` on an object whose bytes are `bytes`: every
byte printed as `static_cast<int>` in hex with `setw(2)` and `setfill('0')`. -/
def data2Hex : List Byte → List Char
  | [] => []
  | b :: bytes => hexDigit (b % 256 / 16) :: hexDigit (b % 256 % 16) :: data2Hex bytes

/-- The members when the symbol walk starts: the table addresses are fixed up. -/
def fixedState (pageSize : Nat) (m : IKittyMemOp) (elfBase : Nat) : ElfScanner :=
  { dynState pageSize m elfBase with
    _stringTable :=
      fix_table_address (loadBiasAt pageSize m elfBase) (dynamicsAt pageSize m elfBase).stringTable
    _symbolTable :=
      fix_table_address (loadBiasAt pageSize m elfBase)
        (dynamicsAt pageSize m elfBase).symbolTable }

/-- The symbol walk of the constructor for the image at `elfBase`. -/
def walkAt (pageSize fuel : Nat) (m : IKittyMemOp) (elfBase : Nat) :
    Option (List (Nat × List Char)) :=
  walkSymbols m (loadBiasAt pageSize m elfBase) (fixedState pageSize m elfBase)._stringTable
    (dynamicsAt pageSize m elfBase).strsz (dynamicsAt pageSize m elfBase).syment fuel
    (fixedState pageSize m elfBase)._symbolTable []

/-- The fixed-up symbol table address of the image at `elfBase`, where the walk starts. -/
def symtabAt (pageSize : Nat) (m : IKittyMemOp) (elfBase : Nat) : Nat :=
  (fixedState pageSize m elfBase)._symbolTable

/-- The fixed-up string table address of the image at `elfBase`. -/
def strtabAt (pageSize : Nat) (m : IKittyMemOp) (elfBase : Nat) : Nat :=
  (fixedState pageSize m elfBase)._stringTable

/-- The address of the `k`-th symbol table entry of the image at `elfBase`. -/
def entryAt (pageSize : Nat) (m : IKittyMemOp) (elfBase k : Nat) : Nat :=
  symEntryAddr (symtabAt pageSize m elfBase) (dynamicsAt pageSize m elfBase).syment k

/-- The 64 bytes of an ELF64 header announcing `phnum` program headers of `phentsize` bytes
at offset 64. -/
def ehdrBytes (phnum phentsize : Nat) : List Byte :=
  [0x7f, 0x45, 0x4c, 0x46, 2, 1, 1, 0, 0, 0, 0, 0, 0, 0, 0, 0] ++ leBytes 2 3 ++
    leBytes 2 0xb7 ++ leBytes 4 1 ++ leBytes 8 0 ++ leBytes 8 64 ++ leBytes 8 0 ++ leBytes 4 0 ++
    leBytes 2 64 ++ leBytes 2 phentsize ++ leBytes 2 phnum ++ leBytes 2 64 ++ leBytes 2 1 ++
    leBytes 2 0

/-- The 56 bytes of a program header. -/
def phdrBytes (p_type p_vaddr p_memsz : Nat) : List Byte :=
  leBytes 4 p_type ++ leBytes 4 5 ++ leBytes 8 0 ++ leBytes 8 p_vaddr ++ leBytes 8 0 ++
    leBytes 8 p_memsz ++ leBytes 8 p_memsz ++ leBytes 8 0x1000

/-- The 16 bytes of a dynamic entry. -/
def dynBytes (tag value : Nat) : List Byte :=
  leBytes 8 tag ++ leBytes 8 value

/-- The 24 bytes of a symbol table entry. -/
def symBytes (name value : Nat) : List Byte :=
  leBytes 4 name ++ [0x12, 0] ++ leBytes 2 1 ++ leBytes 8 value ++ leBytes 8 0

/-- A remote process made of regions: a read at the start address of a region is complete
and stores the bytes of the region, any other read fails; the strings are read at the
listed addresses. -/
def tableMem (regions : List (Nat × List Byte)) (strings : List (Nat × List Char)) :
    IKittyMemOp :=
  ⟨fun address len =>
      match regions.lookup address with
      | some bytes => (len, bytes)
      | none => (0, []),
    fun address _ => (strings.lookup address).getD []⟩

/-- An image whose only program header is a `PT_NOTE` one. -/
def noLoadImage : IKittyMemOp :=
  tableMem [(0x70000000, ehdrBytes 1 56), (0x70000040, phdrBytes 4 0 0x2000)] []

/-- The image `exampleElfMem`, except that the header read reports 63 bytes and stores the
first 63 bytes of the header. -/
def shortHeaderImage : IKittyMemOp :=
  ⟨fun address len =>
      if address = 0x70000000 then (63, exampleEhdrBytes.take 63)
      else exampleElfMem.Read address len,
    fun _ _ => []⟩

/-- An image with a `PT_LOAD` header and two `PT_DYNAMIC` headers: the segment of the first
one (at `0x70001000`) cannot be read, the segment of the second one (at `0x70001100`) holds
a `DT_STRSZ` entry and the terminator. -/
def twoDynamicImage : IKittyMemOp :=
  tableMem
    [(0x70000000, ehdrBytes 3 56),
      (0x70000040, phdrBytes 1 0 0x2000 ++ phdrBytes 2 0x1000 32 ++ phdrBytes 2 0x1100 32),
      (0x70001100, dynBytes 10 0x40 ++ dynBytes 0 0)] []

/-- An image whose dynamic section has `DT_STRTAB`, `DT_SYMTAB` and `DT_SYMENT` but no
`DT_STRSZ`. -/
def noStrszImage : IKittyMemOp :=
  tableMem
    [(0x70000000, ehdrBytes 2 56),
      (0x70000040, phdrBytes 1 0 0x2000 ++ phdrBytes 2 0x1000 64),
      (0x70001000, dynBytes 5 0x200 ++ dynBytes 6 0x300 ++ dynBytes 11 24 ++ dynBytes 0 0)] []

/-- An image with the four mandatory dynamic values and a symbol table of five entries: the
null symbol, `foo` at `0x1234`, an entry of value 0, `bar` at `0x1500`, and an entry whose
name offset `0x40` is the string table size. -/
def symbolImage : IKittyMemOp :=
  tableMem
    [(0x70000000, ehdrBytes 2 56),
      (0x70000040, phdrBytes 1 0 0x2000 ++ phdrBytes 2 0x1000 80),
      (0x70001000, dynBytes 5 0x200 ++ dynBytes 6 0x300 ++ dynBytes 10 0x40 ++
        dynBytes 11 24 ++ dynBytes 0 0),
      (0x70000300, symBytes 0 0), (0x70000318, symBytes 1 0x1234),
      (0x70000330, symBytes 5 0), (0x70000348, symBytes 9 0x1500),
      (0x70000360, symBytes 0x40 0x1600)]
    [(0x70000201, ['f', 'o', 'o']), (0x70000205, ['q', 'u', 'x']),
      (0x70000209, ['b', 'a', 'r'])]

/-- An image whose header announces program headers of 64 bytes, more than the 56 bytes of
`Elf64_Phdr`. -/
def wideEntryImage : IKittyMemOp :=
  tableMem [(0x70000000, ehdrBytes 1 64), (0x70000040, phdrBytes 1 0 0x2000 ++ leBytes 8 0)] []

/-- The entries of a dynamic segment that precede its first null-tag entry. -/
def entriesBeforeNull (entries : List Elf64_Dyn) : List Elf64_Dyn :=
  entries.takeWhile fun d => decide (d.d_tag ≠ DT_NULL)

/-- The `p_memsz / sizeof(Elf64_Dyn)` entries of the segment of the program header `phdr`,
read at `loadBias + p_vaddr`. -/
def segmentEntries (m : IKittyMemOp) (loadBias : Nat) (phdr : Elf64_Phdr) : List Elf64_Dyn :=
  dynEntries
    (m.readInto (uptrAdd loadBias phdr.p_vaddr) phdr.p_memsz
      (List.replicate (phdr.p_memsz / sizeofDyn * sizeofDyn) 0)).2
    (phdr.p_memsz / sizeofDyn)

/-- The `PT_DYNAMIC` program headers whose segment is read, in program header order: those
before the first one whose read at `loadBias + p_vaddr` returns 0. -/
def dynamicSegmentsRead (m : IKittyMemOp) (loadBias : Nat) (phdrs : List Elf64_Phdr) :
    List Elf64_Phdr :=
  (phdrs.filter fun p => decide (p.p_type = PT_DYNAMIC)).takeWhile fun p =>
    decide ((m.Read (uptrAdd loadBias p.p_vaddr) p.p_memsz).1 ≠ 0)

/-- The specification's dynamic entry list: the concatenation, over the `PT_DYNAMIC` segments
read, of the entries that precede the first null-tag entry of the segment. -/
def dynamicsSpec (m : IKittyMemOp) (loadBias : Nat) (phdrs : List Elf64_Phdr) :
    List Elf64_Dyn :=
  (dynamicSegmentsRead m loadBias phdrs).flatMap fun p =>
    entriesBeforeNull (segmentEntries m loadBias p)

/-- An image with a `PT_LOAD` header and two `PT_DYNAMIC` headers, both readable: the segment
of the first one has three entries, `DT_STRSZ`, the terminator and a `DT_SYMENT` entry after
it; the segment of the second one has two entries, `DT_STRTAB` and `DT_SYMTAB`, and no
terminator. -/
def earlyNullImage : IKittyMemOp :=
  tableMem
    [(0x70000000, ehdrBytes 3 56),
      (0x70000040, phdrBytes 1 0 0x2000 ++ phdrBytes 2 0x1000 48 ++ phdrBytes 2 0x1100 32),
      (0x70001000, dynBytes 10 0x40 ++ dynBytes 0 0 ++ dynBytes 11 24),
      (0x70001100, dynBytes 5 0x200 ++ dynBytes 6 0x300)] []

/-- The copies `memcpy(&phdr_entry, ..., e_phentsize)` of the "find load bias" loop stay inside
`phdr_entry`: the entry size the header of the image at `elfBase` announces is at most
`sizeof(Elf64_Phdr)`. -/
def PhdrCopyFits (m : IKittyMemOp) (elfBase : Nat) : Prop :=
  (headerAt m elfBase).e_phentsize ≤ sizeofPhdr

instance (m : IKittyMemOp) (elfBase : Nat) : Decidable (PhdrCopyFits m elfBase) := by
  unfold PhdrCopyFits; infer_instance

/-- For every `PT_DYNAMIC` program header of the image at `elfBase`, the vector `dyn_buff` can
be built (its size is below the `length_error` limit, the memory for it being available), has
a first element, and holds the `p_memsz` bytes `Read` is asked to store in it: `p_memsz` is
a non-zero multiple of `sizeof(Elf64_Dyn)` below `2 ^ 63`. -/
def DynReadsFit (m : IKittyMemOp) (elfBase : Nat) : Prop :=
  ∀ p ∈ parsedPhdrs m elfBase, p.p_type = PT_DYNAMIC →
    0 < p.p_memsz ∧ p.p_memsz % sizeofDyn = 0 ∧ p.p_memsz < 2 ^ 63

instance (m : IKittyMemOp) (elfBase : Nat) : Decidable (DynReadsFit m elfBase) := by
  unfold DynReadsFit; infer_instance

/-- The reads `Read(sym_entry, &curr_sym, _syment)` of the symbol walk stay inside `curr_sym`:
the recorded symbol entry size is at most `sizeof(Elf64_Sym)`. -/
def SymReadFits (pageSize : Nat) (m : IKittyMemOp) (elfBase : Nat) : Prop :=
  (dynamicsAt pageSize m elfBase).syment ≤ sizeofSym

instance (pageSize : Nat) (m : IKittyMemOp) (elfBase : Nat) :
    Decidable (SymReadFits pageSize m elfBase) := by
  unfold SymReadFits; infer_instance

/-! ## Machine arithmetic -/

theorem uptrAdd_eq {a b : Nat} (h : a + b < UINTPTR_MOD) : uptrAdd a b = a + b := by
  unfold uptrAdd
  exact Nat.mod_eq_of_lt h

theorem uptrSub_eq {a b : Nat} (hba : b ≤ a) (ha : a < UINTPTR_MOD) : uptrSub a b = a - b := by
  unfold uptrSub
  have hb : b % UINTPTR_MOD = b := Nat.mod_eq_of_lt (by omega)
  rw [hb]
  have e : a + (UINTPTR_MOD - b) = (a - b) + UINTPTR_MOD := by omega
  rw [e, Nat.add_mod_right]
  exact Nat.mod_eq_of_lt (by omega)

theorem readInto_length (m : IKittyMemOp) (address len : Nat) (buf : List Byte) :
    (m.readInto address len buf).2.length = buf.length := by
  simp only [IKittyMemOp.readInto, List.length_append, List.length_take, List.length_drop]
  omega

theorem scanBuffer_length (m : IKittyMemOp) (start end_ : Nat) :
    (scanBuffer m start end_).length = end_ - start := by
  simp [scanBuffer, readInto_length]

theorem localMem_at (buf0 : Nat) (buf : List Byte) (i : Nat) :
    localMem buf0 buf (buf0 + i) = buf.getD i 0 := by
  simp [localMem]

/-! ## The function `compare` -/

theorem compare_true_of_match (mem : Nat → Byte) (pattern : Nat → Byte) :
    ∀ (mask : List Char) (data idx : Nat),
      (∀ j, j < mask.length → mask[j]? = some 'x' → mem (data + j) = pattern (idx + j)) →
      compare mem data pattern idx mask = true := by
  intro mask
  induction mask with
  | nil => intro data idx _; rfl
  | cons c mask ih =>
    intro data idx h
    unfold compare
    by_cases hc : c = NUL
    · simp [hc]
    · simp only [hc, if_false]
      have h0 := h 0 (by simp)
      by_cases hx : c = 'x'
      · have := h0 (by simp [hx])
        simp only [Nat.add_zero] at this
        simp only [hx, this, ne_eq, not_true_eq_false, and_false, if_false]
        apply ih
        intro j hj hm
        have := h (j + 1) (by simpa using hj) (by simpa using hm)
        rw [show data + 1 + j = data + (j + 1) by omega, show idx + 1 + j = idx + (j + 1) by omega]
        exact this
      · simp only [hx, false_and, if_false]
        apply ih
        intro j hj hm
        have := h (j + 1) (by simpa using hj) (by simpa using hm)
        rw [show data + 1 + j = data + (j + 1) by omega, show idx + 1 + j = idx + (j + 1) by omega]
        exact this

theorem match_of_compare_true (mem : Nat → Byte) (pattern : Nat → Byte) :
    ∀ (mask : List Char) (data idx : Nat), NUL ∉ mask →
      compare mem data pattern idx mask = true →
      ∀ j, j < mask.length → mask[j]? = some 'x' → mem (data + j) = pattern (idx + j) := by
  intro mask
  induction mask with
  | nil => intro data idx _ _ j hj; simp at hj
  | cons c mask ih =>
    intro data idx hnul hcmp j hj hm
    have hc : c ≠ NUL := fun e => hnul (by simp [e])
    have hnul' : NUL ∉ mask := fun e => hnul (by simp [e])
    unfold compare at hcmp
    simp only [hc, if_false] at hcmp
    by_cases hbad : c = 'x' ∧ mem data ≠ pattern idx
    · simp [hbad] at hcmp
    · simp only [hbad, if_false] at hcmp
      cases j with
      | zero =>
        simp only [List.getElem?_cons_zero, Option.some.injEq] at hm
        simp only [Nat.add_zero]
        by_contra hne
        exact hbad ⟨hm, hne⟩
      | succ j =>
        have := ih (data + 1) (idx + 1) hnul' hcmp j (by simpa using hj) (by simpa using hm)
        rw [show data + (j + 1) = data + 1 + j by omega, show idx + (j + 1) = idx + 1 + j by omega]
        exact this

/-! ## The function `findInRange` -/

theorem findInRange_loop_spec (mem : Nat → Byte) (start end_ : Nat) (pattern : Nat → Byte)
    (mask : List Char) (hend : end_ + 1 < UINTPTR_MOD) :
    ∀ k i, start + i + mask.length ≤ end_ + 1 →
      (findInRange.loop mem start end_ pattern mask k i = 0 ∧
        ∀ i', i ≤ i' → i' < i + k → start + i' + mask.length ≤ end_ →
          compare mem (start + i') pattern 0 mask = false) ∨
      (∃ i', i ≤ i' ∧ i' < i + k ∧ start + i' + mask.length ≤ end_ ∧
          compare mem (start + i') pattern 0 mask = true ∧
          (∀ i'', i ≤ i'' → i'' < i' → compare mem (start + i'') pattern 0 mask = false) ∧
          findInRange.loop mem start end_ pattern mask k i = start + i') := by
  intro k
  induction k with
  | zero =>
    intro i _
    left
    refine ⟨rfl, ?_⟩
    intro i' h1 h2
    omega
  | succ k ih =>
    intro i hi
    have e1 : uptrAdd start i = start + i := uptrAdd_eq (by omega)
    have e2 : uptrAdd (start + i) mask.length = start + i + mask.length := uptrAdd_eq (by omega)
    unfold findInRange.loop
    simp only [e1, e2]
    by_cases hgt : start + i + mask.length > end_
    · left
      simp only [hgt, if_true, true_and]
      intro i' h1 _ h3
      omega
    · simp only [hgt, if_false]
      by_cases hcmp : compare mem (start + i) pattern 0 mask = true
      · right
        refine ⟨i, le_refl _, by omega, by omega, hcmp, ?_, ?_⟩
        · intro i'' h1 h2; omega
        · simp [hcmp]
      · have hcmp' : compare mem (start + i) pattern 0 mask = false := by
          simpa using hcmp
        simp only [hcmp', Bool.not_false, if_true]
        rcases ih (i + 1) (by omega) with ⟨h0, hall⟩ | ⟨i', h1, h2, h3, h4, h5, h6⟩
        · left
          refine ⟨h0, ?_⟩
          intro i' h1 h2 h3
          by_cases hii : i' = i
          · subst hii; exact hcmp'
          · exact hall i' (by omega) (by omega) h3
        · right
          refine ⟨i', by omega, by omega, h3, h4, ?_, h6⟩
          intro i'' h7 h8
          by_cases hii : i'' = i
          · subst hii; exact hcmp'
          · exact h5 i'' (by omega) h8

theorem findInRange_spec (mem : Nat → Byte) (start end_ : Nat) (pattern : Nat → Byte)
    (mask : List Char) (hn : 1 ≤ mask.length) (hfit : end_ + mask.length < UINTPTR_MOD)
    (hse : start ≤ end_) :
    (findInRange mem start end_ pattern mask = 0 ∧
      ∀ a, start ≤ a → a + mask.length ≤ end_ → compare mem a pattern 0 mask = false) ∨
    (∃ a, start ≤ a ∧ a + mask.length ≤ end_ ∧ compare mem a pattern 0 mask = true ∧
      (∀ b, start ≤ b → b < a → compare mem b pattern 0 mask = false) ∧
      findInRange mem start end_ pattern mask = a) := by
  have e1 : uptrAdd start mask.length = start + mask.length := uptrAdd_eq (by omega)
  have e2 : uptrSub end_ start = end_ - start := uptrSub_eq hse (by omega)
  unfold findInRange
  simp only [e1, e2]
  by_cases hgt : start + mask.length > end_
  · left
    refine ⟨by simp [hgt], ?_⟩
    intro a h1 h2
    omega
  · have hcond : ¬ (mask.length < 1 ∨ start + mask.length > end_) := by omega
    simp only [hcond, if_false]
    rcases findInRange_loop_spec mem start end_ pattern mask (by omega) (end_ - start) 0 (by omega)
      with ⟨h0, hall⟩ | ⟨i', _, h2, h3, h4, h5, h6⟩
    · left
      refine ⟨h0, ?_⟩
      intro a h1 h2
      have := hall (a - start) (by omega) (by omega) (by omega)
      rwa [show start + (a - start) = a by omega] at this
    · right
      refine ⟨start + i', by omega, h3, h4, ?_, h6⟩
      intro b h7 h8
      have := h5 (b - start) (by omega) (by omega)
      rwa [show start + (b - start) = b by omega] at this

/-! ## The greedy sequence -/

theorem GreedyFrom.congr {P Q : Nat → Prop} {n : Nat} :
    ∀ (l : List Nat) (lo : Nat), (∀ a, lo ≤ a → (P a ↔ Q a)) →
      GreedyFrom P n lo l → GreedyFrom Q n lo l := by
  intro l
  induction l with
  | nil =>
    intro lo hPQ h a ha hq
    exact h a ha ((hPQ a ha).2 hq)
  | cons x rest ih =>
    intro lo hPQ h
    obtain ⟨h1, h2, h3, h4⟩ := h
    refine ⟨h1, (hPQ x h1).1 h2, ?_, ?_⟩
    · intro b hb hbx hq
      exact h3 b hb hbx ((hPQ b hb).2 hq)
    · exact ih (x + n) (fun a ha => hPQ a (by omega)) h4

theorem GreedyFrom.mem {P : Nat → Prop} {n : Nat} :
    ∀ (l : List Nat) (lo : Nat), GreedyFrom P n lo l → ∀ a ∈ l, lo ≤ a ∧ P a := by
  intro l
  induction l with
  | nil => intro lo _ a ha; simp at ha
  | cons x rest ih =>
    intro lo h a ha
    obtain ⟨h1, h2, _, h4⟩ := h
    rcases List.mem_cons.1 ha with e | hmem
    · subst e; exact ⟨h1, h2⟩
    · have := ih (x + n) h4 a hmem
      exact ⟨by omega, this.2⟩

theorem GreedyFrom.chain {P : Nat → Prop} {n : Nat} :
    ∀ (l : List Nat) (lo : Nat), GreedyFrom P n lo l →
      List.Chain' (fun a b => a + n ≤ b) l := by
  intro l
  induction l with
  | nil => intro lo _; exact List.chain'_nil
  | cons x rest ih =>
    intro lo h
    obtain ⟨_, _, _, h4⟩ := h
    cases rest with
    | nil => exact List.chain'_singleton x
    | cons y rest' =>
      refine List.chain'_cons.2 ⟨?_, ih (x + n) h4⟩
      exact h4.1

theorem GreedyFrom.unique {P : Nat → Prop} {n : Nat} :
    ∀ (l₁ l₂ : List Nat) (lo : Nat), GreedyFrom P n lo l₁ → GreedyFrom P n lo l₂ → l₁ = l₂ := by
  intro l₁
  induction l₁ with
  | nil =>
    intro l₂ lo h1 h2
    cases l₂ with
    | nil => rfl
    | cons y rest => exact absurd h2.2.1 (h1 y h2.1)
  | cons x rest ih =>
    intro l₂ lo h1 h2
    cases l₂ with
    | nil => exact absurd h1.2.1 (h2 x h1.1)
    | cons y rest' =>
      obtain ⟨a1, a2, a3, a4⟩ := h1
      obtain ⟨b1, b2, b3, b4⟩ := h2
      have hxy : x = y := by
        rcases Nat.lt_trichotomy x y with h | h | h
        · exact absurd a2 (b3 x a1 h)
        · exact h
        · exact absurd b2 (a3 y b1 h)
      subst hxy
      rw [ih rest' (x + n) a4 b4]

/-- Moving a greedy sequence between two address spaces: local address `a ≥ lo` corresponds to
the address `a - lo + lo'`. -/
theorem GreedyFrom.shift {P Q : Nat → Prop} {n : Nat} (base base' : Nat)
    (hPQ : ∀ i, P (base + i) ↔ Q (base' + i)) (hQ : ∀ a, Q a → base' ≤ a) :
    ∀ (l : List Nat) (lo : Nat), base ≤ lo → GreedyFrom P n lo l →
      GreedyFrom Q n (lo - base + base') (l.map fun a => a - base + base') := by
  intro l
  induction l with
  | nil =>
    intro lo hlo h a ha hq
    have hb := hQ a hq
    have := h (base + (a - base')) (by omega)
    apply this
    rw [hPQ]
    rwa [show base' + (a - base') = a by omega]
  | cons x rest ih =>
    intro lo hlo h
    obtain ⟨h1, h2, h3, h4⟩ := h
    simp only [List.map_cons]
    refine ⟨by omega, ?_, ?_, ?_⟩
    · have := (hPQ (x - base)).1 (by rwa [show base + (x - base) = x by omega])
      rwa [show base' + (x - base) = x - base + base' by omega] at this
    · intro b hb hbx hq
      have hb' := hQ b hq
      apply h3 (base + (b - base')) (by omega) (by omega)
      rw [hPQ]
      rwa [show base' + (b - base') = b by omega]
    · have := ih (x + n) (by omega) h4
      rwa [show x + n - base + base' = x - base + base' + n by omega] at this

/-! ## The loop of `findBytesAll` -/

theorem findBytesAll_loop_spec (mem : Nat → Byte) (bufEnd : Nat) (pattern : Nat → Byte)
    (mask : List Char) (hn : 1 ≤ mask.length) (hfit : bufEnd + mask.length < UINTPTR_MOD) :
    ∀ (fuel curr : Nat) (l : List Nat) (c : Nat),
      c = (match l.getLast? with
        | some back => uptrAdd back mask.length
        | none => curr) →
      0 < c → c ≤ bufEnd → bufEnd - c < fuel →
      ∃ G, KittyScannerMgr.findBytesAll.loop mem bufEnd pattern mask fuel curr l = some (l ++ G) ∧
        GreedyFrom (fun a => a + mask.length ≤ bufEnd ∧ compare mem a pattern 0 mask = true)
          mask.length c G := by
  intro fuel
  induction fuel with
  | zero => intro curr l c _ _ _ h; omega
  | succ fuel ih =>
    intro curr l c hc hpos hle hfuel
    unfold KittyScannerMgr.findBytesAll.loop
    simp only [← hc]
    rcases findInRange_spec mem c bufEnd pattern mask hn hfit hle with
      ⟨h0, hall⟩ | ⟨a, h1, h2, h3, h4, h5⟩
    · refine ⟨[], by simp [h0], ?_⟩
      intro a ha hP
      have := hall a ha hP.1
      rw [hP.2] at this
      exact Bool.noConfusion this
    · have hne : a ≠ 0 := by omega
      simp only [h5, hne, if_false]
      have hc' : a + mask.length =
          (match (l ++ [a]).getLast? with
            | some back => uptrAdd back mask.length
            | none => c) := by
        rw [List.getLast?_concat]
        exact (uptrAdd_eq (by omega)).symm
      obtain ⟨G, hG1, hG2⟩ := ih c (l ++ [a]) (a + mask.length) hc' (by omega) h2 (by omega)
      refine ⟨a :: G, by simpa using hG1, h1, ⟨h2, h3⟩, ?_, hG2⟩
      intro b hb hba hP
      have := h4 b hb hba
      rw [hP.2] at this
      exact Bool.noConfusion this

/-! ## The scanning methods on a bound capability -/

theorem findBytesAll_spec (m : IKittyMemOp) (fuel buf0 start end_ : Nat) (pattern : Nat → Byte)
    (mask : List Char) (hlt : start < end_) (hend : end_ < UINTPTR_MOD) (hmask : mask ≠ [])
    (hbuf0 : 0 < buf0) (hfit : buf0 + (end_ - start) + mask.length < UINTPTR_MOD)
    (hcount : scanCount m start end_ ≠ 0) (hfuel : end_ - start < fuel) :
    ∃ l, KittyScannerMgr.findBytesAll ⟨some m⟩ fuel buf0 start end_ (some pattern) mask =
        some ⟨l, [(start, end_ - start)]⟩ ∧
      GreedyFrom (fun a => start ≤ a ∧ a + mask.length ≤ end_ ∧
        compareAt buf0 (scanBuffer m start end_) pattern mask start a = true)
        mask.length start l := by
  have hn : 1 ≤ mask.length := by
    cases mask with
    | nil => exact absurd rfl hmask
    | cons c t => simp
  have e1 : uptrSub end_ start = end_ - start := uptrSub_eq (le_of_lt hlt) hend
  have e2 : uptrAdd buf0 (end_ - start) = buf0 + (end_ - start) := uptrAdd_eq (by omega)
  have hne : mask.isEmpty = false := by
    cases mask with
    | nil => exact absurd rfl hmask
    | cons c t => rfl
  obtain ⟨G, hG1, hG2⟩ := findBytesAll_loop_spec (localMem buf0 (scanBuffer m start end_))
    (buf0 + (end_ - start)) pattern mask hn (by omega) fuel buf0 [] buf0 rfl hbuf0 (by omega)
    (by omega)
  have hmem := GreedyFrom.mem G buf0 hG2
  have hmap : G.map (fun it => uptrAdd (uptrSub it buf0) start) =
      G.map (fun a => a - buf0 + start) := by
    apply List.map_congr_left
    intro a ha
    obtain ⟨h1, h2, _⟩ := hmem a ha
    rw [uptrSub_eq h1 (by omega), uptrAdd_eq (by omega)]
  refine ⟨G.map (fun a => a - buf0 + start), ?_, ?_⟩
  · unfold KittyScannerMgr.findBytesAll
    have hc : ¬ (start ≥ end_ ∨ mask.isEmpty = true) := by
      simp only [hne, Bool.false_eq_true, or_false]; omega
    have hcount' : ¬ (m.readInto start (end_ - start) (List.replicate (end_ - start) 0)).1 = 0 :=
      hcount
    simp only [hc, if_false, e1, e2, hcount']
    have hG1' : KittyScannerMgr.findBytesAll.loop
        (localMem buf0 (m.readInto start (end_ - start) (List.replicate (end_ - start) 0)).2)
        (buf0 + (end_ - start)) pattern mask fuel buf0 [] = some G := by
      simpa [scanBuffer] using hG1
    rw [hG1']
    cases G with
    | nil => simp
    | cons g G' =>
      simp only [List.isEmpty_cons, Bool.false_eq_true, if_false, hmap]
  · have := GreedyFrom.shift (n := mask.length)
      (P := fun a => a + mask.length ≤ buf0 + (end_ - start) ∧
        compare (localMem buf0 (scanBuffer m start end_)) a pattern 0 mask = true)
      (Q := fun a => start ≤ a ∧ a + mask.length ≤ end_ ∧
        compareAt buf0 (scanBuffer m start end_) pattern mask start a = true)
      buf0 start
      (by
        intro i
        simp only [compareAt, Nat.add_sub_cancel_left]
        constructor
        · rintro ⟨h1, h2⟩; exact ⟨by omega, by omega, h2⟩
        · rintro ⟨_, h1, h2⟩; exact ⟨by omega, h2⟩)
      (fun a ha => ha.1) G buf0 (le_refl _) hG2
    simpa using this

theorem findBytesFirst_spec (m : IKittyMemOp) (buf0 start end_ : Nat) (pattern : Nat → Byte)
    (mask : List Char) (hlt : start < end_) (hend : end_ < UINTPTR_MOD) (hmask : mask ≠ [])
    (hbuf0 : 0 < buf0) (hfit : buf0 + (end_ - start) + mask.length < UINTPTR_MOD)
    (hcount : scanCount m start end_ = end_ - start) :
    (KittyScannerMgr.findBytesFirst ⟨some m⟩ buf0 start end_ (some pattern) mask).reads =
        [(start, end_ - start)] ∧
    (((KittyScannerMgr.findBytesFirst ⟨some m⟩ buf0 start end_ (some pattern) mask).ret = 0 ∧
      ∀ a, start ≤ a → a + mask.length ≤ end_ →
        compareAt buf0 (scanBuffer m start end_) pattern mask start a = false) ∨
    (∃ a, start ≤ a ∧ a + mask.length ≤ end_ ∧
      compareAt buf0 (scanBuffer m start end_) pattern mask start a = true ∧
      (∀ b, start ≤ b → b < a →
        compareAt buf0 (scanBuffer m start end_) pattern mask start b = false) ∧
      (KittyScannerMgr.findBytesFirst ⟨some m⟩ buf0 start end_ (some pattern) mask).ret = a)) := by
  have hn : 1 ≤ mask.length := by
    cases mask with
    | nil => exact absurd rfl hmask
    | cons c t => simp
  have e1 : uptrSub end_ start = end_ - start := uptrSub_eq (le_of_lt hlt) hend
  have e2 : uptrAdd buf0 (end_ - start) = buf0 + (end_ - start) := uptrAdd_eq (by omega)
  have hne : mask.isEmpty = false := by
    cases mask with
    | nil => exact absurd rfl hmask
    | cons c t => rfl
  have hc : ¬ (start ≥ end_ ∨ mask.isEmpty = true) := by
    simp only [hne, Bool.false_eq_true, or_false]; omega
  have hcount' : (m.readInto start (end_ - start) (List.replicate (end_ - start) 0)).1 =
      end_ - start := hcount
  have hbuf : (m.readInto start (end_ - start) (List.replicate (end_ - start) 0)).2 =
      scanBuffer m start end_ := rfl
  unfold KittyScannerMgr.findBytesFirst
  simp only [hc, if_false, e1, e2, hcount', hbuf, ne_eq, not_true_eq_false]
  rcases findInRange_spec (localMem buf0 (scanBuffer m start end_)) buf0 (buf0 + (end_ - start))
    pattern mask hn (by omega) (by omega) with ⟨h0, hall⟩ | ⟨a, h1, h2, h3, h4, h5⟩
  · simp only [h0, not_true_eq_false, if_false, true_and]
    left
    intro a ha1 ha2
    have := hall (buf0 + (a - start)) (by omega) (by omega)
    exact this
  · have hane : a ≠ 0 := by omega
    simp only [h5, hane, not_false_eq_true, if_true, true_and]
    right
    rw [uptrSub_eq h1 (by omega), uptrAdd_eq (by omega)]
    refine ⟨a - buf0 + start, by omega, by omega, ?_, ?_, rfl⟩
    · simp only [compareAt]
      rwa [show buf0 + (a - buf0 + start - start) = a by omega]
    · intro b hb1 hb2
      exact h4 (buf0 + (b - start)) (by omega) (by omega)

theorem mask_length_pos {mask : List Char} (h : mask ≠ []) : 1 ≤ mask.length := by
  cases mask with
  | nil => exact absurd rfl h
  | cons c t => simp

theorem compareAt_of_matchAt (buf0 : Nat) (buf : List Byte) (pattern : Nat → Byte)
    (mask : List Char) (start a : Nat) (h : MatchAt buf pattern mask (a - start)) :
    compareAt buf0 buf pattern mask start a = true := by
  unfold compareAt
  apply compare_true_of_match
  intro j hj hm
  have := h j hj hm
  rw [Nat.add_assoc, localMem_at, Nat.zero_add, List.getD_eq_getElem?_getD, this]
  rfl

theorem matchAt_of_compareAt (buf0 : Nat) (buf : List Byte) (pattern : Nat → Byte)
    (mask : List Char) (start a : Nat) (hnul : NUL ∉ mask)
    (hlen : a - start + mask.length ≤ buf.length)
    (h : compareAt buf0 buf pattern mask start a = true) :
    MatchAt buf pattern mask (a - start) := by
  unfold compareAt at h
  intro j hj hm
  have := match_of_compare_true _ _ mask _ _ hnul h j hj hm
  rw [Nat.add_assoc, localMem_at, Nat.zero_add, List.getD_eq_getElem?_getD] at this
  have hlt : a - start + j < buf.length := by omega
  rw [List.getElem?_eq_getElem hlt] at this ⊢
  simpa using this

/-- Every way a call of `findBytesAll` can go, given enough fuel. -/
theorem findBytesAll_cases (self : KittyScannerMgr) (fuel buf0 start end_ : Nat)
    (bytes : Option (Nat → Byte)) (mask : List Char) (hend : end_ < UINTPTR_MOD)
    (hbuf0 : 0 < buf0) (hfit : buf0 + (end_ - start) + mask.length < UINTPTR_MOD)
    (hfuel : end_ - start < fuel) :
    self.findBytesAll fuel buf0 start end_ bytes mask = some ⟨[], []⟩ ∨
    self.findBytesAll fuel buf0 start end_ bytes mask = some ⟨[], [(start, end_ - start)]⟩ ∨
    ∃ m pattern l, self._pMem = some m ∧ bytes = some pattern ∧ start < end_ ∧ mask ≠ [] ∧
      scanCount m start end_ ≠ 0 ∧
      self.findBytesAll fuel buf0 start end_ bytes mask = some ⟨l, [(start, end_ - start)]⟩ ∧
      GreedyFrom (fun a => start ≤ a ∧ a + mask.length ≤ end_ ∧
        compareAt buf0 (scanBuffer m start end_) pattern mask start a = true)
        mask.length start l := by
  obtain ⟨pm⟩ := self
  cases pm with
  | none => left; simp [KittyScannerMgr.findBytesAll]
  | some m =>
    cases bytes with
    | none => left; simp [KittyScannerMgr.findBytesAll]
    | some pattern =>
      by_cases hlt : start < end_
      · by_cases hmask : mask = []
        · left; simp [KittyScannerMgr.findBytesAll, hmask]
        · by_cases hcount : scanCount m start end_ = 0
          · right; left
            have hne : mask.isEmpty = false := by
              cases mask with
              | nil => exact absurd rfl hmask
              | cons c t => rfl
            have hc : ¬ (start ≥ end_ ∨ mask.isEmpty = true) := by
              simp only [hne, Bool.false_eq_true, or_false]; omega
            have e1 : uptrSub end_ start = end_ - start := uptrSub_eq (le_of_lt hlt) hend
            have hcount' :
                (m.readInto start (end_ - start) (List.replicate (end_ - start) 0)).1 = 0 :=
              hcount
            unfold KittyScannerMgr.findBytesAll
            simp only [hc, if_false, e1, hcount', if_true]
          · right; right
            obtain ⟨l, h1, h2⟩ := findBytesAll_spec m fuel buf0 start end_ pattern mask hlt hend
              hmask hbuf0 hfit hcount hfuel
            exact ⟨m, pattern, l, rfl, rfl, hlt, hmask, hcount, h1, h2⟩
      · left
        have : start ≥ end_ := by omega
        simp [KittyScannerMgr.findBytesAll, this]

/-- Every way a call of `findBytesFirst` can go. -/
theorem findBytesFirst_cases (self : KittyScannerMgr) (buf0 start end_ : Nat)
    (bytes : Option (Nat → Byte)) (mask : List Char) (hend : end_ < UINTPTR_MOD)
    (hbuf0 : 0 < buf0) (hfit : buf0 + (end_ - start) + mask.length < UINTPTR_MOD) :
    self.findBytesFirst buf0 start end_ bytes mask = ⟨0, []⟩ ∨
    (self.findBytesFirst buf0 start end_ bytes mask = ⟨0, [(start, end_ - start)]⟩ ∧
      ∃ m, self._pMem = some m ∧ scanCount m start end_ ≠ end_ - start) ∨
    ∃ m pattern, self._pMem = some m ∧ bytes = some pattern ∧ start < end_ ∧ mask ≠ [] ∧
      scanCount m start end_ = end_ - start ∧
      (self.findBytesFirst buf0 start end_ bytes mask).reads = [(start, end_ - start)] ∧
      (((self.findBytesFirst buf0 start end_ bytes mask).ret = 0 ∧
        ∀ a, start ≤ a → a + mask.length ≤ end_ →
          compareAt buf0 (scanBuffer m start end_) pattern mask start a = false) ∨
      (∃ a, start ≤ a ∧ a + mask.length ≤ end_ ∧
        compareAt buf0 (scanBuffer m start end_) pattern mask start a = true ∧
        (∀ b, start ≤ b → b < a →
          compareAt buf0 (scanBuffer m start end_) pattern mask start b = false) ∧
        (self.findBytesFirst buf0 start end_ bytes mask).ret = a)) := by
  obtain ⟨pm⟩ := self
  cases pm with
  | none => left; simp [KittyScannerMgr.findBytesFirst]
  | some m =>
    cases bytes with
    | none => left; simp [KittyScannerMgr.findBytesFirst]
    | some pattern =>
      by_cases hlt : start < end_
      · by_cases hmask : mask = []
        · left; simp [KittyScannerMgr.findBytesFirst, hmask]
        · by_cases hcount : scanCount m start end_ = end_ - start
          · right; right
            obtain ⟨h1, h2⟩ := findBytesFirst_spec m buf0 start end_ pattern mask hlt hend
              hmask hbuf0 hfit hcount
            exact ⟨m, pattern, rfl, rfl, hlt, hmask, hcount, h1, h2⟩
          · right; left
            have hne : mask.isEmpty = false := by
              cases mask with
              | nil => exact absurd rfl hmask
              | cons c t => rfl
            have hc : ¬ (start ≥ end_ ∨ mask.isEmpty = true) := by
              simp only [hne, Bool.false_eq_true, or_false]; omega
            have e1 : uptrSub end_ start = end_ - start := uptrSub_eq (le_of_lt hlt) hend
            have hcount' :
                (m.readInto start (end_ - start) (List.replicate (end_ - start) 0)).1 ≠
                  end_ - start := hcount
            refine ⟨?_, m, rfl, hcount⟩
            unfold KittyScannerMgr.findBytesFirst
            simp only [hc, if_false, e1, hcount', ne_eq, not_false_eq_true, if_true]
      · left
        have : start ≥ end_ := by omega
        simp [KittyScannerMgr.findBytesFirst, this]

/-! ## Properties of the pattern scanner -/

/-- C1: when the bulk read of `[start, end_)` is complete, `findBytesFirst` on a non-null
pattern and a non-empty mask without NUL returns `start + i` for the least offset `i` with
`i + n ≤ end_ - start` at which the pattern matches (every `x` position equal, every other
position a wildcard), and returns 0 when there is no such offset. -/
theorem findBytesFirst_least_match (m : IKittyMemOp) (buf0 start end_ : Nat)
    (pattern : Nat → Byte) (mask : List Char) (hlt : start < end_) (hend : end_ < UINTPTR_MOD)
    (hmask : mask ≠ []) (hnul : NUL ∉ mask) (hbuf0 : 0 < buf0)
    (hfit : buf0 + (end_ - start) + mask.length < UINTPTR_MOD)
    (hread : scanCount m start end_ = end_ - start) :
    (∀ i, i + mask.length ≤ end_ - start →
      MatchAt (scanBuffer m start end_) pattern mask i →
      (∀ k, k < i → ¬ MatchAt (scanBuffer m start end_) pattern mask k) →
      (KittyScannerMgr.findBytesFirst ⟨some m⟩ buf0 start end_ (some pattern) mask).ret =
        start + i) ∧
    ((∀ i, i + mask.length ≤ end_ - start → ¬ MatchAt (scanBuffer m start end_) pattern mask i) →
      (KittyScannerMgr.findBytesFirst ⟨some m⟩ buf0 start end_ (some pattern) mask).ret = 0) := by
  have hn := mask_length_pos hmask
  have hlen := scanBuffer_length m start end_
  obtain ⟨_, hsp⟩ := findBytesFirst_spec m buf0 start end_ pattern mask hlt hend hmask hbuf0
    hfit hread
  rcases hsp with ⟨h0, hall⟩ | ⟨a, h1, h2, h3, h4, h5⟩
  · refine ⟨?_, fun _ => h0⟩
    intro i hi hm _
    have h := compareAt_of_matchAt buf0 (scanBuffer m start end_) pattern mask start (start + i)
      (by rwa [Nat.add_sub_cancel_left])
    rw [hall (start + i) (by omega) (by omega)] at h
    exact Bool.noConfusion h
  · have hma : MatchAt (scanBuffer m start end_) pattern mask (a - start) :=
      matchAt_of_compareAt buf0 _ pattern mask start a hnul (by omega) h3
    constructor
    · intro i hi hm hleast
      rw [h5]
      have h := compareAt_of_matchAt buf0 (scanBuffer m start end_) pattern mask start (start + i)
        (by rwa [Nat.add_sub_cancel_left])
      have hle : a ≤ start + i := by
        by_contra hgt
        rw [h4 (start + i) (by omega) (by omega)] at h
        exact Bool.noConfusion h
      have hge : ¬ a - start < i := fun hlt' => hleast _ hlt' hma
      omega
    · intro hnone
      exact absurd hma (hnone (a - start) (by omega))

/-- C1, worked example of the specification: the bytes `AA BB CC DD` at `0x1000` in the range
`[0x1000, 0x1010)`, pattern `AA ?? CC DD`, mask `x?xx`: the first match is `0x1000`. -/
theorem findBytesFirst_least_match_witness :
    (KittyScannerMgr.findBytesFirst ⟨some (fullMem [0xAA, 0xBB, 0xCC, 0xDD])⟩ 0x7f0000 0x1000
      0x1010 (some (bytesPtr [0xAA, 0x00, 0xCC, 0xDD])) ['x', '?', 'x', 'x']).ret = 0x1000 :=
  (findBytesFirst_least_match (fullMem [0xAA, 0xBB, 0xCC, 0xDD]) 0x7f0000 0x1000 0x1010
    (bytesPtr [0xAA, 0x00, 0xCC, 0xDD]) ['x', '?', 'x', 'x'] (by decide) (by decide) (by decide)
    (by decide) (by decide) (by decide) (by decide)).1 0 (by decide) (by decide) (by decide)

/-- C2 as stated fails for a mask with an embedded NUL character: `compare` stops at the NUL,
so with the buffer `AA 00 00 00`, pattern `AA 00 BB` and the three-character mask `x`, NUL,
`x`, `findBytesAll` reports `0x1000` although the must-match position 2 differs (`00` against
`BB`); the address `0x1000` is not a matching address, so the result is not the greedy
sequence of matching addresses. -/
theorem nul_mask_breaks_greedy :
    KittyScannerMgr.findBytesAll ⟨some (fullMem [0xAA, 0x00, 0x00, 0x00])⟩ 5 0x7f0000 0x1000
        0x1004 (some (bytesPtr [0xAA, 0x00, 0xBB])) ['x', NUL, 'x'] =
      some ⟨[0x1000], [(0x1000, 4)]⟩ ∧
    ¬ MatchAddr (scanBuffer (fullMem [0xAA, 0x00, 0x00, 0x00]) 0x1000 0x1004)
        (bytesPtr [0xAA, 0x00, 0xBB]) ['x', NUL, 'x'] 0x1000 0x1004 0x1000 ∧
    ¬ GreedyFrom (MatchAddr (scanBuffer (fullMem [0xAA, 0x00, 0x00, 0x00]) 0x1000 0x1004)
        (bytesPtr [0xAA, 0x00, 0xBB]) ['x', NUL, 'x'] 0x1000 0x1004) 3 0x1000 [0x1000] := by
  refine ⟨by decide, by decide, ?_⟩
  intro h
  exact absurd h.2.1 (by decide)

/-- C2 (amended): for a non-empty mask of length `n` without NUL character and a complete
bulk read of `[start, end_)`, `findBytesAll` (given enough fuel for its loop) returns exactly
the greedy left-to-right sequence: its first element is the lowest matching address of the
range, every next element is the lowest matching address that is at least the previous one
plus `n`, and the sequence ends when no such address remains. -/
theorem findBytesAll_greedy (m : IKittyMemOp) (fuel buf0 start end_ : Nat)
    (pattern : Nat → Byte) (mask : List Char) (hlt : start < end_) (hend : end_ < UINTPTR_MOD)
    (hmask : mask ≠ []) (hnul : NUL ∉ mask) (hbuf0 : 0 < buf0)
    (hfit : buf0 + (end_ - start) + mask.length < UINTPTR_MOD)
    (hread : scanCount m start end_ = end_ - start) (hfuel : end_ - start < fuel) :
    ∃ l, KittyScannerMgr.findBytesAll ⟨some m⟩ fuel buf0 start end_ (some pattern) mask =
        some ⟨l, [(start, end_ - start)]⟩ ∧
      GreedyFrom (MatchAddr (scanBuffer m start end_) pattern mask start end_) mask.length
        start l := by
  have hlen := scanBuffer_length m start end_
  obtain ⟨l, h1, h2⟩ := findBytesAll_spec m fuel buf0 start end_ pattern mask hlt hend hmask
    hbuf0 hfit (by omega) hfuel
  refine ⟨l, h1, GreedyFrom.congr l start ?_ h2⟩
  intro a _
  constructor
  · rintro ⟨ha1, ha2, ha3⟩
    exact ⟨ha1, ha2, matchAt_of_compareAt buf0 _ pattern mask start a hnul (by omega) ha3⟩
  · rintro ⟨ha1, ha2, ha3⟩
    exact ⟨ha1, ha2, compareAt_of_matchAt buf0 _ pattern mask start a ha3⟩

/-- C2, worked example of the specification: `AA BB` at `0x1000` and at `0x1008` in
`[0x1000, 0x1010)`, pattern `AA BB`, mask `xx`: the greedy sequence returned is
`[0x1000, 0x1008]`. -/
theorem findBytesAll_greedy_witness :
    ∃ l, KittyScannerMgr.findBytesAll
        ⟨some (fullMem [0xAA, 0xBB, 0, 0, 0, 0, 0, 0, 0xAA, 0xBB])⟩ 17 0x7f0000 0x1000 0x1010
        (some (bytesPtr [0xAA, 0xBB])) ['x', 'x'] = some ⟨l, [(0x1000, 0x1010 - 0x1000)]⟩ ∧
      GreedyFrom (MatchAddr
        (scanBuffer (fullMem [0xAA, 0xBB, 0, 0, 0, 0, 0, 0, 0xAA, 0xBB]) 0x1000 0x1010)
        (bytesPtr [0xAA, 0xBB]) ['x', 'x'] 0x1000 0x1010) 2 0x1000 l ∧
      l = [0x1000, 0x1008] := by
  obtain ⟨l, h1, h2⟩ := findBytesAll_greedy
    (fullMem [0xAA, 0xBB, 0, 0, 0, 0, 0, 0, 0xAA, 0xBB]) 17 0x7f0000 0x1000 0x1010
    (bytesPtr [0xAA, 0xBB]) ['x', 'x'] (by decide) (by decide) (by decide) (by decide)
    (by decide) (by decide) (by decide) (by decide)
  refine ⟨l, h1, h2, ?_⟩
  have e : KittyScannerMgr.findBytesAll
      ⟨some (fullMem [0xAA, 0xBB, 0, 0, 0, 0, 0, 0, 0xAA, 0xBB])⟩ 17 0x7f0000 0x1000 0x1010
      (some (bytesPtr [0xAA, 0xBB])) ['x', 'x'] = some ⟨[0x1000, 0x1008], [(0x1000, 16)]⟩ := by
    decide
  rw [e] at h1
  injection h1 with h1
  injection h1 with h1 _
  exact h1.symm

/-- C3, failing input: the bulk read of `[0x1000, 0x1004)` reports 2 of 4 bytes (`AA BB`
stored). `findBytesAll` only tests the count against zero and scans the buffer, reporting
`0x1000`; `findBytesFirst` tests the count against the buffer size and returns 0, which is
not the first element of the non-empty list. -/
theorem findBytesFirst_not_head_on_partial_read :
    KittyScannerMgr.findBytesAll ⟨some (shortMem 2 [0xAA, 0xBB])⟩ 5 0x7f0000 0x1000 0x1004
        (some (bytesPtr [0xAA])) ['x'] = some ⟨[0x1000], [(0x1000, 4)]⟩ ∧
    (KittyScannerMgr.findBytesFirst ⟨some (shortMem 2 [0xAA, 0xBB])⟩ 0x7f0000 0x1000 0x1004
        (some (bytesPtr [0xAA])) ['x']).ret = 0 := by
  decide

/-- C4: the addresses `findBytesAll` returns (given enough fuel for its loop) are strictly
increasing, and every two consecutive ones differ by at least the mask length. -/
theorem findBytesAll_nonoverlap (self : KittyScannerMgr) (fuel buf0 start end_ : Nat)
    (bytes : Option (Nat → Byte)) (mask : List Char) (hend : end_ < UINTPTR_MOD)
    (hbuf0 : 0 < buf0) (hfit : buf0 + (end_ - start) + mask.length < UINTPTR_MOD)
    (hfuel : end_ - start < fuel) :
    ∃ out, self.findBytesAll fuel buf0 start end_ bytes mask = some out ∧
      List.Pairwise (fun a b => a < b) out.ret ∧
      List.Chain' (fun a b => a + mask.length ≤ b) out.ret := by
  rcases findBytesAll_cases self fuel buf0 start end_ bytes mask hend hbuf0 hfit hfuel with
    h | h | ⟨m, pattern, l, _, _, _, hmask, _, h, hg⟩
  · exact ⟨_, h, List.Pairwise.nil, List.chain'_nil⟩
  · exact ⟨_, h, List.Pairwise.nil, List.chain'_nil⟩
  · have hn := mask_length_pos hmask
    have hc := GreedyFrom.chain l start hg
    refine ⟨_, h, ?_, hc⟩
    have hc' : List.Chain' (fun a b => a < b) l :=
      hc.imp (fun {a b} (hab : a + mask.length ≤ b) => by omega)
    exact List.chain'_iff_pairwise.1 hc'

/-- C4, worked example: the two matches of `AA BB` are 8 apart. -/
theorem findBytesAll_nonoverlap_witness :
    ∃ out, KittyScannerMgr.findBytesAll
        ⟨some (fullMem [0xAA, 0xBB, 0, 0, 0, 0, 0, 0, 0xAA, 0xBB])⟩ 17 0x7f0000 0x1000 0x1010
        (some (bytesPtr [0xAA, 0xBB])) ['x', 'x'] = some out ∧
      List.Pairwise (fun a b => a < b) out.ret ∧
      List.Chain' (fun a b => a + 2 ≤ b) out.ret :=
  findBytesAll_nonoverlap ⟨some (fullMem [0xAA, 0xBB, 0, 0, 0, 0, 0, 0, 0xAA, 0xBB])⟩ 17
    0x7f0000 0x1000 0x1010 (some (bytesPtr [0xAA, 0xBB])) ['x', 'x'] (by decide) (by decide)
    (by decide) (by decide)

/-- C5: for every range, pattern, mask of length `n` and every behaviour of the capability, a
non-zero address `a` returned by `findBytesFirst` satisfies `start ≤ a` and `a + n ≤ end_`, and
so does every element of the list `findBytesAll` returns (given enough fuel for its loop):
results are remote addresses of windows that lie inside the range. -/
theorem scan_results_in_range (self : KittyScannerMgr) (fuel buf0 start end_ : Nat)
    (bytes : Option (Nat → Byte)) (mask : List Char) (hend : end_ < UINTPTR_MOD)
    (hbuf0 : 0 < buf0) (hfit : buf0 + (end_ - start) + mask.length < UINTPTR_MOD)
    (hfuel : end_ - start < fuel) :
    ((self.findBytesFirst buf0 start end_ bytes mask).ret ≠ 0 →
      start ≤ (self.findBytesFirst buf0 start end_ bytes mask).ret ∧
      (self.findBytesFirst buf0 start end_ bytes mask).ret + mask.length ≤ end_) ∧
    ∃ out, self.findBytesAll fuel buf0 start end_ bytes mask = some out ∧
      ∀ a ∈ out.ret, start ≤ a ∧ a + mask.length ≤ end_ := by
  constructor
  · intro hne
    rcases findBytesFirst_cases self buf0 start end_ bytes mask hend hbuf0 hfit with
      h | ⟨h, _⟩ | ⟨m, pattern, _, _, _, _, _, _, h⟩
    · rw [h] at hne; exact absurd rfl hne
    · rw [h] at hne; exact absurd rfl hne
    · rcases h with ⟨h0, _⟩ | ⟨a, h1, h2, _, _, h5⟩
      · exact absurd h0 hne
      · rw [h5]; exact ⟨h1, h2⟩
  · rcases findBytesAll_cases self fuel buf0 start end_ bytes mask hend hbuf0 hfit hfuel with
      h | h | ⟨m, pattern, l, _, _, _, _, _, h, hg⟩
    · exact ⟨_, h, fun a ha => by simp at ha⟩
    · exact ⟨_, h, fun a ha => by simp at ha⟩
    · refine ⟨_, h, ?_⟩
      intro a ha
      have := (GreedyFrom.mem l start hg a ha).2
      exact ⟨this.1, this.2.1⟩

/-- C5, worked example: both results for `AA BB` in `[0x1000, 0x1010)` lie in the range. -/
theorem scan_results_in_range_witness :
    ((KittyScannerMgr.findBytesFirst
        ⟨some (fullMem [0xAA, 0xBB, 0, 0, 0, 0, 0, 0, 0xAA, 0xBB])⟩ 0x7f0000 0x1000 0x1010
        (some (bytesPtr [0xAA, 0xBB])) ['x', 'x']).ret ≠ 0 →
      0x1000 ≤ (KittyScannerMgr.findBytesFirst
        ⟨some (fullMem [0xAA, 0xBB, 0, 0, 0, 0, 0, 0, 0xAA, 0xBB])⟩ 0x7f0000 0x1000 0x1010
        (some (bytesPtr [0xAA, 0xBB])) ['x', 'x']).ret ∧
      (KittyScannerMgr.findBytesFirst
        ⟨some (fullMem [0xAA, 0xBB, 0, 0, 0, 0, 0, 0, 0xAA, 0xBB])⟩ 0x7f0000 0x1000 0x1010
        (some (bytesPtr [0xAA, 0xBB])) ['x', 'x']).ret + 2 ≤ 0x1010) ∧
    ∃ out, KittyScannerMgr.findBytesAll
        ⟨some (fullMem [0xAA, 0xBB, 0, 0, 0, 0, 0, 0, 0xAA, 0xBB])⟩ 17 0x7f0000 0x1000 0x1010
        (some (bytesPtr [0xAA, 0xBB])) ['x', 'x'] = some out ∧
      ∀ a ∈ out.ret, 0x1000 ≤ a ∧ a + 2 ≤ 0x1010 :=
  scan_results_in_range ⟨some (fullMem [0xAA, 0xBB, 0, 0, 0, 0, 0, 0, 0xAA, 0xBB])⟩ 17
    0x7f0000 0x1000 0x1010 (some (bytesPtr [0xAA, 0xBB])) ['x', 'x'] (by decide) (by decide)
    (by decide) (by decide)

/-- C6, failing input: the bulk read of `[0x2000, 0x2004)` reports 1 of 4 bytes (`CC` stored).
`findBytesFirst` returns 0, but `findBytesAll` only rejects a zero count: it scans the
partially filled buffer `CC 00 00 00` and reports the pattern `00` at the three addresses
whose bytes were never read. -/
theorem findBytesAll_scans_partial_buffer :
    scanCount (shortMem 1 [0xCC]) 0x2000 0x2004 < 0x2004 - 0x2000 ∧
    KittyScannerMgr.findBytesAll ⟨some (shortMem 1 [0xCC])⟩ 5 0x7f0000 0x2000 0x2004
        (some (bytesPtr [0x00])) ['x'] =
      some ⟨[0x2001, 0x2002, 0x2003], [(0x2000, 4)]⟩ ∧
    (KittyScannerMgr.findBytesFirst ⟨some (shortMem 1 [0xCC])⟩ 0x7f0000 0x2000 0x2004
        (some (bytesPtr [0x00])) ['x']).ret = 0 := by
  decide

/-- C7: when no capability is bound, or `start ≥ end_`, or the pattern pointer is null, or the
mask is empty, `findBytesAll` returns the empty list and `findBytesFirst` returns 0, and
neither issues a remote read (for every amount of fuel); and when the mask is longer than
`end_ - start`, `findBytesAll` (given enough fuel for its loop) returns the empty list and
`findBytesFirst` returns 0. -/
theorem scan_rejects (self : KittyScannerMgr) (fuel buf0 start end_ : Nat)
    (bytes : Option (Nat → Byte)) (mask : List Char) :
    ((self._pMem = none ∨ start ≥ end_ ∨ bytes = none ∨ mask = []) →
      self.findBytesAll fuel buf0 start end_ bytes mask = some ⟨[], []⟩ ∧
      self.findBytesFirst buf0 start end_ bytes mask = ⟨0, []⟩) ∧
    (end_ - start < mask.length → end_ < UINTPTR_MOD → 0 < buf0 →
      buf0 + (end_ - start) + mask.length < UINTPTR_MOD → end_ - start < fuel →
      (∃ out, self.findBytesAll fuel buf0 start end_ bytes mask = some out ∧ out.ret = []) ∧
      (self.findBytesFirst buf0 start end_ bytes mask).ret = 0) := by
  constructor
  · intro h
    obtain ⟨pm⟩ := self
    cases pm with
    | none => simp [KittyScannerMgr.findBytesAll, KittyScannerMgr.findBytesFirst]
    | some m =>
      cases bytes with
      | none => simp [KittyScannerMgr.findBytesAll, KittyScannerMgr.findBytesFirst]
      | some pattern =>
        have h' : start ≥ end_ ∨ mask.isEmpty = true := by
          rcases h with h | h | h | h
          · exact absurd h (by simp)
          · exact Or.inl h
          · exact absurd h (by simp)
          · exact Or.inr (by simp [h])
        simp only [KittyScannerMgr.findBytesAll, KittyScannerMgr.findBytesFirst, h', if_true,
          and_self]
  · intro hlong hend hbuf0 hfit hfuel
    constructor
    · rcases findBytesAll_cases self fuel buf0 start end_ bytes mask hend hbuf0 hfit hfuel with
        h | h | ⟨m, pattern, l, _, _, _, _, _, h, hg⟩
      · exact ⟨_, h, rfl⟩
      · exact ⟨_, h, rfl⟩
      · refine ⟨_, h, ?_⟩
        cases l with
        | nil => rfl
        | cons a rest =>
          have := (GreedyFrom.mem _ start hg a (by simp)).2
          omega
    · rcases findBytesFirst_cases self buf0 start end_ bytes mask hend hbuf0 hfit with
        h | ⟨h, _⟩ | ⟨m, pattern, _, _, _, _, _, _, h⟩
      · rw [h]
      · rw [h]
      · rcases h with ⟨h0, _⟩ | ⟨a, h1, h2, _, _, _⟩
        · exact h0
        · omega

/-- C7, worked example: with `start = end_` nothing is read, and a two-character mask on a
one-byte range finds nothing. -/
theorem scan_rejects_witness :
    (KittyScannerMgr.findBytesAll ⟨some (fullMem [0xAA])⟩ 0 0x7f0000 0x1000 0x1000
        (some (bytesPtr [0xAA])) ['x'] = some ⟨[], []⟩ ∧
      KittyScannerMgr.findBytesFirst ⟨some (fullMem [0xAA])⟩ 0x7f0000 0x1000 0x1000
        (some (bytesPtr [0xAA])) ['x'] = ⟨0, []⟩) ∧
    ((∃ out, KittyScannerMgr.findBytesAll ⟨some (fullMem [0xAA])⟩ 2 0x7f0000 0x1000 0x1001
        (some (bytesPtr [0xAA, 0xAA])) ['x', 'x'] = some out ∧ out.ret = []) ∧
      (KittyScannerMgr.findBytesFirst ⟨some (fullMem [0xAA])⟩ 0x7f0000 0x1000 0x1001
        (some (bytesPtr [0xAA, 0xAA])) ['x', 'x']).ret = 0) :=
  ⟨(scan_rejects ⟨some (fullMem [0xAA])⟩ 0 0x7f0000 0x1000 0x1000 (some (bytesPtr [0xAA]))
      ['x']).1 (Or.inr (Or.inl (by decide))),
    (scan_rejects ⟨some (fullMem [0xAA])⟩ 2 0x7f0000 0x1000 0x1001 (some (bytesPtr [0xAA, 0xAA]))
      ['x', 'x']).2 (by decide) (by decide) (by decide) (by decide) (by decide)⟩

/-- The length guard `hex.length() / 2 != scan_size` alone does not reject a string of odd
length: when the validator tests the digits only (`validateHexString` as modelled), the
three digits `AAB` with the mask `x` are searched by both entry points. Rejecting such a
string is left to the validator. -/
theorem findHex_guard_passes_odd_length :
    validateHexString ['A', 'A', 'B'] = true ∧
    ['A', 'A', 'B'].length ≠ 2 * ['x'].length ∧
    KittyScannerMgr.findHexAll ⟨some (fullMem [0xAA])⟩ validateHexString 5 0x7f0000 0x1000
        0x1004 ['A', 'A', 'B'] ['x'] = some ⟨[0x1000], [(0x1000, 4)]⟩ ∧
    (KittyScannerMgr.findHexFirst ⟨some (fullMem [0xAA])⟩ validateHexString 0x7f0000 0x1000
        0x1004 ['A', 'A', 'B'] ['x']).ret = 0x1000 := by
  decide

theorem init_fields_empty (s : ElfScanner) (h1 : s._phdrs = []) (h2 : s._loads = 0)
    (h3 : s._loadBias = 0) (h4 : s._loadSize = 0) (h5 : s._dynamics = [])
    (h6 : s._stringTable = 0) (h7 : s._symbolTable = 0) (h8 : s._strsz = 0)
    (h9 : s._syment = 0) (h10 : s._symbols = []) :
    s.isValid = false ∧ s.programHeaders = [] ∧ s.loads = 0 ∧ s.loadBias = 0 ∧
      s.loadSize = 0 ∧ s.dynamics = [] ∧ s.stringTable = 0 ∧ s.symbolTable = 0 ∧
      s.stringTableSize = 0 ∧ s.symbolEntrySize = 0 ∧ s.symbols = [] := by
  refine ⟨?_, h1, h2, h3, h4, h5, h6, h7, h8, h9, h10⟩
  simp [ElfScanner.isValid, h2]

/-- C9: if the header read at the base address has identification bytes other than
`7F 45 4C 46`, or a class byte other than the platform class, or a zero `e_phnum`,
`e_phentsize`, `e_shnum` or `e_shentsize`, then the constructor returns (whatever the fuel) an
image with `isValid() = false`, no program header, `loads() = 0`, `loadBias() = 0`,
`loadSize() = 0`, no dynamic entry, zero string/symbol table addresses and sizes, and no
symbol. -/
theorem invalid_header_gives_empty_image (pageSize fuel : Nat) (m : IKittyMemOp)
    (elfBase : Nat)
    (h : (headerAt m elfBase).e_ident.take 4 ≠ [0x7f, 0x45, 0x4c, 0x46] ∨
      (headerAt m elfBase).e_ident.getD EI_CLASS 0 ≠ ELF_EICLASS_ ∨
      (headerAt m elfBase).e_phnum = 0 ∨ (headerAt m elfBase).e_phentsize = 0 ∨
      (headerAt m elfBase).e_shnum = 0 ∨ (headerAt m elfBase).e_shentsize = 0) :
    ∃ img, ElfScanner.new pageSize fuel (some m) elfBase = some img ∧
      img.isValid = false ∧ img.programHeaders = [] ∧ img.loads = 0 ∧ img.loadBias = 0 ∧
      img.loadSize = 0 ∧ img.dynamics = [] ∧ img.stringTable = 0 ∧ img.symbolTable = 0 ∧
      img.stringTableSize = 0 ∧ img.symbolEntrySize = 0 ∧ img.symbols = [] := by
  unfold headerAt at h
  unfold ElfScanner.new
  by_cases h1 : elfBase = 0
  · simp only [h1, if_true]
    exact ⟨_, rfl, init_fields_empty _ rfl rfl rfl rfl rfl rfl rfl rfl rfl rfl⟩
  by_cases h2 : (m.readInto elfBase sizeofEhdr (List.replicate sizeofEhdr 0)).1 = 0
  · simp only [h1, h2, if_true, if_false]
    exact ⟨_, rfl, init_fields_empty _ rfl rfl rfl rfl rfl rfl rfl rfl rfl rfl⟩
  by_cases h3 : (decodeEhdr (m.readInto elfBase sizeofEhdr
      (List.replicate sizeofEhdr 0)).2).e_ident.take 4 = ELFMAG
  swap
  · simp only [h1, h2, h3, ne_eq, not_false_eq_true, if_true, if_false]
    exact ⟨_, rfl, init_fields_empty _ rfl rfl rfl rfl rfl rfl rfl rfl rfl rfl⟩
  by_cases h4 : (decodeEhdr (m.readInto elfBase sizeofEhdr
      (List.replicate sizeofEhdr 0)).2).e_ident.getD EI_CLASS 0 = ELF_EICLASS_
  swap
  · simp only [h1, h2, h3, h4, ne_eq, not_false_eq_true, not_true_eq_false, if_true, if_false]
    exact ⟨_, rfl, init_fields_empty _ rfl rfl rfl rfl rfl rfl rfl rfl rfl rfl⟩
  by_cases h5 : (decodeEhdr (m.readInto elfBase sizeofEhdr
        (List.replicate sizeofEhdr 0)).2).e_phnum = 0 ∨
      (decodeEhdr (m.readInto elfBase sizeofEhdr (List.replicate sizeofEhdr 0)).2).e_phentsize = 0 ∨
      (decodeEhdr (m.readInto elfBase sizeofEhdr (List.replicate sizeofEhdr 0)).2).e_shnum = 0 ∨
      (decodeEhdr (m.readInto elfBase sizeofEhdr (List.replicate sizeofEhdr 0)).2).e_shentsize = 0
  · simp only [h1, h2, h3, h4, h5, ne_eq, not_true_eq_false, if_true, if_false]
    exact ⟨_, rfl, init_fields_empty _ rfl rfl rfl rfl rfl rfl rfl rfl rfl rfl⟩
  exfalso
  rcases h with h | h | h
  · exact h h3
  · exact h h4
  · exact h5 h

/-- C9, worked example: a header whose fourth identification byte is corrupted (`47` for
`46`) gives an invalid image with every derived field empty or zero. -/
theorem invalid_header_gives_empty_image_witness :
    ∃ img, ElfScanner.new 4096 0 (some (fullMem [0x7f, 0x45, 0x4c, 0x47, 2])) 0x70000000 =
        some img ∧
      img.isValid = false ∧ img.programHeaders = [] ∧ img.loads = 0 ∧ img.loadBias = 0 ∧
      img.loadSize = 0 ∧ img.dynamics = [] ∧ img.stringTable = 0 ∧ img.symbolTable = 0 ∧
      img.stringTableSize = 0 ∧ img.symbolEntrySize = 0 ∧ img.symbols = [] :=
  invalid_header_gives_empty_image 4096 0 (fullMem [0x7f, 0x45, 0x4c, 0x47, 2]) 0x70000000
    (Or.inl (by decide))

/-! ## Decoded fields are bounded -/

theorem leVal_lt : ∀ (bs : List Byte), leVal bs < 256 ^ bs.length
  | [] => by simp [leVal]
  | b :: bs => by
    have ih := leVal_lt bs
    have hb : b % 256 < 256 := Nat.mod_lt _ (by decide)
    simp only [leVal, List.length_cons, pow_succ]
    omega

theorem leField_lt (bs : List Byte) (off size : Nat) : leField bs off size < 256 ^ size := by
  unfold leField
  refine lt_of_lt_of_le (leVal_lt _) ?_
  apply Nat.pow_le_pow_right (by decide)
  simp only [List.length_take, List.length_drop]
  omega

theorem decodePhdr_vaddr_lt (bs : List Byte) : (decodePhdr bs).p_vaddr < UINTPTR_MOD := by
  have := leField_lt bs 16 8
  simpa [decodePhdr, UINTPTR_MOD] using this

/-! ## The "find load bias" loop -/

theorem loadScanStep_inv (ehdr : Elf64_Ehdr) (buf : List Byte) (st : LoadScan)
    (L : List Elf64_Phdr) (i : Nat) (h : st.Inv L) :
    (loadScanStep ehdr buf st i).Inv (L ++ [phdrEntry ehdr buf i]) := by
  obtain ⟨h1, h2, h3, h4, h5⟩ := h
  unfold loadScanStep
  by_cases hl : (phdrEntry ehdr buf i).p_type = PT_LOAD
  · simp only [hl, if_true]
    refine ⟨by simp [h1], by simp [h2, List.countP_append, hl], ?_, ?_, ?_⟩
    · intro p hp hpl
      dsimp only
      rcases List.mem_append.1 hp with hp | hp
      · have := h3 p hp hpl
        constructor
        · split_ifs <;> omega
        · split_ifs <;> omega
      · have hp' : p = phdrEntry ehdr buf i := by simpa using hp
        subst hp'
        constructor
        · split_ifs <;> omega
        · split_ifs <;> omega
    · dsimp only
      split_ifs
      · exact Or.inr ⟨_, by simp, hl, rfl⟩
      · rcases h4 with h4 | ⟨p, hp, hpl, hpe⟩
        · exact Or.inl h4
        · exact Or.inr ⟨p, List.mem_append_left _ hp, hpl, hpe⟩
    · dsimp only
      split_ifs
      · exact Or.inr ⟨_, by simp, hl, rfl⟩
      · rcases h5 with h5 | ⟨p, hp, hpl, hpe⟩
        · exact Or.inl h5
        · exact Or.inr ⟨p, List.mem_append_left _ hp, hpl, hpe⟩
  · simp only [hl, if_false]
    refine ⟨by simp [h1], by simp [h2, List.countP_append, hl], ?_, ?_, ?_⟩
    · intro p hp hpl
      rcases List.mem_append.1 hp with hp | hp
      · exact h3 p hp hpl
      · have hp' : p = phdrEntry ehdr buf i := by simpa using hp
        subst hp'
        exact absurd hpl hl
    · rcases h4 with h4 | ⟨p, hp, hpl, hpe⟩
      · exact Or.inl h4
      · exact Or.inr ⟨p, List.mem_append_left _ hp, hpl, hpe⟩
    · rcases h5 with h5 | ⟨p, hp, hpl, hpe⟩
      · exact Or.inl h5
      · exact Or.inr ⟨p, List.mem_append_left _ hp, hpl, hpe⟩

theorem loadScan_fold_inv (ehdr : Elf64_Ehdr) (buf : List Byte) :
    ∀ (is : List Nat) (st : LoadScan) (L : List Elf64_Phdr), st.Inv L →
      (is.foldl (loadScanStep ehdr buf) st).Inv (L ++ is.map (phdrEntry ehdr buf)) := by
  intro is
  induction is with
  | nil => intro st L h; simpa using h
  | cons i rest ih =>
    intro st L h
    have := ih _ _ (loadScanStep_inv ehdr buf st L i h)
    simpa using this

theorem loadScan_inv (ehdr : Elf64_Ehdr) (buf : List Byte) :
    (loadScan ehdr buf).Inv ((List.range ehdr.e_phnum).map (phdrEntry ehdr buf)) := by
  have h0 : (⟨[], 0, UINTPTR_MAX, 0⟩ : LoadScan).Inv [] :=
    ⟨rfl, rfl, fun p hp => by simp at hp, Or.inl rfl, Or.inl rfl⟩
  have := loadScan_fold_inv ehdr buf (List.range ehdr.e_phnum) _ _ h0
  simpa [loadScan] using this

/-- With a `PT_LOAD` entry among the parsed program headers, the loop's `min_vaddr` is the
least `p_vaddr` and its `max_vaddr` the greatest `p_vaddr + p_memsz` (modulo `2 ^ 64`) of the
`PT_LOAD` entries, and `loads` is not zero. -/
theorem loadScan_min_max (ehdr : Elf64_Ehdr) (buf : List Byte) (mn mx : Nat)
    (hmn : IsLeast {v | ∃ p ∈ (loadScan ehdr buf).phdrs, p.p_type = PT_LOAD ∧ v = p.p_vaddr} mn)
    (hmx : IsGreatest {v | ∃ p ∈ (loadScan ehdr buf).phdrs, p.p_type = PT_LOAD ∧
      v = (p.p_vaddr + p.p_memsz) % 2 ^ 64} mx) :
    (loadScan ehdr buf).loads ≠ 0 ∧ (loadScan ehdr buf).min_vaddr = mn ∧
      (loadScan ehdr buf).max_vaddr = mx := by
  obtain ⟨h1, h2, h3, h4, h5⟩ := loadScan_inv ehdr buf
  obtain ⟨⟨p, hp, hpl, hpv⟩, hlow⟩ := hmn
  obtain ⟨⟨q, hq, hql, hqv⟩, hup⟩ := hmx
  rw [h1] at hp hq
  have hmnS : ∀ v, (∃ p ∈ (List.range ehdr.e_phnum).map (phdrEntry ehdr buf),
      p.p_type = PT_LOAD ∧ v = p.p_vaddr) → mn ≤ v := by
    intro v hv
    apply hlow
    rw [h1]
    exact hv
  have hmxS : ∀ v, (∃ p ∈ (List.range ehdr.e_phnum).map (phdrEntry ehdr buf),
      p.p_type = PT_LOAD ∧ v = (p.p_vaddr + p.p_memsz) % 2 ^ 64) → v ≤ mx := by
    intro v hv
    apply hup
    rw [h1]
    exact hv
  refine ⟨?_, ?_, ?_⟩
  · rw [h2]
    intro h0
    rw [List.countP_eq_zero] at h0
    exact h0 p hp (by simp [hpl])
  · have hle : (loadScan ehdr buf).min_vaddr ≤ mn := by
      rw [hpv]; exact (h3 p hp hpl).1
    rcases h4 with h4 | ⟨p', hp', hpl', hpe'⟩
    · have hb : p.p_vaddr < UINTPTR_MOD := by
        obtain ⟨i, _, hi⟩ := List.mem_map.1 hp
        rw [← hi]
        exact decodePhdr_vaddr_lt _
      rw [h4] at hle ⊢
      unfold UINTPTR_MAX at hle ⊢
      omega
    · have := hmnS _ ⟨p', hp', hpl', hpe'.symm⟩
      omega
  · have hle : mx ≤ (loadScan ehdr buf).max_vaddr := by
      rw [hqv]; exact (h3 q hq hql).2
    rcases h5 with h5 | ⟨q', hq', hql', hqe'⟩
    · omega
    · have := hmxS _ ⟨q', hq', hql', hqe'.symm⟩
      omega

/-! ## The stages of the constructor -/

theorem symbolsStage_keeps (fuel : Nat) (m : IKittyMemOp) (s img : ElfScanner)
    (h : ElfScanner.symbolsStage fuel m s = some img) :
    img._pMem = s._pMem ∧ img._elfBase = s._elfBase ∧ img._ehdr = s._ehdr ∧
      img._phdrs = s._phdrs ∧ img._loads = s._loads ∧ img._loadBias = s._loadBias ∧
      img._loadSize = s._loadSize ∧ img._dynamics = s._dynamics ∧ img._strsz = s._strsz ∧
      img._syment = s._syment := by
  unfold ElfScanner.symbolsStage at h
  split_ifs at h with hc
  · injection h with h
    subst h
    exact ⟨rfl, rfl, rfl, rfl, rfl, rfl, rfl, rfl, rfl, rfl⟩
  · dsimp only at h
    split at h
    · exact Option.noConfusion h
    · injection h with h
      subst h
      exact ⟨rfl, rfl, rfl, rfl, rfl, rfl, rfl, rfl, rfl, rfl⟩

theorem dynamicsStage_keeps (fuel : Nat) (m : IKittyMemOp) (s img : ElfScanner)
    (h : ElfScanner.dynamicsStage fuel m s = some img) :
    img._pMem = s._pMem ∧ img._elfBase = s._elfBase ∧ img._ehdr = s._ehdr ∧
      img._phdrs = s._phdrs ∧ img._loads = s._loads ∧ img._loadBias = s._loadBias ∧
      img._loadSize = s._loadSize := by
  unfold ElfScanner.dynamicsStage at h
  obtain ⟨h1, h2, h3, h4, h5, h6, h7, _⟩ := symbolsStage_keeps fuel m _ img h
  exact ⟨h1, h2, h3, h4, h5, h6, h7⟩

/-- Every way the load part of the constructor can end, for members `s` that come from the
header checks. -/
theorem loadStage_cases (pageSize fuel : Nat) (m : IKittyMemOp) (s img : ElfScanner)
    (h : ElfScanner.loadStage pageSize fuel m s = some img) :
    img._ehdr = s._ehdr ∧ img._elfBase = s._elfBase ∧
    ((img._phdrs = s._phdrs ∧ img._loads = s._loads ∧ img._loadBias = s._loadBias ∧
        img._loadSize = s._loadSize ∧ img._dynamics = s._dynamics ∧
        img._stringTable = s._stringTable ∧ img._symbolTable = s._symbolTable ∧
        img._strsz = s._strsz ∧ img._syment = s._syment ∧ img._symbols = s._symbols) ∨
      ∃ ls, ls = loadScan s._ehdr (m.readInto (uptrAdd s._elfBase s._ehdr.e_phoff)
          (s._ehdr.e_phnum * s._ehdr.e_phentsize)
          (List.replicate (s._ehdr.e_phnum * s._ehdr.e_phentsize) 0)).2 ∧
        img._phdrs = ls.phdrs ∧ img._loads = ls.loads ∧
        (((ls.loads = 0 ∨ ls.max_vaddr = 0) ∧ img._loadBias = s._loadBias ∧
            img._loadSize = s._loadSize ∧ img._dynamics = s._dynamics ∧
            img._stringTable = s._stringTable ∧ img._symbolTable = s._symbolTable ∧
            img._strsz = s._strsz ∧ img._syment = s._syment ∧ img._symbols = s._symbols) ∨
          (ls.loads ≠ 0 ∧ ls.max_vaddr ≠ 0 ∧
            img._loadBias = uptrSub s._elfBase (KT_PAGE_START pageSize ls.min_vaddr) ∧
            img._loadSize = uptrSub (KT_PAGE_END pageSize ls.max_vaddr)
              (KT_PAGE_START pageSize ls.min_vaddr)))) := by
  unfold ElfScanner.loadStage at h
  dsimp only at h
  split_ifs at h with h1 h2 h3 h4
  · injection h with h
    subst h
    exact ⟨rfl, rfl, Or.inl ⟨rfl, rfl, rfl, rfl, rfl, rfl, rfl, rfl, rfl, rfl⟩⟩
  · injection h with h
    subst h
    exact ⟨rfl, rfl, Or.inr ⟨_, rfl, rfl, rfl,
      Or.inl ⟨Or.inl h3, rfl, rfl, rfl, rfl, rfl, rfl, rfl, rfl⟩⟩⟩
  · injection h with h
    subst h
    exact ⟨rfl, rfl, Or.inr ⟨_, rfl, rfl, rfl,
      Or.inl ⟨Or.inr h4, rfl, rfl, rfl, rfl, rfl, rfl, rfl, rfl⟩⟩⟩
  · obtain ⟨_, k2, k3, k4, k5, k6, k7⟩ := dynamicsStage_keeps fuel m _ img h
    exact ⟨k3, k2, Or.inr ⟨_, rfl, k4, k5, Or.inr ⟨h3, h4, k6, k7⟩⟩⟩

/-- Every way the constructor can end on a bound capability, as far as the load part goes. -/
theorem new_load_cases (pageSize fuel : Nat) (m : IKittyMemOp) (elfBase : Nat)
    (img : ElfScanner) (h : ElfScanner.new pageSize fuel (some m) elfBase = some img) :
    (img._phdrs = [] ∧ img._loads = 0 ∧ img._loadBias = 0 ∧ img._loadSize = 0 ∧
      img._dynamics = [] ∧ img._stringTable = 0 ∧ img._symbolTable = 0 ∧ img._strsz = 0 ∧
      img._syment = 0 ∧ img._symbols = []) ∨
    (img._phdrs = (loadScanAt m elfBase).phdrs ∧ img._loads = (loadScanAt m elfBase).loads ∧
      (((loadScanAt m elfBase).loads = 0 ∨ (loadScanAt m elfBase).max_vaddr = 0) ∧
        img._loadBias = 0 ∧ img._loadSize = 0 ∧ img._dynamics = [] ∧ img._stringTable = 0 ∧
        img._symbolTable = 0 ∧ img._strsz = 0 ∧ img._syment = 0 ∧ img._symbols = [] ∨
      ((loadScanAt m elfBase).loads ≠ 0 ∧ (loadScanAt m elfBase).max_vaddr ≠ 0 ∧
        img._loadBias =
          uptrSub elfBase (KT_PAGE_START pageSize (loadScanAt m elfBase).min_vaddr) ∧
        img._loadSize = uptrSub (KT_PAGE_END pageSize (loadScanAt m elfBase).max_vaddr)
          (KT_PAGE_START pageSize (loadScanAt m elfBase).min_vaddr)))) := by
  unfold ElfScanner.new at h
  dsimp only at h
  split_ifs at h with h1 h2 h3 h4 h5
  · injection h with h; subst h
    exact Or.inl ⟨rfl, rfl, rfl, rfl, rfl, rfl, rfl, rfl, rfl, rfl⟩
  · injection h with h; subst h
    exact Or.inl ⟨rfl, rfl, rfl, rfl, rfl, rfl, rfl, rfl, rfl, rfl⟩
  · injection h with h; subst h
    exact Or.inl ⟨rfl, rfl, rfl, rfl, rfl, rfl, rfl, rfl, rfl, rfl⟩
  · injection h with h; subst h
    exact Or.inl ⟨rfl, rfl, rfl, rfl, rfl, rfl, rfl, rfl, rfl, rfl⟩
  · injection h with h; subst h
    exact Or.inl ⟨rfl, rfl, rfl, rfl, rfl, rfl, rfl, rfl, rfl, rfl⟩
  · obtain ⟨_, _, hc⟩ := loadStage_cases pageSize fuel m _ img h
    rcases hc with hc | ⟨ls, hls, k1, k2, hc⟩
    · exact Or.inl hc
    · have hls' : ls = loadScanAt m elfBase := hls
      subst hls'
      rcases hc with ⟨k3, k4⟩ | k3
      · exact Or.inr ⟨k1, k2, Or.inl ⟨k3, k4⟩⟩
      · exact Or.inr ⟨k1, k2, Or.inr k3⟩

/-! ## Page alignment -/

theorem land_high_mask (y k : Nat) (hk : k ≤ 64) (hy : y < 2 ^ 64) :
    y &&& (2 ^ 64 - 2 ^ k) = y / 2 ^ k * 2 ^ k := by
  have hpk : 2 ^ k - 1 < 2 ^ 64 := by
    have : 2 ^ k ≤ 2 ^ 64 := Nat.pow_le_pow_right (by decide) hk
    have := Nat.two_pow_pos k
    omega
  have e : 2 ^ 64 - 2 ^ k = 2 ^ 64 - (2 ^ k - 1 + 1) := by
    have := Nat.two_pow_pos k
    omega
  apply Nat.eq_of_testBit_eq
  intro i
  rw [Nat.testBit_and, e, Nat.testBit_two_pow_sub_succ hpk, Nat.testBit_two_pow_sub_one,
    ← Nat.shiftRight_eq_div_pow, ← Nat.shiftLeft_eq, Nat.testBit_shiftLeft,
    Nat.testBit_shiftRight]
  by_cases hik : i < k
  · have : ¬ i ≥ k := by omega
    simp [hik, this]
  · have hge : i ≥ k := by omega
    rw [show k + (i - k) = i by omega]
    by_cases hi : i < 64
    · simp [hik, hge, hi]
    · have hyi : y < 2 ^ i :=
        lt_of_lt_of_le hy (Nat.pow_le_pow_right (by decide) (by omega))
      simp [Nat.testBit_lt_two_pow hyi]

theorem KT_PAGE_START_eq (k x : Nat) (hk : k < 64) :
    KT_PAGE_START (2 ^ k) x = x % 2 ^ 64 / 2 ^ k * 2 ^ k := by
  have hlt : 2 ^ k < 2 ^ 64 := Nat.pow_lt_pow_right (by decide) hk
  have hpos := Nat.two_pow_pos k
  unfold KT_PAGE_START
  rw [uptrSub_eq (by omega) (by unfold UINTPTR_MOD; exact hlt)]
  unfold UINTPTR_MOD
  rw [show 2 ^ 64 - 1 - (2 ^ k - 1) = 2 ^ 64 - 2 ^ k by omega]
  exact land_high_mask _ k (by omega) (Nat.mod_lt _ (by decide))

theorem KT_PAGE_END_eq (k x : Nat) (hk : k < 64) :
    KT_PAGE_END (2 ^ k) x = (x + 2 ^ k - 1) % 2 ^ 64 / 2 ^ k * 2 ^ k := by
  have hpos := Nat.two_pow_pos k
  unfold KT_PAGE_END
  rw [KT_PAGE_START_eq _ _ hk]
  have e : uptrSub (uptrAdd x (2 ^ k)) 1 % 2 ^ 64 = (x + 2 ^ k - 1) % 2 ^ 64 := by
    unfold uptrSub uptrAdd UINTPTR_MOD
    generalize 2 ^ k = ps at hpos
    omega
  rw [e]

/-- Aligning down commutes with reduction modulo `2 ^ 64`, the page size dividing `2 ^ 64`. -/
theorem alignDown_mod (k y : Nat) (hk : k ≤ 64) :
    y % 2 ^ 64 / 2 ^ k * 2 ^ k = y / 2 ^ k * 2 ^ k % 2 ^ 64 := by
  have e : (2 : Nat) ^ 64 = 2 ^ k * 2 ^ (64 - k) := by
    rw [← Nat.pow_add]; congr 1; omega
  rw [e, Nat.mod_mul_right_div_self, Nat.mul_comm (y / 2 ^ k) (2 ^ k),
    Nat.mul_comm (y / 2 ^ k % 2 ^ (64 - k)) (2 ^ k), Nat.mul_mod_mul_left]

theorem uptrSub_cast (a b : Nat) :
    ((uptrSub a b : Nat) : Int) = ((a : Int) - (b : Int)) % 2 ^ 64 := by
  unfold uptrSub UINTPTR_MOD
  omega

/-- C10: for an image the constructor returns whose program headers contain a `PT_LOAD`
entry, `mn` being the least `p_vaddr` and `mx ≠ 0` the greatest `p_vaddr + p_memsz` (modulo
`2 ^ 64`) over the `PT_LOAD` entries only, and the page size being a power of two:
`loadBias() = base - page_align_down(mn)` and
`loadSize() = page_align_up(mx) - page_align_down(mn)`, both modulo `2 ^ 64`. -/
theorem load_bias_and_size (pageSize fuel : Nat) (m : IKittyMemOp) (elfBase : Nat)
    (img : ElfScanner) (k mn mx : Nat)
    (himg : ElfScanner.new pageSize fuel (some m) elfBase = some img)
    (hps : pageSize = 2 ^ k) (hk : k < 64)
    (hmn : IsLeast {v | ∃ p ∈ img.programHeaders, p.p_type = PT_LOAD ∧ v = p.p_vaddr} mn)
    (hmx : IsGreatest {v | ∃ p ∈ img.programHeaders, p.p_type = PT_LOAD ∧
      v = (p.p_vaddr + p.p_memsz) % 2 ^ 64} mx)
    (hmx0 : mx ≠ 0) :
    (img.loadBias : Int) = ((elfBase : Int) - (pageAlignDown pageSize mn : Nat)) % 2 ^ 64 ∧
    (img.loadSize : Int) =
      ((pageAlignUp pageSize mx : Nat) - (pageAlignDown pageSize mn : Nat) : Int) % 2 ^ 64 := by
  subst hps
  unfold ElfScanner.programHeaders at hmn hmx
  unfold ElfScanner.loadBias ElfScanner.loadSize pageAlignDown pageAlignUp
  rcases new_load_cases (2 ^ k) fuel m elfBase img himg with c1 | ⟨hph, _, c⟩
  · obtain ⟨⟨p, hp, _⟩, _⟩ := hmn
    rw [c1.1] at hp
    simp at hp
  · rw [hph] at hmn hmx
    obtain ⟨hl, hmin, hmax⟩ := loadScan_min_max _ _ mn mx hmn hmx
    rcases c with ⟨c2, _⟩ | ⟨_, _, hb, hs⟩
    · rcases c2 with c2 | c2
      · exact absurd c2 hl
      · exact absurd (hmax ▸ c2) hmx0
    · have hmin' : (loadScanAt m elfBase).min_vaddr = mn := hmin
      have hmax' : (loadScanAt m elfBase).max_vaddr = mx := hmax
      rw [hb, hs, hmin', hmax', KT_PAGE_START_eq _ _ hk, KT_PAGE_END_eq _ _ hk,
        alignDown_mod k mn (by omega), alignDown_mod k (mx + 2 ^ k - 1) (by omega),
        uptrSub_cast, uptrSub_cast]
      generalize mn / 2 ^ k * 2 ^ k = A
      generalize (mx + 2 ^ k - 1) / 2 ^ k * 2 ^ k = B
      constructor <;> omega

/-- C10, worked example of the specification: one `PT_LOAD` segment at virtual address `0x0`
of size `0x2000`, mapped at base `0x70000000`, page size 4096: the load bias is `0x70000000`
and the load size `0x2000`. -/
theorem load_bias_and_size_witness :
    ∃ img, ElfScanner.new 4096 0 (some exampleElfMem) 0x70000000 = some img ∧
      (img.loadBias : Int) = 0x70000000 ∧ (img.loadSize : Int) = 0x2000 := by
  have hs : (ElfScanner.new 4096 0 (some exampleElfMem) 0x70000000).isSome = true := by decide
  obtain ⟨img, himg⟩ := Option.isSome_iff_exists.1 hs
  have hp : img.programHeaders = [⟨1, 5, 0, 0, 0, 0x2000, 0x2000, 0x1000⟩] := by
    have e : (ElfScanner.new 4096 0 (some exampleElfMem) 0x70000000).map
        ElfScanner.programHeaders = some [⟨1, 5, 0, 0, 0, 0x2000, 0x2000, 0x1000⟩] := by decide
    rw [himg] at e
    simpa using e
  have hmn : IsLeast {v | ∃ p ∈ img.programHeaders, p.p_type = PT_LOAD ∧ v = p.p_vaddr} 0 := by
    rw [hp]
    exact ⟨⟨⟨1, 5, 0, 0, 0, 0x2000, 0x2000, 0x1000⟩, by simp, rfl, rfl⟩,
      fun v _ => Nat.zero_le v⟩
  have hmx : IsGreatest {v | ∃ p ∈ img.programHeaders, p.p_type = PT_LOAD ∧
      v = (p.p_vaddr + p.p_memsz) % 2 ^ 64} 0x2000 := by
    rw [hp]
    refine ⟨⟨⟨1, 5, 0, 0, 0, 0x2000, 0x2000, 0x1000⟩, by simp, rfl, by norm_num⟩, ?_⟩
    rintro v ⟨p, hp', _, hv⟩
    have : p = ⟨1, 5, 0, 0, 0, 0x2000, 0x2000, 0x1000⟩ := by simpa using hp'
    subst this
    rw [hv]
    norm_num
  have := load_bias_and_size 4096 0 exampleElfMem 0x70000000 img 12 0 0x2000 himg (by norm_num)
    (by decide) hmn hmx (by decide)
  refine ⟨img, himg, ?_, ?_⟩
  · rw [this.1]; norm_num [pageAlignDown]
  · rw [this.2]; norm_num [pageAlignDown, pageAlignUp]

/-! ## The constructor, path by path -/

theorem new_of_not_accepted (pageSize fuel : Nat) (m : IKittyMemOp) (elfBase : Nat)
    (h : ¬ HeaderAccepted m elfBase) :
    ElfScanner.new pageSize fuel (some m) elfBase =
      some (if elfBase = 0 then ElfScanner.init else headerState m elfBase) := by
  unfold ElfScanner.new
  by_cases h1 : elfBase = 0
  · simp only [h1, if_true]
  by_cases h2 : (m.readInto elfBase sizeofEhdr (List.replicate sizeofEhdr 0)).1 = 0
  · simp only [h1, h2, if_true, if_false]; rfl
  by_cases h3 : (decodeEhdr (m.readInto elfBase sizeofEhdr
      (List.replicate sizeofEhdr 0)).2).e_ident.take 4 = ELFMAG
  swap
  · simp only [h1, h2, h3, ne_eq, not_false_eq_true, if_true, if_false]; rfl
  by_cases h4 : (decodeEhdr (m.readInto elfBase sizeofEhdr
      (List.replicate sizeofEhdr 0)).2).e_ident.getD EI_CLASS 0 = ELF_EICLASS_
  swap
  · simp only [h1, h2, h3, h4, ne_eq, not_false_eq_true, not_true_eq_false, if_true, if_false]
    rfl
  by_cases h5 : (decodeEhdr (m.readInto elfBase sizeofEhdr
        (List.replicate sizeofEhdr 0)).2).e_phnum = 0 ∨
      (decodeEhdr (m.readInto elfBase sizeofEhdr (List.replicate sizeofEhdr 0)).2).e_phentsize = 0 ∨
      (decodeEhdr (m.readInto elfBase sizeofEhdr (List.replicate sizeofEhdr 0)).2).e_shnum = 0 ∨
      (decodeEhdr (m.readInto elfBase sizeofEhdr (List.replicate sizeofEhdr 0)).2).e_shentsize = 0
  · simp only [h1, h2, h3, h4, h5, ne_eq, not_true_eq_false, if_true, if_false]; rfl
  exfalso
  apply h
  refine ⟨h1, h2, h3, h4, ?_, ?_, ?_, ?_⟩
  · exact fun e => h5 (Or.inl e)
  · exact fun e => h5 (Or.inr (Or.inl e))
  · exact fun e => h5 (Or.inr (Or.inr (Or.inl e)))
  · exact fun e => h5 (Or.inr (Or.inr (Or.inr e)))

theorem new_of_accepted (pageSize fuel : Nat) (m : IKittyMemOp) (elfBase : Nat)
    (h : HeaderAccepted m elfBase) :
    ElfScanner.new pageSize fuel (some m) elfBase =
      ElfScanner.loadStage pageSize fuel m (headerState m elfBase) := by
  obtain ⟨h1, h2, h3, h4, h5, h6, h7, h8⟩ := h
  unfold headerAt at h3 h4 h5 h6 h7 h8
  have h2' : ¬ (m.readInto elfBase sizeofEhdr (List.replicate sizeofEhdr 0)).1 = 0 := h2
  unfold ElfScanner.new
  simp only [h1, h2', h3, h4, h5, h6, h7, h8, ne_eq, not_true_eq_false, or_self, if_false]
  rfl

theorem loadStage_headerState (pageSize fuel : Nat) (m : IKittyMemOp) (elfBase : Nat) :
    ElfScanner.loadStage pageSize fuel m (headerState m elfBase) =
      if (headerAt m elfBase).e_phnum * (headerAt m elfBase).e_phentsize ≥ 2 ^ 31 then none
      else if (m.Read (uptrAdd elfBase (headerAt m elfBase).e_phoff)
          ((headerAt m elfBase).e_phnum * (headerAt m elfBase).e_phentsize)).1 = 0 then
        some (headerState m elfBase)
      else if (loadScanAt m elfBase).loads = 0 ∨ (loadScanAt m elfBase).max_vaddr = 0 then
        some (scannedState m elfBase)
      else ElfScanner.symbolsStage fuel m (dynState pageSize m elfBase) := by
  unfold ElfScanner.loadStage
  by_cases h1 : (headerAt m elfBase).e_phnum * (headerAt m elfBase).e_phentsize ≥ 2 ^ 31
  · have h1' : (headerState m elfBase)._ehdr.e_phnum * (headerState m elfBase)._ehdr.e_phentsize ≥
        2 ^ 31 := h1
    simp only [h1, h1', if_true]
  have h1' : ¬ (headerState m elfBase)._ehdr.e_phnum *
      (headerState m elfBase)._ehdr.e_phentsize ≥ 2 ^ 31 := h1
  simp only [h1, h1', if_false]
  by_cases h2 : (m.Read (uptrAdd elfBase (headerAt m elfBase).e_phoff)
      ((headerAt m elfBase).e_phnum * (headerAt m elfBase).e_phentsize)).1 = 0
  · have h2' : (m.readInto (uptrAdd (headerState m elfBase)._elfBase
          (headerState m elfBase)._ehdr.e_phoff)
        ((headerState m elfBase)._ehdr.e_phnum * (headerState m elfBase)._ehdr.e_phentsize)
        (List.replicate ((headerState m elfBase)._ehdr.e_phnum *
          (headerState m elfBase)._ehdr.e_phentsize) 0)).1 = 0 := h2
    simp only [h2, h2', if_true]
  have h2' : ¬ (m.readInto (uptrAdd (headerState m elfBase)._elfBase
        (headerState m elfBase)._ehdr.e_phoff)
      ((headerState m elfBase)._ehdr.e_phnum * (headerState m elfBase)._ehdr.e_phentsize)
      (List.replicate ((headerState m elfBase)._ehdr.e_phnum *
        (headerState m elfBase)._ehdr.e_phentsize) 0)).1 = 0 := h2
  simp only [h2, h2', if_false]
  have hls : loadScan (headerState m elfBase)._ehdr
      (m.readInto (uptrAdd (headerState m elfBase)._elfBase (headerState m elfBase)._ehdr.e_phoff)
        ((headerState m elfBase)._ehdr.e_phnum * (headerState m elfBase)._ehdr.e_phentsize)
        (List.replicate ((headerState m elfBase)._ehdr.e_phnum *
          (headerState m elfBase)._ehdr.e_phentsize) 0)).2 = loadScanAt m elfBase := rfl
  simp only [hls]
  by_cases h3 : (loadScanAt m elfBase).loads = 0
  · rw [if_pos h3, if_pos (Or.inl h3)]; rfl
  by_cases h4 : (loadScanAt m elfBase).max_vaddr = 0
  · rw [if_neg h3, if_pos h4, if_pos (Or.inr h4)]; rfl
  rw [if_neg h3, if_neg h4, if_neg (by rintro (h | h) <;> contradiction)]
  rfl

/-- The constructor on a bound capability, path by path. -/
theorem new_eq (pageSize fuel : Nat) (m : IKittyMemOp) (elfBase : Nat) :
    ElfScanner.new pageSize fuel (some m) elfBase =
      if HeaderAccepted m elfBase then
        if (headerAt m elfBase).e_phnum * (headerAt m elfBase).e_phentsize ≥ 2 ^ 31 then none
        else if (m.Read (uptrAdd elfBase (headerAt m elfBase).e_phoff)
            ((headerAt m elfBase).e_phnum * (headerAt m elfBase).e_phentsize)).1 = 0 then
          some (headerState m elfBase)
        else if (loadScanAt m elfBase).loads = 0 ∨ (loadScanAt m elfBase).max_vaddr = 0 then
          some (scannedState m elfBase)
        else ElfScanner.symbolsStage fuel m (dynState pageSize m elfBase)
      else some (if elfBase = 0 then ElfScanner.init else headerState m elfBase) := by
  by_cases h : HeaderAccepted m elfBase
  · rw [if_pos h, new_of_accepted pageSize fuel m elfBase h, loadStage_headerState]
  · rw [if_neg h, new_of_not_accepted pageSize fuel m elfBase h]

theorem loadScanAt_phdrs (m : IKittyMemOp) (elfBase : Nat) :
    (loadScanAt m elfBase).phdrs = parsedPhdrs m elfBase :=
  (loadScan_inv (headerAt m elfBase) (phdrTableAt m elfBase)).1

theorem parsedPhdrs_length (m : IKittyMemOp) (elfBase : Nat) :
    (parsedPhdrs m elfBase).length = (headerAt m elfBase).e_phnum := by
  simp [parsedPhdrs]

theorem parsedPhdrs_ne_nil (m : IKittyMemOp) (elfBase : Nat) (h : HeaderAccepted m elfBase) :
    parsedPhdrs m elfBase ≠ [] := by
  intro e
  have := parsedPhdrs_length m elfBase
  rw [e] at this
  exact h.2.2.2.2.1 this.symm

/-- C11: when the header passes validation and the program header table is read, the
announced entry size being at most `sizeof(Elf64_Phdr)` (so that no copy of an entry writes
past `phdr_entry`), and either no parsed program header is of type `PT_LOAD` or every
`PT_LOAD` entry has `p_vaddr + p_memsz` (modulo `2 ^ 64`) equal to 0, so that their maximum
is 0, the constructor returns (whatever the fuel) an image with `loadBias() = 0`,
`loadSize() = 0`, no dynamic entry, no symbol and `isValid()` false, whose
`programHeaders()` are all the parsed entries. -/
theorem no_load_segment_gives_no_bias (pageSize fuel : Nat) (m : IKittyMemOp) (elfBase : Nat)
    (hacc : HeaderAccepted m elfBase) (htab : TableRead m elfBase)
    (_hfit : PhdrCopyFits m elfBase)
    (hno : (∀ p ∈ parsedPhdrs m elfBase, p.p_type ≠ PT_LOAD) ∨
      (∀ p ∈ parsedPhdrs m elfBase, p.p_type = PT_LOAD →
        (p.p_vaddr + p.p_memsz) % 2 ^ 64 = 0)) :
    ∃ img, ElfScanner.new pageSize fuel (some m) elfBase = some img ∧
      img.loadBias = 0 ∧ img.loadSize = 0 ∧ img.dynamics = [] ∧ img.symbols = [] ∧
      img.isValid = false ∧ img.programHeaders = parsedPhdrs m elfBase := by
  obtain ⟨h1, h2, h3, h4, h5⟩ := loadScan_inv (headerAt m elfBase) (phdrTableAt m elfBase)
  have hz : (loadScanAt m elfBase).loads = 0 ∨ (loadScanAt m elfBase).max_vaddr = 0 := by
    rcases hno with hno | hno
    · left
      show (loadScan (headerAt m elfBase) (phdrTableAt m elfBase)).loads = 0
      rw [h2, List.countP_eq_zero]
      intro p hp
      have := hno p hp
      simpa using this
    · right
      rcases h5 with h5 | ⟨p, hp, hpl, hpe⟩
      · exact h5
      · have := hno p hp hpl
        show (loadScan (headerAt m elfBase) (phdrTableAt m elfBase)).max_vaddr = 0
        rw [← hpe]
        exact this
  refine ⟨scannedState m elfBase, ?_, rfl, rfl, rfl, rfl, ?_, loadScanAt_phdrs m elfBase⟩
  · rw [new_eq, if_pos hacc, if_neg (by have := htab.1; omega), if_neg htab.2, if_pos hz]
  · simp [ElfScanner.isValid, scannedState, headerState, ElfScanner.init]

/-! ## The "read all dynamics" loops -/

theorem dynValue_nil (tag : Nat) : dynValue tag [] = 0 := rfl

theorem dynValue_concat (tag : Nat) (l : List Elf64_Dyn) (d : Elf64_Dyn) :
    dynValue tag (l ++ [d]) = if d.d_tag = tag then d.d_un else dynValue tag l := by
  unfold dynValue
  rw [List.filter_append]
  by_cases h : d.d_tag = tag
  · simp [h, List.filter_cons, List.getLast?_concat]
  · simp [h, List.filter_cons]

theorem dynValue_eq_zero_of_no_tag (tag : Nat) (l : List Elf64_Dyn)
    (h : ∀ d ∈ l, d.d_tag ≠ tag) : dynValue tag l = 0 := by
  unfold dynValue
  have : l.filter (fun d => decide (d.d_tag = tag)) = [] := by
    rw [List.filter_eq_nil_iff]
    intro d hd
    simpa using h d hd
  rw [this]
  rfl

theorem decodeDyn_un_lt (bs : List Byte) : (decodeDyn bs).d_un < UINTPTR_MOD := by
  have := leField_lt bs 8 8
  simpa [decodeDyn, UINTPTR_MOD] using this

theorem dynEntries_un_lt (bs : List Byte) (n : Nat) :
    ∀ d ∈ dynEntries bs n, d.d_un < UINTPTR_MOD := by
  intro d hd
  obtain ⟨k, _, hk⟩ := List.mem_map.1 hd
  rw [← hk]
  exact decodeDyn_un_lt _

theorem dynScanEntries_inv :
    ∀ (entries : List Elf64_Dyn) (st : DynScan), st.Inv →
      (∀ d ∈ entries, d.d_un < UINTPTR_MOD) → (dynScanEntries entries st).Inv := by
  intro entries
  induction entries with
  | nil => intro st h _; exact h
  | cons dyn rest ih =>
    intro st h hb
    unfold dynScanEntries
    by_cases h0 : dyn.d_tag = DT_NULL
    · simp only [h0, if_true]; exact h
    · simp only [h0, if_false]
      apply ih _ _ (fun d hd => hb d (List.mem_cons_of_mem _ hd))
      obtain ⟨h1, h2, h3, h4, h5⟩ := h
      have hbd := hb dyn (List.mem_cons_self _ _)
      have hmem : ∀ d ∈ st.dynamics ++ [dyn], d.d_tag ≠ DT_NULL ∧ d.d_un < UINTPTR_MOD := by
        intro d hd
        rcases List.mem_append.1 hd with hd | hd
        · exact h5 d hd
        · have : d = dyn := by simpa using hd
          subst this
          exact ⟨h0, hbd⟩
      have c12 : DT_STRTAB ≠ DT_SYMTAB := by decide
      have c13 : DT_STRTAB ≠ DT_STRSZ := by decide
      have c14 : DT_STRTAB ≠ DT_SYMENT := by decide
      have c23 : DT_SYMTAB ≠ DT_STRSZ := by decide
      have c24 : DT_SYMTAB ≠ DT_SYMENT := by decide
      have c34 : DT_STRSZ ≠ DT_SYMENT := by decide
      by_cases t1 : dyn.d_tag = DT_STRTAB
      · rw [if_pos t1]
        refine ⟨?_, ?_, ?_, ?_, hmem⟩ <;> dsimp only <;> rw [dynValue_concat, t1]
        · rw [if_pos rfl]
        · rw [if_neg c12]; exact h2
        · rw [if_neg c13]; exact h3
        · rw [if_neg c14]; exact h4
      by_cases t2 : dyn.d_tag = DT_SYMTAB
      · rw [if_neg t1, if_pos t2]
        refine ⟨?_, ?_, ?_, ?_, hmem⟩ <;> dsimp only <;> rw [dynValue_concat, t2]
        · rw [if_neg c12.symm]; exact h1
        · rw [if_pos rfl]
        · rw [if_neg c23]; exact h3
        · rw [if_neg c24]; exact h4
      by_cases t3 : dyn.d_tag = DT_STRSZ
      · rw [if_neg t1, if_neg t2, if_pos t3]
        refine ⟨?_, ?_, ?_, ?_, hmem⟩ <;> dsimp only <;> rw [dynValue_concat, t3]
        · rw [if_neg c13.symm]; exact h1
        · rw [if_neg c23.symm]; exact h2
        · rw [if_pos rfl]
        · rw [if_neg c34]; exact h4
      by_cases t4 : dyn.d_tag = DT_SYMENT
      · rw [if_neg t1, if_neg t2, if_neg t3, if_pos t4]
        refine ⟨?_, ?_, ?_, ?_, hmem⟩ <;> dsimp only <;> rw [dynValue_concat, t4]
        · rw [if_neg c14.symm]; exact h1
        · rw [if_neg c24.symm]; exact h2
        · rw [if_neg c34.symm]; exact h3
        · rw [if_pos rfl]
      · rw [if_neg t1, if_neg t2, if_neg t3, if_neg t4]
        refine ⟨?_, ?_, ?_, ?_, hmem⟩ <;> dsimp only <;> rw [dynValue_concat]
        · rw [if_neg t1]; exact h1
        · rw [if_neg t2]; exact h2
        · rw [if_neg t3]; exact h3
        · rw [if_neg t4]; exact h4

theorem readDynamics_inv (m : IKittyMemOp) (loadBias : Nat) :
    ∀ (phdrs : List Elf64_Phdr) (st : DynScan), st.Inv →
      (readDynamics m loadBias phdrs st).Inv := by
  intro phdrs
  induction phdrs with
  | nil => intro st h; exact h
  | cons phdr rest ih =>
    intro st h
    unfold readDynamics
    by_cases hd : phdr.p_type = PT_DYNAMIC
    · simp only [hd, if_true]
      split_ifs with hr
      · exact h
      · exact ih _ (dynScanEntries_inv _ _ h (dynEntries_un_lt _ _))
    · simp only [hd, if_false]
      exact ih _ h

theorem dynamicsAt_inv (pageSize : Nat) (m : IKittyMemOp) (elfBase : Nat) :
    (dynamicsAt pageSize m elfBase).Inv :=
  readDynamics_inv m _ _ _
    ⟨rfl, rfl, rfl, rfl, fun d hd => by simp at hd⟩

/-- A failed read of a `PT_DYNAMIC` segment ends "read all dynamics": the program headers
after it are not looked at. -/
theorem readDynamics_stops (m : IKittyMemOp) (loadBias : Nat) (d : Elf64_Phdr)
    (post : List Elf64_Phdr) (hd : d.p_type = PT_DYNAMIC)
    (hfail : (m.Read (uptrAdd loadBias d.p_vaddr) d.p_memsz).1 = 0) :
    ∀ (pre : List Elf64_Phdr) (st : DynScan),
      readDynamics m loadBias (pre ++ d :: post) st = readDynamics m loadBias pre st := by
  intro pre
  induction pre with
  | nil =>
    intro st
    have hfail' : (m.readInto (uptrAdd loadBias d.p_vaddr) d.p_memsz
        (List.replicate (d.p_memsz / sizeofDyn * sizeofDyn) 0)).1 = 0 := hfail
    simp only [List.nil_append, readDynamics, hd, if_true, hfail']
  | cons p pre ih =>
    intro st
    simp only [List.cons_append, readDynamics]
    split_ifs
    · rfl
    · exact ih _
    · exact ih _

theorem symbolsStage_dynState (pageSize fuel : Nat) (m : IKittyMemOp) (elfBase : Nat) :
    ElfScanner.symbolsStage fuel m (dynState pageSize m elfBase) =
      if (dynamicsAt pageSize m elfBase).stringTable = 0 ∨
          (dynamicsAt pageSize m elfBase).symbolTable = 0 ∨
          (dynamicsAt pageSize m elfBase).strsz = 0 ∨ (dynamicsAt pageSize m elfBase).syment = 0 then
        some (dynState pageSize m elfBase)
      else
        (walkAt pageSize fuel m elfBase).map fun symbols =>
          { fixedState pageSize m elfBase with _symbols := symbols } := by
  unfold ElfScanner.symbolsStage
  by_cases h : (dynamicsAt pageSize m elfBase).stringTable = 0 ∨
      (dynamicsAt pageSize m elfBase).symbolTable = 0 ∨
      (dynamicsAt pageSize m elfBase).strsz = 0 ∨ (dynamicsAt pageSize m elfBase).syment = 0
  · have h' : (dynState pageSize m elfBase)._stringTable = 0 ∨
        (dynState pageSize m elfBase)._symbolTable = 0 ∨
        (dynState pageSize m elfBase)._strsz = 0 ∨ (dynState pageSize m elfBase)._syment = 0 := h
    rw [if_pos h, if_pos h']
  · have h' : ¬ ((dynState pageSize m elfBase)._stringTable = 0 ∨
        (dynState pageSize m elfBase)._symbolTable = 0 ∨
        (dynState pageSize m elfBase)._strsz = 0 ∨ (dynState pageSize m elfBase)._syment = 0) := h
    rw [if_neg h, if_neg h']
    show (match walkAt pageSize fuel m elfBase with
      | none => none
      | some symbols => some _) = _
    cases walkAt pageSize fuel m elfBase <;> rfl

/-- Every image the constructor returns on a bound capability: the image of one of the early
exits, or the image left by "read all dynamics" when a mandatory value is missing, or the
image completed by the symbol walk. -/
theorem new_some_cases (pageSize fuel : Nat) (m : IKittyMemOp) (elfBase : Nat)
    (img : ElfScanner) (h : ElfScanner.new pageSize fuel (some m) elfBase = some img) :
    (img = ElfScanner.init ∨ img = headerState m elfBase ∨
      (HeaderAccepted m elfBase ∧ TableRead m elfBase ∧
        ((loadScanAt m elfBase).loads = 0 ∨ (loadScanAt m elfBase).max_vaddr = 0) ∧
        img = scannedState m elfBase)) ∨
    (HeaderAccepted m elfBase ∧ TableRead m elfBase ∧ (loadScanAt m elfBase).loads ≠ 0 ∧
      (loadScanAt m elfBase).max_vaddr ≠ 0 ∧
      (((dynamicsAt pageSize m elfBase).stringTable = 0 ∨
          (dynamicsAt pageSize m elfBase).symbolTable = 0 ∨
          (dynamicsAt pageSize m elfBase).strsz = 0 ∨
          (dynamicsAt pageSize m elfBase).syment = 0) ∧ img = dynState pageSize m elfBase ∨
        (ReachesWalk pageSize m elfBase ∧ ∃ symbols,
          walkAt pageSize fuel m elfBase = some symbols ∧
          img = { fixedState pageSize m elfBase with _symbols := symbols }))) := by
  rw [new_eq] at h
  split_ifs at h with h1 h2 h3 h4 h5
  · left; right; left; injection h with h; exact h.symm
  · left; right; right
    injection h with h
    exact ⟨h1, ⟨by omega, h3⟩, h4, h.symm⟩
  · right
    have h4' : (loadScanAt m elfBase).loads ≠ 0 ∧ (loadScanAt m elfBase).max_vaddr ≠ 0 :=
      ⟨fun e => h4 (Or.inl e), fun e => h4 (Or.inr e)⟩
    refine ⟨h1, ⟨by omega, h3⟩, h4'.1, h4'.2, ?_⟩
    rw [symbolsStage_dynState] at h
    split_ifs at h with h6
    · left; injection h with h; exact ⟨h6, h.symm⟩
    · right
      refine ⟨⟨h1, ⟨by omega, h3⟩, h4'.1, h4'.2, fun e => h6 (Or.inl e),
        fun e => h6 (Or.inr (Or.inl e)), fun e => h6 (Or.inr (Or.inr (Or.inl e))),
        fun e => h6 (Or.inr (Or.inr (Or.inr e)))⟩, ?_⟩
      cases hw : walkAt pageSize fuel m elfBase with
      | none => rw [hw] at h; exact Option.noConfusion h
      | some symbols =>
        rw [hw] at h
        injection h with h
        exact ⟨symbols, rfl, h.symm⟩
  · left; left; injection h with h; exact h.symm
  · left; right; left; injection h with h; exact h.symm

/-! ## The symbol walk -/

theorem symEntryAddr_zero (symtab syment : Nat) (h : symtab < UINTPTR_MOD) :
    symEntryAddr symtab syment 0 = symtab := by
  unfold symEntryAddr
  rw [Nat.zero_mul, Nat.add_zero]
  exact Nat.mod_eq_of_lt h

theorem symEntryAddr_succ (symtab syment k : Nat) :
    uptrAdd (symEntryAddr symtab syment k) syment = symEntryAddr symtab syment (k + 1) := by
  unfold uptrAdd symEntryAddr UINTPTR_MOD
  rw [Nat.mod_add_mod, Nat.add_mul, Nat.one_mul, Nat.add_assoc]

theorem get_sym_address_eq (loadBias : Nat) (sym : Elf64_Sym) :
    get_sym_address loadBias sym = fixAddr loadBias sym.st_value := by
  unfold get_sym_address fixAddr uptrAdd UINTPTR_MOD
  rw [Nat.add_comm]

theorem fix_table_address_eq (loadBias v : Nat) (hv : v ≠ 0) :
    fix_table_address loadBias v = fixAddr loadBias v := by
  unfold fix_table_address fixAddr uptrAdd UINTPTR_MOD
  by_cases h : v < loadBias
  · simp [h, hv]
  · simp [h]

theorem fix_table_address_lt (loadBias v : Nat) (hv : v < UINTPTR_MOD) :
    fix_table_address loadBias v < UINTPTR_MOD := by
  unfold fix_table_address
  split_ifs
  · exact Nat.mod_lt _ (by decide)
  · exact hv

/-- One iteration of the walk at the entry `k`, when the walk does not stop there. -/
theorem walkSymbols_step (m : IKittyMemOp) (loadBias stringTable strsz syment symtab : Nat)
    (fuel k : Nat) (acc : List (Nat × List Char))
    (hnz : symEntryAddr symtab syment k ≠ 0)
    (hgo : ¬ WalkStops m strsz syment (symEntryAddr symtab syment k)) :
    walkSymbols m loadBias stringTable strsz syment (fuel + 1) (symEntryAddr symtab syment k)
        acc =
      walkSymbols m loadBias stringTable strsz syment fuel (symEntryAddr symtab syment (k + 1))
        (acc ++ (symbolOf m loadBias stringTable syment
          (symEntryAddr symtab syment k)).toList) := by
  have hgo' : ¬ ((m.readInto (symEntryAddr symtab syment k) syment
        (List.replicate sizeofSym 0)).1 = 0 ∨
      (decodeSym (m.readInto (symEntryAddr symtab syment k) syment
        (List.replicate sizeofSym 0)).2).st_name ≥ strsz) := hgo
  rw [walkSymbols]
  simp only [hnz, hgo', if_false, symEntryAddr_succ]
  unfold symbolOf readSym
  by_cases hskip : (decodeSym (m.readInto (symEntryAddr symtab syment k) syment
        (List.replicate sizeofSym 0)).2).st_name = 0 ∨
      (decodeSym (m.readInto (symEntryAddr symtab syment k) syment
        (List.replicate sizeofSym 0)).2).st_value = 0
  · simp only [hskip, if_true, Option.toList, List.append_nil]
  · simp only [hskip, if_false, get_sym_address_eq]
    have hs : uptrAdd stringTable (decodeSym (m.readInto (symEntryAddr symtab syment k) syment
        (List.replicate sizeofSym 0)).2).st_name =
        (stringTable + (decodeSym (m.readInto (symEntryAddr symtab syment k) syment
          (List.replicate sizeofSym 0)).2).st_name) % 2 ^ 64 := rfl
    rw [hs]
    generalize m.ReadStr ((stringTable + (decodeSym (m.readInto
      (symEntryAddr symtab syment k) syment (List.replicate sizeofSym 0)).2).st_name) %
        2 ^ 64) 1024 = name
    cases name with
    | nil => simp [Option.toList]
    | cons c t => simp [Option.toList]

/-- The walk that stops at the entry `k + j`, started at the entry `k`: with fuel above `j`
it returns the contributions of the entries `k, ..., k + j - 1` in order, and with less fuel
it does not end. -/
theorem walkSymbols_run (m : IKittyMemOp) (loadBias stringTable strsz syment symtab : Nat) :
    ∀ (j k fuel : Nat) (acc : List (Nat × List Char)),
      (∀ i, k ≤ i → i ≤ k + j → symEntryAddr symtab syment i ≠ 0) →
      (∀ i, k ≤ i → i < k + j → ¬ WalkStops m strsz syment (symEntryAddr symtab syment i)) →
      WalkStops m strsz syment (symEntryAddr symtab syment (k + j)) →
      walkSymbols m loadBias stringTable strsz syment fuel (symEntryAddr symtab syment k) acc =
        if j < fuel then
          some (acc ++ (List.range' k j).filterMap fun i =>
            symbolOf m loadBias stringTable syment (symEntryAddr symtab syment i))
        else none := by
  intro j
  induction j with
  | zero =>
    intro k fuel acc hnz _ hstop
    cases fuel with
    | zero => rfl
    | succ fuel =>
      have hstop' : (m.readInto (symEntryAddr symtab syment k) syment
            (List.replicate sizeofSym 0)).1 = 0 ∨
          (decodeSym (m.readInto (symEntryAddr symtab syment k) syment
            (List.replicate sizeofSym 0)).2).st_name ≥ strsz := hstop
      rw [walkSymbols]
      simp [hnz k (le_refl _) (by omega), hstop']
  | succ j ih =>
    intro k fuel acc hnz hgo hstop
    cases fuel with
    | zero => rfl
    | succ fuel =>
      rw [walkSymbols_step m loadBias stringTable strsz syment symtab fuel k acc
        (hnz k (le_refl _) (by omega)) (hgo k (le_refl _) (by omega)),
        ih (k + 1) fuel _ (fun i h1 h2 => hnz i (by omega) (by omega))
          (fun i h1 h2 => hgo i (by omega) (by omega))
          (by rwa [show k + 1 + j = k + (j + 1) by omega])]
      by_cases hf : j < fuel
      · have hf' : j + 1 < fuel + 1 := by omega
        rw [if_pos hf, if_pos hf', List.range'_succ, List.filterMap_cons]
        cases symbolOf m loadBias stringTable syment (symEntryAddr symtab syment k) <;>
          simp [Option.toList]
      · have hf' : ¬ j + 1 < fuel + 1 := by omega
        rw [if_neg hf, if_neg hf']

/-- Every pair the walk adds is the contribution of a table entry. -/
theorem walkSymbols_mem (m : IKittyMemOp) (loadBias stringTable strsz syment symtab : Nat) :
    ∀ (fuel k : Nat) (acc symbols : List (Nat × List Char)),
      walkSymbols m loadBias stringTable strsz syment fuel (symEntryAddr symtab syment k) acc =
        some symbols →
      ∀ p ∈ symbols, p ∈ acc ∨
        ∃ i, symbolOf m loadBias stringTable syment (symEntryAddr symtab syment i) = some p := by
  intro fuel
  induction fuel with
  | zero => intro k acc symbols h; exact Option.noConfusion h
  | succ fuel ih =>
    intro k acc symbols h p hp
    by_cases hnz : symEntryAddr symtab syment k = 0
    · rw [walkSymbols] at h
      simp only [hnz, if_true] at h
      injection h with h
      subst h
      exact Or.inl hp
    by_cases hgo : WalkStops m strsz syment (symEntryAddr symtab syment k)
    · have hstop' : (m.readInto (symEntryAddr symtab syment k) syment
            (List.replicate sizeofSym 0)).1 = 0 ∨
          (decodeSym (m.readInto (symEntryAddr symtab syment k) syment
            (List.replicate sizeofSym 0)).2).st_name ≥ strsz := hgo
      rw [walkSymbols] at h
      simp only [hnz, hstop', if_true, if_false] at h
      injection h with h
      subst h
      exact Or.inl hp
    · rw [walkSymbols_step m loadBias stringTable strsz syment symtab fuel k acc hnz hgo] at h
      rcases ih (k + 1) _ symbols h p hp with hin | hex
      · rcases List.mem_append.1 hin with hin | hin
        · exact Or.inl hin
        · right
          refine ⟨k, ?_⟩
          cases hs : symbolOf m loadBias stringTable syment (symEntryAddr symtab syment k) with
          | none => rw [hs] at hin; simp [Option.toList] at hin
          | some q =>
            rw [hs] at hin
            have : p = q := by simpa [Option.toList] using hin
            rw [this]
      · exact Or.inr hex

theorem symbolOf_name_ne_nil (m : IKittyMemOp) (loadBias stringTable syment address : Nat)
    (p : Nat × List Char) (h : symbolOf m loadBias stringTable syment address = some p) :
    p.2 ≠ [] := by
  unfold symbolOf at h
  dsimp only at h
  split_ifs at h with h1 h2
  injection h with h
  rw [← h]
  exact h2

/-- C11, worked example: an image whose only program header is of type `PT_NOTE` keeps its
parsed program header and has no load bias, no load size, no dynamic entry and no symbol. -/
theorem no_load_segment_gives_no_bias_witness :
    ∃ img, ElfScanner.new 4096 0 (some noLoadImage) 0x70000000 = some img ∧
      img.loadBias = 0 ∧ img.loadSize = 0 ∧ img.dynamics = [] ∧ img.symbols = [] ∧
      img.isValid = false ∧ img.programHeaders = parsedPhdrs noLoadImage 0x70000000 :=
  no_load_segment_gives_no_bias 4096 0 noLoadImage 0x70000000 (by decide) (by decide)
    (by decide) (Or.inl (by decide))

/-- C12, failing input: the header read reports 63 of the 64 bytes (and stores them, a valid
header whose last byte is 0 anyway). The constructor only tests the count against zero: it
goes on, parses the program header and computes the load bias, where the claim says
construction aborts with an empty program header list. -/
theorem short_header_read_not_rejected :
    (shortHeaderImage.Read 0x70000000 sizeofEhdr).1 = 63 ∧ 63 < sizeofEhdr ∧
    (ElfScanner.new 4096 0 (some shortHeaderImage) 0x70000000).map
        (fun img => (img.programHeaders.length, img.loads, img.loadBias, img.loadSize)) =
      some (1, 1, 0x70000000, 0x2000) := by
  decide

/-- C13 as stated fails: the first `PT_DYNAMIC` segment of `twoDynamicImage` cannot be read,
the second one is readable and holds a `DT_STRSZ` entry, and yet the image has no dynamic
entry and no recorded string table size: the `break` on the failed read leaves the loop over
the program headers. -/
theorem later_dynamic_segment_not_read :
    (ElfScanner.new 4096 0 (some twoDynamicImage) 0x70000000).map
        (fun img => (img.programHeaders.map (fun p => (p.p_type, p.p_vaddr, p.p_memsz)),
          img.loadBias, img.dynamics, img.stringTableSize)) =
      some ([(1, 0, 0x2000), (2, 0x1000, 32), (2, 0x1100, 32)], 0x70000000, [], 0) ∧
    (twoDynamicImage.Read 0x70001000 32).1 = 0 ∧
    (twoDynamicImage.Read 0x70001100 32).1 = 32 ∧
    dynEntries (twoDynamicImage.readInto 0x70001100 32 (List.replicate 32 0)).2 2 =
      [⟨DT_STRSZ, 0x40⟩, ⟨DT_NULL, 0⟩] := by
  decide

/-- The members of an image returned past the load part of the constructor. -/
theorem new_dyn_fields (pageSize fuel : Nat) (m : IKittyMemOp) (elfBase : Nat)
    (img : ElfScanner) (h : ElfScanner.new pageSize fuel (some m) elfBase = some img)
    (hl : (loadScanAt m elfBase).loads ≠ 0) (hm : (loadScanAt m elfBase).max_vaddr ≠ 0)
    (hp : img._phdrs ≠ []) :
    HeaderAccepted m elfBase ∧ TableRead m elfBase ∧
    img._phdrs = (loadScanAt m elfBase).phdrs ∧ img._loads = (loadScanAt m elfBase).loads ∧
    img._loadBias = loadBiasAt pageSize m elfBase ∧
    img._loadSize = loadSizeAt pageSize m elfBase ∧
    img._dynamics = (dynamicsAt pageSize m elfBase).dynamics ∧
    img._strsz = (dynamicsAt pageSize m elfBase).strsz ∧
    img._syment = (dynamicsAt pageSize m elfBase).syment ∧
    ((((dynamicsAt pageSize m elfBase).stringTable = 0 ∨
        (dynamicsAt pageSize m elfBase).symbolTable = 0 ∨
        (dynamicsAt pageSize m elfBase).strsz = 0 ∨
        (dynamicsAt pageSize m elfBase).syment = 0) ∧
      img._stringTable = (dynamicsAt pageSize m elfBase).stringTable ∧
      img._symbolTable = (dynamicsAt pageSize m elfBase).symbolTable ∧ img._symbols = []) ∨
    (ReachesWalk pageSize m elfBase ∧ img._stringTable = strtabAt pageSize m elfBase ∧
      img._symbolTable = symtabAt pageSize m elfBase ∧
      walkAt pageSize fuel m elfBase = some img._symbols)) := by
  rcases new_some_cases pageSize fuel m elfBase img h with
    (e | e | ⟨_, _, hz, _⟩) | ⟨ha, ht, _, _, ⟨hmiss, e⟩ | ⟨hw, symbols, hs, e⟩⟩
  · subst e; exact absurd rfl hp
  · subst e; exact absurd rfl hp
  · rcases hz with hz | hz
    · exact absurd hz hl
    · exact absurd hz hm
  · subst e
    exact ⟨ha, ht, rfl, rfl, rfl, rfl, rfl, rfl, rfl, Or.inl ⟨hmiss, rfl, rfl, rfl⟩⟩
  · subst e
    exact ⟨ha, ht, rfl, rfl, rfl, rfl, rfl, rfl, rfl, Or.inr ⟨hw, rfl, rfl, hs⟩⟩

/-- The members of an image returned before the load bias is defined. -/
theorem new_early_fields (pageSize fuel : Nat) (m : IKittyMemOp) (elfBase : Nat)
    (img : ElfScanner) (h : ElfScanner.new pageSize fuel (some m) elfBase = some img)
    (hz : img._phdrs = [] ∨ (loadScanAt m elfBase).loads = 0 ∨
      (loadScanAt m elfBase).max_vaddr = 0) :
    img._loadBias = 0 ∧ img._loadSize = 0 ∧ img._dynamics = [] ∧ img._stringTable = 0 ∧
      img._symbolTable = 0 ∧ img._strsz = 0 ∧ img._syment = 0 ∧ img._symbols = [] := by
  rcases new_some_cases pageSize fuel m elfBase img h with
    (e | e | ⟨_, _, _, e⟩) | ⟨ha, _, hl, hm, hrest⟩
  · subst e; exact ⟨rfl, rfl, rfl, rfl, rfl, rfl, rfl, rfl⟩
  · subst e; exact ⟨rfl, rfl, rfl, rfl, rfl, rfl, rfl, rfl⟩
  · subst e; exact ⟨rfl, rfl, rfl, rfl, rfl, rfl, rfl, rfl⟩
  · exfalso
    rcases hz with hz | hz | hz
    · have hne := parsedPhdrs_ne_nil m elfBase ha
      rw [← loadScanAt_phdrs] at hne
      rcases hrest with ⟨_, e⟩ | ⟨_, _, _, e⟩ <;> (subst e; exact hne hz)
    · exact hl hz
    · exact hm hz

/-- A `PT_LOAD` program header of the image with a non-zero `p_vaddr + p_memsz` shows that
the load bias of the image is defined. -/
theorem load_defined_of_entry (pageSize fuel : Nat) (m : IKittyMemOp) (elfBase : Nat)
    (img : ElfScanner) (h : ElfScanner.new pageSize fuel (some m) elfBase = some img)
    (hload : ∃ p ∈ img._phdrs, p.p_type = PT_LOAD ∧ (p.p_vaddr + p.p_memsz) % 2 ^ 64 ≠ 0) :
    (loadScanAt m elfBase).loads ≠ 0 ∧ (loadScanAt m elfBase).max_vaddr ≠ 0 ∧ img._phdrs ≠ [] := by
  obtain ⟨p, hp, hpl, hpe⟩ := hload
  have hne : img._phdrs ≠ [] := by
    intro e; rw [e] at hp; simp at hp
  have hph : img._phdrs = (loadScanAt m elfBase).phdrs := by
    rcases new_some_cases pageSize fuel m elfBase img h with
      (e | e | ⟨_, _, _, e⟩) | ⟨_, _, _, _, ⟨_, e⟩ | ⟨_, _, _, e⟩⟩
    · subst e; exact absurd rfl hne
    · subst e; exact absurd rfl hne
    · subst e; rfl
    · subst e; rfl
    · subst e; rfl
  obtain ⟨h1, h2, h3, _, _⟩ := loadScan_inv (headerAt m elfBase) (phdrTableAt m elfBase)
  have hp' : p ∈ (List.range (headerAt m elfBase).e_phnum).map
      (phdrEntry (headerAt m elfBase) (phdrTableAt m elfBase)) := by
    rw [← h1]; rw [hph] at hp; exact hp
  refine ⟨?_, ?_, hne⟩
  · show (loadScan (headerAt m elfBase) (phdrTableAt m elfBase)).loads ≠ 0
    rw [h2]
    intro h0
    rw [List.countP_eq_zero] at h0
    exact h0 p hp' (by simp [hpl])
  · have := (h3 p hp' hpl).2
    have hpe' : uptrAdd p.p_vaddr p.p_memsz ≠ 0 := hpe
    show (loadScan (headerAt m elfBase) (phdrTableAt m elfBase)).max_vaddr ≠ 0
    omega

/-- C13 (amended): in an image with a defined load bias, when the read of the segment of a
`PT_DYNAMIC` program header `d` fails, "read all dynamics" stops there: `dynamics()` and the
recorded string table size and symbol entry size are those collected from the program
headers before `d`, and the program headers after `d` are not processed. -/
theorem dynamics_stop_at_failed_read (pageSize fuel : Nat) (m : IKittyMemOp) (elfBase : Nat)
    (img : ElfScanner) (pre post : List Elf64_Phdr) (d : Elf64_Phdr)
    (himg : ElfScanner.new pageSize fuel (some m) elfBase = some img)
    (hload : ∃ p ∈ img.programHeaders, p.p_type = PT_LOAD ∧
      (p.p_vaddr + p.p_memsz) % 2 ^ 64 ≠ 0)
    (hph : img.programHeaders = pre ++ d :: post) (hd : d.p_type = PT_DYNAMIC)
    (hfail : (m.Read ((img.loadBias + d.p_vaddr) % 2 ^ 64) d.p_memsz).1 = 0) :
    img.dynamics = (readDynamics m img.loadBias pre ⟨[], 0, 0, 0, 0⟩).dynamics ∧
    img.stringTableSize = (readDynamics m img.loadBias pre ⟨[], 0, 0, 0, 0⟩).strsz ∧
    img.symbolEntrySize = (readDynamics m img.loadBias pre ⟨[], 0, 0, 0, 0⟩).syment := by
  obtain ⟨hl, hm, hne⟩ := load_defined_of_entry pageSize fuel m elfBase img himg hload
  obtain ⟨_, _, e1, _, e2, _, e3, e4, e5, _⟩ :=
    new_dyn_fields pageSize fuel m elfBase img himg hl hm hne
  unfold ElfScanner.programHeaders at hph
  unfold ElfScanner.loadBias at hfail
  unfold ElfScanner.dynamics ElfScanner.stringTableSize ElfScanner.symbolEntrySize
    ElfScanner.loadBias
  have hD : dynamicsAt pageSize m elfBase =
      readDynamics m img._loadBias pre ⟨[], 0, 0, 0, 0⟩ := by
    unfold dynamicsAt
    rw [← e1, ← e2, hph]
    exact readDynamics_stops m img._loadBias d post hd hfail pre _
  rw [e3, e4, e5, hD]
  exact ⟨rfl, rfl, rfl⟩

/-- C13, worked example: in `twoDynamicImage` the failed read of the segment of the second
program header leaves the dynamic entries of the program headers before it, that is none. -/
theorem dynamics_stop_at_failed_read_witness :
    ∃ img, ElfScanner.new 4096 0 (some twoDynamicImage) 0x70000000 = some img ∧
      img.dynamics = (readDynamics twoDynamicImage img.loadBias
        [⟨1, 5, 0, 0, 0, 0x2000, 0x2000, 0x1000⟩] ⟨[], 0, 0, 0, 0⟩).dynamics ∧
      img.dynamics = [] := by
  have hs : (ElfScanner.new 4096 0 (some twoDynamicImage) 0x70000000).isSome = true := by decide
  obtain ⟨img, himg⟩ := Option.isSome_iff_exists.1 hs
  have e : (ElfScanner.new 4096 0 (some twoDynamicImage) 0x70000000).map
      (fun img => (img.programHeaders, img.loadBias, img.dynamics)) =
      some ([⟨1, 5, 0, 0, 0, 0x2000, 0x2000, 0x1000⟩] ++
        ⟨2, 5, 0, 0x1000, 0, 32, 32, 0x1000⟩ :: [⟨2, 5, 0, 0x1100, 0, 32, 32, 0x1000⟩],
        0x70000000, []) := by decide
  rw [himg] at e
  simp only [Option.map_some', Option.some.injEq, Prod.mk.injEq] at e
  obtain ⟨e1, e2, e3⟩ := e
  have := dynamics_stop_at_failed_read 4096 0 twoDynamicImage 0x70000000 img
    [⟨1, 5, 0, 0, 0, 0x2000, 0x2000, 0x1000⟩] [⟨2, 5, 0, 0x1100, 0, 32, 32, 0x1000⟩]
    ⟨2, 5, 0, 0x1000, 0, 32, 32, 0x1000⟩ himg
    ⟨⟨1, 5, 0, 0, 0, 0x2000, 0x2000, 0x1000⟩, by rw [e1]; simp, rfl, by decide⟩ e1 rfl
    (by rw [e2]; decide)
  exact ⟨img, himg, this.1, e3⟩

theorem findSymbol_nil (s : ElfScanner) (h : s._symbols = []) (name : List Char) :
    s.findSymbol name = 0 := by
  unfold ElfScanner.findSymbol
  simp [h]

/-- C14: for an image with an accepted header, a program header table that is read and a
defined load bias, in which no copy of a program header writes past `phdr_entry`
(`PhdrCopyFits`) and the vector of every dynamic segment can be built and holds the bytes
read into it (`DynReadsFit`), whose dynamic entries contain no `DT_STRSZ` entry (likewise
when the recorded `DT_STRTAB`, `DT_SYMTAB`, `DT_STRSZ` or `DT_SYMENT` value is missing or
zero), the constructor returns (whatever the fuel) an image with these dynamic entries whose
`programHeaders()` is not empty, whose `isValid()` is false, whose symbol list is empty and
whose `findSymbol` returns 0 for every name. -/
theorem missing_mandatory_dynamic (pageSize fuel : Nat) (m : IKittyMemOp) (elfBase : Nat)
    (hacc : HeaderAccepted m elfBase) (htab : TableRead m elfBase)
    (_hfit : PhdrCopyFits m elfBase) (_hdyn : DynReadsFit m elfBase)
    (hl : (loadScanAt m elfBase).loads ≠ 0) (hm : (loadScanAt m elfBase).max_vaddr ≠ 0)
    (hmiss : (∀ d ∈ (dynamicsAt pageSize m elfBase).dynamics, d.d_tag ≠ DT_STRSZ) ∨
      dynValue DT_STRTAB (dynamicsAt pageSize m elfBase).dynamics = 0 ∨
      dynValue DT_SYMTAB (dynamicsAt pageSize m elfBase).dynamics = 0 ∨
      dynValue DT_STRSZ (dynamicsAt pageSize m elfBase).dynamics = 0 ∨
      dynValue DT_SYMENT (dynamicsAt pageSize m elfBase).dynamics = 0) :
    ∃ img, ElfScanner.new pageSize fuel (some m) elfBase = some img ∧
      img.dynamics = (dynamicsAt pageSize m elfBase).dynamics ∧
      img.programHeaders ≠ [] ∧ img.isValid = false ∧ img.symbols = [] ∧
      ∀ name, img.findSymbol name = 0 := by
  obtain ⟨i1, i2, i3, i4, _⟩ := dynamicsAt_inv pageSize m elfBase
  have hz : (dynamicsAt pageSize m elfBase).stringTable = 0 ∨
      (dynamicsAt pageSize m elfBase).symbolTable = 0 ∨
      (dynamicsAt pageSize m elfBase).strsz = 0 ∨
      (dynamicsAt pageSize m elfBase).syment = 0 := by
    rcases hmiss with h | h | h | h | h
    · exact Or.inr (Or.inr (Or.inl (i3.trans (dynValue_eq_zero_of_no_tag _ _ h))))
    · exact Or.inl (i1.trans h)
    · exact Or.inr (Or.inl (i2.trans h))
    · exact Or.inr (Or.inr (Or.inl (i3.trans h)))
    · exact Or.inr (Or.inr (Or.inr (i4.trans h)))
  have hnew : ElfScanner.new pageSize fuel (some m) elfBase =
      some (dynState pageSize m elfBase) := by
    rw [new_eq, if_pos hacc, if_neg (by have := htab.1; omega), if_neg htab.2,
      if_neg (by rintro (h | h) <;> contradiction), symbolsStage_dynState, if_pos hz]
  refine ⟨_, hnew, rfl, ?_, ?_, rfl, fun name => findSymbol_nil _ rfl name⟩
  · show (loadScanAt m elfBase).phdrs ≠ []
    rw [loadScanAt_phdrs]
    exact parsedPhdrs_ne_nil m elfBase hacc
  · have hv : (dynState pageSize m elfBase)._stringTable = 0 ∨
        (dynState pageSize m elfBase)._symbolTable = 0 ∨
        (dynState pageSize m elfBase)._strsz = 0 ∨ (dynState pageSize m elfBase)._syment = 0 := hz
    unfold ElfScanner.isValid
    rcases hv with h | h | h | h <;> simp [h]

/-- C14, worked example: the dynamic section of `noStrszImage` has no `DT_STRSZ` entry. -/
theorem missing_mandatory_dynamic_witness :
    ∃ img, ElfScanner.new 4096 0 (some noStrszImage) 0x70000000 = some img ∧
      img.dynamics = (dynamicsAt 4096 noStrszImage 0x70000000).dynamics ∧
      img.programHeaders ≠ [] ∧ img.isValid = false ∧ img.symbols = [] ∧
      ∀ name, img.findSymbol name = 0 :=
  missing_mandatory_dynamic 4096 0 noStrszImage 0x70000000 (by decide) (by decide) (by decide)
    (by decide) (by decide) (by decide) (Or.inl (by decide))

theorem dynValue_lt (tag : Nat) (l : List Elf64_Dyn) (h : ∀ d ∈ l, d.d_un < UINTPTR_MOD) :
    dynValue tag l < UINTPTR_MOD := by
  unfold dynValue
  cases hg : (l.filter fun d => decide (d.d_tag = tag)).getLast? with
  | none => exact Nat.two_pow_pos 64
  | some d =>
    have hmem : d ∈ l.filter fun d => decide (d.d_tag = tag) := List.mem_of_getLast?_eq_some hg
    exact h d (List.mem_filter.1 hmem).1

theorem symtabAt_lt (pageSize : Nat) (m : IKittyMemOp) (elfBase : Nat) :
    symtabAt pageSize m elfBase < UINTPTR_MOD := by
  obtain ⟨_, i2, _, _, i5⟩ := dynamicsAt_inv pageSize m elfBase
  apply fix_table_address_lt
  rw [i2]
  exact dynValue_lt _ _ (fun d hd => (i5 d hd).2)

theorem symbolOf_addr (m : IKittyMemOp) (loadBias stringTable syment address : Nat)
    (p : Nat × List Char) (h : symbolOf m loadBias stringTable syment address = some p) :
    p.1 = fixAddr loadBias (readSym m syment address).2.st_value := by
  unfold symbolOf at h
  dsimp only at h
  split_ifs at h with h1 h2
  injection h with h
  rw [← h]

/-- An image whose recorded mandatory values are all present went through the symbol walk. -/
theorem new_walk_fields (pageSize fuel : Nat) (m : IKittyMemOp) (elfBase : Nat)
    (img : ElfScanner) (himg : ElfScanner.new pageSize fuel (some m) elfBase = some img)
    (hpres : dynValue DT_STRTAB img._dynamics ≠ 0 ∧ dynValue DT_SYMTAB img._dynamics ≠ 0 ∧
      dynValue DT_STRSZ img._dynamics ≠ 0 ∧ dynValue DT_SYMENT img._dynamics ≠ 0) :
    ReachesWalk pageSize m elfBase ∧ img._loadBias = loadBiasAt pageSize m elfBase ∧
      img._dynamics = (dynamicsAt pageSize m elfBase).dynamics ∧
      img._strsz = (dynamicsAt pageSize m elfBase).strsz ∧
      img._syment = (dynamicsAt pageSize m elfBase).syment ∧
      img._stringTable = strtabAt pageSize m elfBase ∧
      img._symbolTable = symtabAt pageSize m elfBase ∧
      walkAt pageSize fuel m elfBase = some img._symbols := by
  obtain ⟨i1, i2, i3, i4, _⟩ := dynamicsAt_inv pageSize m elfBase
  rcases new_some_cases pageSize fuel m elfBase img himg with
    (e | e | ⟨_, _, _, e⟩) | ⟨_, _, _, _, ⟨hmiss, e⟩ | ⟨hw, symbols, hs, e⟩⟩
  · subst e; exact absurd rfl hpres.1
  · subst e; exact absurd rfl hpres.1
  · subst e; exact absurd rfl hpres.1
  · subst e
    exfalso
    have h1 : dynValue DT_STRTAB (dynamicsAt pageSize m elfBase).dynamics ≠ 0 := hpres.1
    have h2 : dynValue DT_SYMTAB (dynamicsAt pageSize m elfBase).dynamics ≠ 0 := hpres.2.1
    have h3 : dynValue DT_STRSZ (dynamicsAt pageSize m elfBase).dynamics ≠ 0 := hpres.2.2.1
    have h4 : dynValue DT_SYMENT (dynamicsAt pageSize m elfBase).dynamics ≠ 0 := hpres.2.2.2
    rw [← i1] at h1
    rw [← i2] at h2
    rw [← i3] at h3
    rw [← i4] at h4
    rcases hmiss with h | h | h | h
    · exact h1 h
    · exact h2 h
    · exact h3 h
    · exact h4 h
  · subst e
    exact ⟨hw, rfl, rfl, rfl, rfl, rfl, rfl, hs⟩

/-- C15: in an image whose four mandatory dynamic values are present, with
`fix(v) = v + loadBias` (modulo `2 ^ 64`) when `v < loadBias` and `fix(v) = v` otherwise:
`stringTable()` is `fix` of the recorded `DT_STRTAB` value, `symbolTable()` is `fix` of the
recorded `DT_SYMTAB` value, every pair of the symbol index is the contribution of a symbol
table entry and its address is `fix(st_value)` of that entry; and the two lambdas of the
constructor leave a value that is at least the load bias unchanged. -/
theorem table_addresses_fixed_up (pageSize fuel : Nat) (m : IKittyMemOp) (elfBase : Nat)
    (img : ElfScanner) (himg : ElfScanner.new pageSize fuel (some m) elfBase = some img)
    (hpres : dynValue DT_STRTAB img.dynamics ≠ 0 ∧ dynValue DT_SYMTAB img.dynamics ≠ 0 ∧
      dynValue DT_STRSZ img.dynamics ≠ 0 ∧ dynValue DT_SYMENT img.dynamics ≠ 0) :
    img.stringTable = fixAddr img.loadBias (dynValue DT_STRTAB img.dynamics) ∧
    img.symbolTable = fixAddr img.loadBias (dynValue DT_SYMTAB img.dynamics) ∧
    (∀ p ∈ img.symbols, ∃ k,
      symbolOf m img.loadBias img.stringTable img.symbolEntrySize
        (symEntryAddr img.symbolTable img.symbolEntrySize k) = some p ∧
      p.1 = fixAddr img.loadBias (readSym m img.symbolEntrySize
        (symEntryAddr img.symbolTable img.symbolEntrySize k)).2.st_value) ∧
    (∀ v, img.loadBias ≤ v → fix_table_address img.loadBias v = v) ∧
    (∀ sym : Elf64_Sym, img.loadBias ≤ sym.st_value →
      get_sym_address img.loadBias sym = sym.st_value) := by
  unfold ElfScanner.dynamics at hpres
  obtain ⟨hw, e1, e2, e3, e4, e5, e6, e7⟩ :=
    new_walk_fields pageSize fuel m elfBase img himg hpres
  obtain ⟨i1, i2, _, _, _⟩ := dynamicsAt_inv pageSize m elfBase
  unfold ElfScanner.stringTable ElfScanner.symbolTable ElfScanner.loadBias ElfScanner.dynamics
    ElfScanner.symbols ElfScanner.symbolEntrySize
  refine ⟨?_, ?_, ?_, ?_, ?_⟩
  · rw [e5, e1, e2, ← i1]
    exact fix_table_address_eq _ _ hw.2.2.2.2.1
  · rw [e6, e1, e2, ← i2]
    exact fix_table_address_eq _ _ hw.2.2.2.2.2.1
  · intro p hp
    have hrun : walkSymbols m (loadBiasAt pageSize m elfBase) (strtabAt pageSize m elfBase)
        (dynamicsAt pageSize m elfBase).strsz (dynamicsAt pageSize m elfBase).syment fuel
        (symEntryAddr (symtabAt pageSize m elfBase) (dynamicsAt pageSize m elfBase).syment 0)
        [] = some img._symbols := by
      rw [symEntryAddr_zero _ _ (symtabAt_lt pageSize m elfBase)]
      exact e7
    rcases walkSymbols_mem m _ _ _ _ _ fuel 0 [] img._symbols hrun p hp with hin | ⟨k, hk⟩
    · simp at hin
    · rw [e1, e4, e5, e6]
      exact ⟨k, hk, symbolOf_addr _ _ _ _ _ _ hk⟩
  · intro v hv
    unfold fix_table_address
    rw [if_neg (by omega)]
  · intro sym hv
    unfold get_sym_address
    rw [if_neg (by omega)]

/-- C15, worked example: in `symbolImage` the raw table addresses `0x200` and `0x300` and the
symbol values are below the load bias `0x70000000` and get it added. -/
theorem table_addresses_fixed_up_witness :
    ∃ img, ElfScanner.new 4096 5 (some symbolImage) 0x70000000 = some img ∧
      img.stringTable = fixAddr img.loadBias (dynValue DT_STRTAB img.dynamics) ∧
      img.symbolTable = fixAddr img.loadBias (dynValue DT_SYMTAB img.dynamics) ∧
      img.stringTable = 0x70000200 ∧ img.symbolTable = 0x70000300 ∧
      img.symbols = [(0x70001234, ['f', 'o', 'o']), (0x70001500, ['b', 'a', 'r'])] := by
  have hs : (ElfScanner.new 4096 5 (some symbolImage) 0x70000000).isSome = true := by decide
  obtain ⟨img, himg⟩ := Option.isSome_iff_exists.1 hs
  have e1 : img.dynamics = [⟨5, 0x200⟩, ⟨6, 0x300⟩, ⟨10, 0x40⟩, ⟨11, 24⟩] := by
    have e : (ElfScanner.new 4096 5 (some symbolImage) 0x70000000).map ElfScanner.dynamics =
        some [⟨5, 0x200⟩, ⟨6, 0x300⟩, ⟨10, 0x40⟩, ⟨11, 24⟩] := by decide
    rw [himg] at e
    simpa using e
  have e2 : (img.stringTable, img.symbolTable) = (0x70000200, 0x70000300) := by
    have e : (ElfScanner.new 4096 5 (some symbolImage) 0x70000000).map
        (fun img => (img.stringTable, img.symbolTable)) = some (0x70000200, 0x70000300) := by
      decide
    rw [himg] at e
    simpa using e
  have e4 : img.symbols = [(0x70001234, ['f', 'o', 'o']), (0x70001500, ['b', 'a', 'r'])] := by
    have e : (ElfScanner.new 4096 5 (some symbolImage) 0x70000000).map ElfScanner.symbols =
        some [(0x70001234, ['f', 'o', 'o']), (0x70001500, ['b', 'a', 'r'])] := by decide
    rw [himg] at e
    simpa using e
  have := table_addresses_fixed_up 4096 5 symbolImage 0x70000000 img himg
    (by rw [e1]; decide)
  exact ⟨img, himg, this.1, this.2.1, (Prod.mk.inj e2).1, (Prod.mk.inj e2).2, e4⟩

/-- C16: for an image that reaches the symbol walk, in which no copy or read writes past its
destination (`PhdrCopyFits`, `DynReadsFit`, `SymReadFits`), whose entry addresses
`symtab + k * syment` (modulo `2 ^ 64`) are not zero for `k ≤ N`, when the entry `N` is the
first one whose read fails or whose name offset is at least the string table size: with fuel
above `N` the constructor returns an image whose symbol index is exactly, in table order,
what the entries `0, ..., N - 1` contribute, an entry with name offset 0 or value 0
contributing nothing and any other entry contributing its fixed-up value with its name (read
as a string of at most 1024 bytes at string table address plus name offset) when that name
is not empty; with less fuel the walk does not end. -/
theorem symbol_walk_index (pageSize : Nat) (m : IKittyMemOp) (elfBase N : Nat)
    (hw : ReachesWalk pageSize m elfBase)
    (_hfit : PhdrCopyFits m elfBase) (_hdyn : DynReadsFit m elfBase)
    (_hsym : SymReadFits pageSize m elfBase)
    (hnz : ∀ k, k ≤ N → entryAt pageSize m elfBase k ≠ 0)
    (hgo : ∀ k, k < N → ¬ WalkStops m (dynamicsAt pageSize m elfBase).strsz
      (dynamicsAt pageSize m elfBase).syment (entryAt pageSize m elfBase k))
    (hstop : WalkStops m (dynamicsAt pageSize m elfBase).strsz
      (dynamicsAt pageSize m elfBase).syment (entryAt pageSize m elfBase N)) :
    (∀ fuel, N < fuel → ∃ img, ElfScanner.new pageSize fuel (some m) elfBase = some img ∧
      img.loadBias = loadBiasAt pageSize m elfBase ∧
      img.stringTable = strtabAt pageSize m elfBase ∧
      img.symbolTable = symtabAt pageSize m elfBase ∧
      img.stringTableSize = (dynamicsAt pageSize m elfBase).strsz ∧
      img.symbolEntrySize = (dynamicsAt pageSize m elfBase).syment ∧
      img.symbols = (List.range N).filterMap fun k =>
        symbolOf m (loadBiasAt pageSize m elfBase) (strtabAt pageSize m elfBase)
          (dynamicsAt pageSize m elfBase).syment (entryAt pageSize m elfBase k)) ∧
    (∀ fuel, fuel ≤ N → ElfScanner.new pageSize fuel (some m) elfBase = none) := by
  obtain ⟨hacc, htab, hl, hm, s1, s2, s3, s4⟩ := hw
  have hrun : ∀ fuel, walkAt pageSize fuel m elfBase =
      if N < fuel then
        some ((List.range N).filterMap fun k =>
          symbolOf m (loadBiasAt pageSize m elfBase) (strtabAt pageSize m elfBase)
            (dynamicsAt pageSize m elfBase).syment (entryAt pageSize m elfBase k))
      else none := by
    intro fuel
    have := walkSymbols_run m (loadBiasAt pageSize m elfBase) (strtabAt pageSize m elfBase)
      (dynamicsAt pageSize m elfBase).strsz (dynamicsAt pageSize m elfBase).syment
      (symtabAt pageSize m elfBase) N 0 fuel []
      (fun i _ h2 => hnz i (by omega)) (fun i _ h2 => hgo i (by omega))
      (by rw [Nat.zero_add]; exact hstop)
    rw [symEntryAddr_zero _ _ (symtabAt_lt pageSize m elfBase), List.nil_append,
      ← List.range_eq_range'] at this
    exact this
  have hnew : ∀ fuel, ElfScanner.new pageSize fuel (some m) elfBase =
      (walkAt pageSize fuel m elfBase).map fun symbols =>
        { fixedState pageSize m elfBase with _symbols := symbols } := by
    intro fuel
    rw [new_eq, if_pos hacc, if_neg (by have := htab.1; omega), if_neg htab.2,
      if_neg (by rintro (h | h) <;> contradiction), symbolsStage_dynState,
      if_neg (by rintro (h | h | h | h) <;> contradiction)]
  constructor
  · intro fuel hf
    rw [hnew, hrun, if_pos hf]
    exact ⟨_, rfl, rfl, rfl, rfl, rfl, rfl, rfl⟩
  · intro fuel hf
    rw [hnew, hrun, if_neg (by omega)]
    rfl

/-- C16, worked example: in `symbolImage` the walk stops at the entry 4, whose name offset is
the string table size; the null symbol (entry 0) and the entry of value 0 (entry 2) are
skipped, and the index holds `foo` and `bar`. -/
theorem symbol_walk_index_witness :
    ∃ img, ElfScanner.new 4096 5 (some symbolImage) 0x70000000 = some img ∧
      img.symbols = (List.range 4).filterMap (fun k =>
        symbolOf symbolImage (loadBiasAt 4096 symbolImage 0x70000000)
          (strtabAt 4096 symbolImage 0x70000000)
          (dynamicsAt 4096 symbolImage 0x70000000).syment
          (entryAt 4096 symbolImage 0x70000000 k)) ∧
      (List.range 4).filterMap (fun k =>
        symbolOf symbolImage (loadBiasAt 4096 symbolImage 0x70000000)
          (strtabAt 4096 symbolImage 0x70000000)
          (dynamicsAt 4096 symbolImage 0x70000000).syment
          (entryAt 4096 symbolImage 0x70000000 k)) =
        [(0x70001234, ['f', 'o', 'o']), (0x70001500, ['b', 'a', 'r'])] := by
  obtain ⟨img, h1, _, _, _, _, _, h2⟩ :=
    (symbol_walk_index 4096 symbolImage 0x70000000 4 (by decide) (by decide) (by decide)
      (by decide) (by decide) (by decide) (by decide)).1 5 (by decide)
  exact ⟨img, h1, h2, by decide⟩

/-- No name of the symbol index of a constructed image is empty. -/
theorem new_symbols_named (pageSize fuel : Nat) (pMem : Option IKittyMemOp) (elfBase : Nat)
    (img : ElfScanner) (himg : ElfScanner.new pageSize fuel pMem elfBase = some img) :
    ∀ p ∈ img._symbols, p.2 ≠ [] := by
  cases pMem with
  | none =>
    have : img = ElfScanner.init := by
      unfold ElfScanner.new at himg
      injection himg with h
      exact h.symm
    subst this
    intro p hp
    simp [ElfScanner.init] at hp
  | some m =>
    intro p hp
    rcases new_some_cases pageSize fuel m elfBase img himg with
      (e | e | ⟨_, _, _, e⟩) | ⟨_, _, _, _, ⟨_, e⟩ | ⟨_, symbols, hs, e⟩⟩
    · subst e; simp [ElfScanner.init] at hp
    · subst e; simp [headerState, ElfScanner.init] at hp
    · subst e; simp [scannedState, headerState, ElfScanner.init] at hp
    · subst e; simp [dynState, loadedState, scannedState, headerState, ElfScanner.init] at hp
    · subst e
      have hp' : p ∈ symbols := hp
      have hrun : walkSymbols m (loadBiasAt pageSize m elfBase) (strtabAt pageSize m elfBase)
          (dynamicsAt pageSize m elfBase).strsz (dynamicsAt pageSize m elfBase).syment fuel
          (symEntryAddr (symtabAt pageSize m elfBase) (dynamicsAt pageSize m elfBase).syment 0)
          [] = some symbols := by
        rw [symEntryAddr_zero _ _ (symtabAt_lt pageSize m elfBase)]
        exact hs
      rcases walkSymbols_mem m _ _ _ _ _ fuel 0 [] symbols hrun p hp' with hin | ⟨k, hk⟩
      · simp at hin
      · exact symbolOf_name_ne_nil _ _ _ _ _ _ hk

theorem find_first_named (name : List Char) :
    ∀ (l : List (Nat × List Char)), (∀ p ∈ l, p.2 ≠ []) →
      (∀ (pre post : List (Nat × List Char)) (a : Nat), l = pre ++ (a, name) :: post →
        (∀ p ∈ pre, p.2 ≠ name) →
        l.find? (fun sym => !sym.2.isEmpty && sym.2 == name) = some (a, name)) ∧
      ((∀ p ∈ l, p.2 ≠ name) →
        l.find? (fun sym => !sym.2.isEmpty && sym.2 == name) = none) := by
  intro l
  induction l with
  | nil =>
    intro _
    refine ⟨?_, fun _ => rfl⟩
    intro pre post a h
    cases pre <;> simp at h
  | cons q rest ih =>
    intro hne
    obtain ⟨ih1, ih2⟩ := ih (fun p hp => hne p (List.mem_cons_of_mem _ hp))
    have hq : q.2 ≠ [] := hne q (List.mem_cons_self _ _)
    have hqe : q.2.isEmpty = false := by
      cases hx : q.2 with
      | nil => exact absurd hx hq
      | cons c t => rfl
    constructor
    · intro pre post a h hpre
      cases pre with
      | nil =>
        simp only [List.nil_append, List.cons.injEq] at h
        rw [h.1]
        have : ((a, name) : Nat × List Char).2.isEmpty = false := by rw [← h.1]; exact hqe
        simp [List.find?_cons, this]
      | cons q' pre' =>
        simp only [List.cons_append, List.cons.injEq] at h
        have hq' : q.2 ≠ name := by
          rw [h.1]; exact hpre q' (List.mem_cons_self _ _)
        rw [List.find?_cons]
        have : (!q.2.isEmpty && q.2 == name) = false := by simp [hq']
        rw [this]
        exact ih1 pre' post a h.2 (fun p hp => hpre p (List.mem_cons_of_mem _ hp))
    · intro hall
      have hq' : q.2 ≠ name := hall q (List.mem_cons_self _ _)
      rw [List.find?_cons]
      have : (!q.2.isEmpty && q.2 == name) = false := by simp [hq']
      rw [this]
      exact ih2 (fun p hp => hall p (List.mem_cons_of_mem _ hp))

/-- C17: for every image the constructor returns and every name, `findSymbol(name)` is the
address of the first pair of the symbol index, in index order, whose name is exactly `name`
(a duplicate further on is never returned), and it is 0 when no pair has that name. -/
theorem findSymbol_first_match (pageSize fuel : Nat) (pMem : Option IKittyMemOp)
    (elfBase : Nat) (img : ElfScanner)
    (himg : ElfScanner.new pageSize fuel pMem elfBase = some img) (name : List Char) :
    (∀ (pre post : List (Nat × List Char)) (a : Nat),
      img.symbols = pre ++ (a, name) :: post → (∀ p ∈ pre, p.2 ≠ name) →
      img.findSymbol name = a) ∧
    ((∀ p ∈ img.symbols, p.2 ≠ name) → img.findSymbol name = 0) := by
  obtain ⟨h1, h2⟩ := find_first_named name img._symbols
    (new_symbols_named pageSize fuel pMem elfBase img himg)
  unfold ElfScanner.symbols
  constructor
  · intro pre post a hsym hpre
    have hne : img._symbols.isEmpty = false := by
      rw [hsym]; cases pre <;> rfl
    unfold ElfScanner.findSymbol
    rw [h1 pre post a hsym hpre]
    simp [hne]
  · intro hall
    unfold ElfScanner.findSymbol
    rw [h2 hall]
    simp

/-- C17, worked example: in `symbolImage`, `bar` is found after `foo` and `qux` is not
found. -/
theorem findSymbol_first_match_witness :
    ∃ img, ElfScanner.new 4096 5 (some symbolImage) 0x70000000 = some img ∧
      img.findSymbol ['b', 'a', 'r'] = 0x70001500 ∧ img.findSymbol ['q', 'u', 'x'] = 0 := by
  have hs : (ElfScanner.new 4096 5 (some symbolImage) 0x70000000).isSome = true := by decide
  obtain ⟨img, himg⟩ := Option.isSome_iff_exists.1 hs
  have e4 : img.symbols = [(0x70001234, ['f', 'o', 'o'])] ++
      (0x70001500, ['b', 'a', 'r']) :: [] := by
    have e : (ElfScanner.new 4096 5 (some symbolImage) 0x70000000).map ElfScanner.symbols =
        some [(0x70001234, ['f', 'o', 'o']), (0x70001500, ['b', 'a', 'r'])] := by decide
    rw [himg] at e
    simpa using e
  refine ⟨img, himg, ?_, ?_⟩
  · exact (findSymbol_first_match 4096 5 (some symbolImage) 0x70000000 img himg
      ['b', 'a', 'r']).1 _ _ _ e4 (by decide)
  · exact (findSymbol_first_match 4096 5 (some symbolImage) 0x70000000 img himg
      ['q', 'u', 'x']).2 (by rw [e4]; decide)

/-- C18: `isValid()` is true exactly when `loads() > 0`, the program header list is not
empty, `loadBias()` and `loadSize()` are not 0, the dynamic entry list is not empty, and
`stringTable()`, `symbolTable()`, `stringTableSize()` and `symbolEntrySize()` are not 0. -/
theorem isValid_iff (img : ElfScanner) :
    img.isValid = true ↔
      img.loads > 0 ∧ img.programHeaders ≠ [] ∧ img.loadBias ≠ 0 ∧ img.loadSize ≠ 0 ∧
        img.dynamics ≠ [] ∧ img.stringTable ≠ 0 ∧ img.symbolTable ≠ 0 ∧
        img.stringTableSize ≠ 0 ∧ img.symbolEntrySize ≠ 0 := by
  unfold ElfScanner.isValid ElfScanner.loads ElfScanner.programHeaders ElfScanner.loadBias
    ElfScanner.loadSize ElfScanner.dynamics ElfScanner.stringTable ElfScanner.symbolTable
    ElfScanner.stringTableSize ElfScanner.symbolEntrySize
  simp only [Bool.and_eq_true, Bool.not_eq_true', decide_eq_true_eq, List.isEmpty_eq_false,
    Nat.pos_iff_ne_zero, ne_eq, and_assoc]

/-! ## Hex encoding -/

theorem hexDigit_spec :
    ∀ n, n < 16 → hexDigitVal (hexDigit n) = n ∧ validateHexString [hexDigit n] = true := by
  decide

theorem validateHexString_cons (c : Char) (cs : List Char) :
    validateHexString (c :: cs) = (validateHexString [c] && validateHexString cs) := by
  simp [validateHexString]

/-- C19: for every sequence of `N ≥ 0` bytes, `data2Hex` gives a string of exactly `2 N` hex
digits, two zero-padded digits per byte in byte order, and `dataFromHex` decodes that string
back to the original bytes. -/
theorem hex_round_trip (bytes : List Byte) (hb : ∀ b ∈ bytes, b < 256) :
    (data2Hex bytes).length = 2 * bytes.length ∧
    validateHexString (data2Hex bytes) = true ∧
    data2Hex bytes = bytes.flatMap (fun b => [hexDigit (b / 16), hexDigit (b % 16)]) ∧
    dataFromHex (data2Hex bytes) = bytes := by
  induction bytes with
  | nil => exact ⟨rfl, rfl, rfl, rfl⟩
  | cons b rest ih =>
    obtain ⟨ih1, ih2, ih3, ih4⟩ := ih (fun x hx => hb x (List.mem_cons_of_mem _ hx))
    have key : ∀ n : Nat, n < 256 →
        n % 256 = n ∧ n / 16 < 16 ∧ n % 16 < 16 ∧ 16 * (n / 16) + n % 16 = n := by
      intro n hn; omega
    obtain ⟨hmod, h16, h16', hsum⟩ := key b (hb b (List.mem_cons_self _ _))
    have hhi := hexDigit_spec (b / 16) h16
    have hlo := hexDigit_spec (b % 16) h16'
    refine ⟨?_, ?_, ?_, ?_⟩
    · simp only [data2Hex, List.length_cons, ih1]
      generalize rest.length = n
      omega
    · simp only [data2Hex, hmod]
      rw [validateHexString_cons, validateHexString_cons (hexDigit (b % 16)), hhi.2, hlo.2, ih2]
      rfl
    · simp only [data2Hex, hmod, List.flatMap_cons, ← ih3]
      rfl
    · simp only [data2Hex, dataFromHex, hmod]
      rw [hhi.1, hlo.1, ih4, hsum]

/-- C19, worked example: the bytes `00 AB 7F FF` are printed as `00ab7fff` and read back. -/
theorem hex_round_trip_witness :
    data2Hex [0x00, 0xAB, 0x7F, 0xFF] = ['0', '0', 'a', 'b', '7', 'f', 'f', 'f'] ∧
    (data2Hex [0x00, 0xAB, 0x7F, 0xFF]).length = 2 * 4 ∧
    dataFromHex (data2Hex [0x00, 0xAB, 0x7F, 0xFF]) = [0x00, 0xAB, 0x7F, 0xFF] :=
  ⟨by decide,
    (hex_round_trip [0x00, 0xAB, 0x7F, 0xFF] (by decide)).1,
    (hex_round_trip [0x00, 0xAB, 0x7F, 0xFF] (by decide)).2.2.2⟩

/-- C20, failing input: the header of `wideEntryImage` passes validation and announces
program headers of 64 bytes. The loop copies `e_phentsize` bytes, not the known prefix, into
the 56-byte `phdr_entry`: 8 bytes are written past its end, where the claim says that at
most the known struct size is copied. The entry the constructor stores is decoded from the
first 56 bytes found at offset `i * 64`. -/
theorem wide_entry_copy_overruns :
    HeaderAccepted wideEntryImage 0x70000000 ∧ TableRead wideEntryImage 0x70000000 ∧
    (headerAt wideEntryImage 0x70000000).e_phentsize = 64 ∧ sizeofPhdr = 56 ∧
    phdrEntryOverrun (headerAt wideEntryImage 0x70000000) = 8 ∧
    (ElfScanner.new 4096 0 (some wideEntryImage) 0x70000000).map ElfScanner.programHeaders =
      some [decodePhdr ((phdrTableAt wideEntryImage 0x70000000).take 56)] := by
  decide

/-! ## The program header list of every image -/

/-- The header, program header list and `PT_LOAD` count of every image the constructor
returns on a bound capability: the list is empty and the count zero when the header is
rejected or the table is not read, and otherwise they are those of the "find load bias"
loop. -/
theorem new_load_fields (pageSize fuel : Nat) (m : IKittyMemOp) (elfBase : Nat)
    (img : ElfScanner) (h : ElfScanner.new pageSize fuel (some m) elfBase = some img) :
    (img._phdrs = [] ∧ img._loads = 0 ∧ ¬ (HeaderAccepted m elfBase ∧ TableRead m elfBase)) ∨
    (HeaderAccepted m elfBase ∧ TableRead m elfBase ∧ img._ehdr = headerAt m elfBase ∧
      img._phdrs = (loadScanAt m elfBase).phdrs ∧ img._loads = (loadScanAt m elfBase).loads) := by
  by_cases hacc : HeaderAccepted m elfBase
  · by_cases htab : TableRead m elfBase
    · right
      refine ⟨hacc, htab, ?_⟩
      rw [new_eq, if_pos hacc, if_neg (by have := htab.1; omega), if_neg htab.2] at h
      split_ifs at h with h4
      · injection h with h; subst h; exact ⟨rfl, rfl, rfl⟩
      · rw [symbolsStage_dynState] at h
        split_ifs at h with h6
        · injection h with h; subst h; exact ⟨rfl, rfl, rfl⟩
        · cases hw : walkAt pageSize fuel m elfBase with
          | none => rw [hw] at h; exact Option.noConfusion h
          | some symbols =>
            rw [hw] at h
            injection h with h
            subst h
            exact ⟨rfl, rfl, rfl⟩
    · left
      rw [new_eq, if_pos hacc] at h
      split_ifs at h with h2 h3 h4
      · injection h with h; subst h; exact ⟨rfl, rfl, fun c => htab c.2⟩
      · exact absurd ⟨by omega, h3⟩ htab
      · exact absurd ⟨by omega, h3⟩ htab
  · left
    rw [new_of_not_accepted pageSize fuel m elfBase hacc] at h
    injection h with h
    subst h
    split_ifs
    · exact ⟨rfl, rfl, fun c => hacc c.1⟩
    · exact ⟨rfl, rfl, fun c => hacc c.1⟩

/-- C21: for every image the constructor returns (bound capability or not, valid or not),
`loads()` is the number of entries of `programHeaders()` whose type is `PT_LOAD`; and when
the header passes the checks and the read of the program header table succeeds, the image
keeps that header and `programHeaders()` has exactly `e_phnum` entries, the entry `i` being
the one decoded at the offset `i * e_phentsize` of the table. -/
theorem loads_counts_load_headers (pageSize fuel : Nat) (pMem : Option IKittyMemOp)
    (elfBase : Nat) (img : ElfScanner)
    (himg : ElfScanner.new pageSize fuel pMem elfBase = some img) :
    img.loads = img.programHeaders.countP (fun p => decide (p.p_type = PT_LOAD)) ∧
    ∀ m, pMem = some m → HeaderAccepted m elfBase → TableRead m elfBase →
      img.header = headerAt m elfBase ∧
      img.programHeaders.length = img.header.e_phnum ∧
      ∀ i, i < img.header.e_phnum →
        img.programHeaders[i]? =
          some (phdrEntry (headerAt m elfBase) (phdrTableAt m elfBase) i) := by
  unfold ElfScanner.loads ElfScanner.programHeaders ElfScanner.header
  cases pMem with
  | none =>
    unfold ElfScanner.new at himg
    injection himg with himg
    subst himg
    exact ⟨rfl, fun m hm => Option.noConfusion hm⟩
  | some m0 =>
    obtain ⟨h1, h2, _⟩ := loadScan_inv (headerAt m0 elfBase) (phdrTableAt m0 elfBase)
    rcases new_load_fields pageSize fuel m0 elfBase img himg with
      ⟨e1, e2, hn⟩ | ⟨_, _, e0, e1, e2⟩
    · refine ⟨by rw [e1, e2]; rfl, ?_⟩
      intro m hm hacc htab
      injection hm with hm
      subst hm
      exact absurd ⟨hacc, htab⟩ hn
    · have hp : img._phdrs = parsedPhdrs m0 elfBase := by rw [e1, loadScanAt_phdrs]
      refine ⟨?_, ?_⟩
      · rw [e2, e1]
        exact h2.trans (by rw [← h1]; rfl)
      · intro m hm _ _
        injection hm with hm
        subst hm
        refine ⟨e0, ?_, ?_⟩
        · rw [hp, e0, parsedPhdrs_length]
        · intro i hi
          rw [e0] at hi
          rw [hp]
          unfold parsedPhdrs
          rw [List.getElem?_map, List.getElem?_range hi]
          rfl

/-- C21, worked example: the image of `twoDynamicImage` has three program headers, one of
them of type `PT_LOAD`, and its header announces three. -/
theorem loads_counts_load_headers_witness :
    ∃ img, ElfScanner.new 4096 0 (some twoDynamicImage) 0x70000000 = some img ∧
      img.loads = img.programHeaders.countP (fun p => decide (p.p_type = PT_LOAD)) ∧
      img.loads = 1 ∧ img.programHeaders.length = img.header.e_phnum ∧
      img.header.e_phnum = 3 ∧
      img.programHeaders[2]? =
        some (phdrEntry (headerAt twoDynamicImage 0x70000000)
          (phdrTableAt twoDynamicImage 0x70000000) 2) := by
  have hs : (ElfScanner.new 4096 0 (some twoDynamicImage) 0x70000000).isSome = true := by decide
  obtain ⟨img, himg⟩ := Option.isSome_iff_exists.1 hs
  have e : (ElfScanner.new 4096 0 (some twoDynamicImage) 0x70000000).map
      (fun img => (img.loads, img.programHeaders.length, img.header.e_phnum)) =
      some (1, 3, 3) := by decide
  rw [himg] at e
  simp only [Option.map_some', Option.some.injEq, Prod.mk.injEq] at e
  obtain ⟨e1, e2, e3⟩ := e
  have := loads_counts_load_headers 4096 0 (some twoDynamicImage) 0x70000000 img himg
  obtain ⟨_, t2, t3⟩ := this.2 twoDynamicImage rfl (by decide) (by decide)
  exact ⟨img, himg, this.1, e1, t2, e3, t3 2 (by rw [e3]; decide)⟩

/-! ## The dynamic entry list -/

theorem dynScanEntries_dynamics :
    ∀ (entries : List Elf64_Dyn) (st : DynScan),
      (dynScanEntries entries st).dynamics = st.dynamics ++ entriesBeforeNull entries := by
  intro entries
  induction entries with
  | nil => intro st; simp [dynScanEntries, entriesBeforeNull]
  | cons dyn rest ih =>
    intro st
    unfold dynScanEntries
    by_cases h0 : dyn.d_tag = DT_NULL
    · simp [h0, entriesBeforeNull]
    · rw [if_neg h0, ih]
      have hd : ∀ s : DynScan, (if dyn.d_tag = DT_STRTAB then { s with stringTable := dyn.d_un }
          else if dyn.d_tag = DT_SYMTAB then { s with symbolTable := dyn.d_un }
          else if dyn.d_tag = DT_STRSZ then { s with strsz := dyn.d_un }
          else if dyn.d_tag = DT_SYMENT then { s with syment := dyn.d_un }
          else s).dynamics = s.dynamics := by
        intro s; split_ifs <;> rfl
      dsimp only
      rw [hd]
      simp [entriesBeforeNull, h0]

theorem readDynamics_dynamics (m : IKittyMemOp) (loadBias : Nat) :
    ∀ (phdrs : List Elf64_Phdr) (st : DynScan),
      (readDynamics m loadBias phdrs st).dynamics =
        st.dynamics ++ dynamicsSpec m loadBias phdrs := by
  intro phdrs
  induction phdrs with
  | nil => intro st; simp [readDynamics, dynamicsSpec, dynamicSegmentsRead]
  | cons phdr rest ih =>
    intro st
    unfold readDynamics
    by_cases hd : phdr.p_type = PT_DYNAMIC
    · rw [if_pos hd]
      dsimp only
      by_cases hr : (m.Read (uptrAdd loadBias phdr.p_vaddr) phdr.p_memsz).1 = 0
      · have hr' : (m.readInto (uptrAdd loadBias phdr.p_vaddr) phdr.p_memsz
            (List.replicate (phdr.p_memsz / sizeofDyn * sizeofDyn) 0)).1 = 0 := hr
        rw [if_pos hr']
        simp [dynamicsSpec, dynamicSegmentsRead, hd, hr]
      · have hr' : ¬ (m.readInto (uptrAdd loadBias phdr.p_vaddr) phdr.p_memsz
            (List.replicate (phdr.p_memsz / sizeofDyn * sizeofDyn) 0)).1 = 0 := hr
        rw [if_neg hr', ih, dynScanEntries_dynamics]
        simp [dynamicsSpec, dynamicSegmentsRead, hd, hr, segmentEntries]
    · rw [if_neg hd, ih]
      simp [dynamicsSpec, dynamicSegmentsRead, hd]

/-- C22: for every image the constructor returns, no entry of `dynamics()` has the tag
`DT_NULL`; and when the load bias of the image is defined (a `PT_LOAD` program header with
non-zero `p_vaddr + p_memsz`), `dynamics()` is the concatenation, in program header order,
over the `PT_DYNAMIC` segments read at `loadBias + p_vaddr` (those before the first failed
read), of the entries that precede the first null-tag entry among the
`p_memsz / sizeof(Elf64_Dyn)` entries of the segment. -/
theorem dynamics_are_entries_before_null (pageSize fuel : Nat) (pMem : Option IKittyMemOp)
    (elfBase : Nat) (img : ElfScanner)
    (himg : ElfScanner.new pageSize fuel pMem elfBase = some img) :
    (∀ d ∈ img.dynamics, d.d_tag ≠ DT_NULL) ∧
    ∀ m, pMem = some m →
      (∃ p ∈ img.programHeaders, p.p_type = PT_LOAD ∧ (p.p_vaddr + p.p_memsz) % 2 ^ 64 ≠ 0) →
      img.dynamics =
        ((img.programHeaders.filter fun p => decide (p.p_type = PT_DYNAMIC)).takeWhile fun p =>
          decide ((m.Read ((img.loadBias + p.p_vaddr) % 2 ^ 64) p.p_memsz).1 ≠ 0)).flatMap
          fun p => entriesBeforeNull (segmentEntries m img.loadBias p) := by
  unfold ElfScanner.dynamics ElfScanner.programHeaders ElfScanner.loadBias
  cases pMem with
  | none =>
    unfold ElfScanner.new at himg
    injection himg with himg
    subst himg
    exact ⟨fun d hd => by simp [ElfScanner.init] at hd, fun m hm => Option.noConfusion hm⟩
  | some m0 =>
    have hspec : ∀ hload : (∃ p ∈ img._phdrs, p.p_type = PT_LOAD ∧
        (p.p_vaddr + p.p_memsz) % 2 ^ 64 ≠ 0),
        img._dynamics = dynamicsSpec m0 img._loadBias img._phdrs := by
      intro hload
      obtain ⟨hl, hm, hne⟩ := load_defined_of_entry pageSize fuel m0 elfBase img himg hload
      obtain ⟨_, _, e1, _, e2, _, e3, _⟩ :=
        new_dyn_fields pageSize fuel m0 elfBase img himg hl hm hne
      rw [e3, e1, e2]
      unfold dynamicsAt
      rw [readDynamics_dynamics]
      rfl
    refine ⟨?_, ?_⟩
    · by_cases hz : img._phdrs = [] ∨ (loadScanAt m0 elfBase).loads = 0 ∨
          (loadScanAt m0 elfBase).max_vaddr = 0
      · obtain ⟨_, _, e, _⟩ := new_early_fields pageSize fuel m0 elfBase img himg hz
        intro d hd
        rw [e] at hd
        simp at hd
      · have hl : (loadScanAt m0 elfBase).loads ≠ 0 := fun e => hz (Or.inr (Or.inl e))
        have hm : (loadScanAt m0 elfBase).max_vaddr ≠ 0 := fun e => hz (Or.inr (Or.inr e))
        have hne : img._phdrs ≠ [] := fun e => hz (Or.inl e)
        obtain ⟨_, _, _, _, _, _, e3, _⟩ :=
          new_dyn_fields pageSize fuel m0 elfBase img himg hl hm hne
        intro d hd
        rw [e3] at hd
        exact ((dynamicsAt_inv pageSize m0 elfBase).2.2.2.2 d hd).1
    · intro m hm hload
      injection hm with hm
      subst hm
      exact hspec hload

/-- C22, worked example: in `earlyNullImage` the first dynamic segment contributes its
`DT_STRSZ` entry (the `DT_SYMENT` entry after the terminator is not stored) and the second
one its two entries. -/
theorem dynamics_are_entries_before_null_witness :
    ∃ img, ElfScanner.new 4096 0 (some earlyNullImage) 0x70000000 = some img ∧
      (∀ d ∈ img.dynamics, d.d_tag ≠ DT_NULL) ∧
      img.dynamics =
        ((img.programHeaders.filter fun p => decide (p.p_type = PT_DYNAMIC)).takeWhile fun p =>
          decide ((earlyNullImage.Read ((img.loadBias + p.p_vaddr) % 2 ^ 64)
            p.p_memsz).1 ≠ 0)).flatMap
          (fun p => entriesBeforeNull (segmentEntries earlyNullImage img.loadBias p)) ∧
      img.dynamics = [⟨DT_STRSZ, 0x40⟩, ⟨DT_STRTAB, 0x200⟩, ⟨DT_SYMTAB, 0x300⟩] ∧
      segmentEntries earlyNullImage img.loadBias ⟨2, 5, 0, 0x1000, 0, 48, 48, 0x1000⟩ =
        [⟨DT_STRSZ, 0x40⟩, ⟨DT_NULL, 0⟩, ⟨DT_SYMENT, 24⟩] := by
  have hs : (ElfScanner.new 4096 0 (some earlyNullImage) 0x70000000).isSome = true := by decide
  obtain ⟨img, himg⟩ := Option.isSome_iff_exists.1 hs
  have e : (ElfScanner.new 4096 0 (some earlyNullImage) 0x70000000).map
      (fun img => (img.programHeaders, img.loadBias, img.dynamics)) =
      some ([⟨1, 5, 0, 0, 0, 0x2000, 0x2000, 0x1000⟩, ⟨2, 5, 0, 0x1000, 0, 48, 48, 0x1000⟩,
        ⟨2, 5, 0, 0x1100, 0, 32, 32, 0x1000⟩], 0x70000000,
        [⟨DT_STRSZ, 0x40⟩, ⟨DT_STRTAB, 0x200⟩, ⟨DT_SYMTAB, 0x300⟩]) := by decide
  rw [himg] at e
  simp only [Option.map_some', Option.some.injEq, Prod.mk.injEq] at e
  obtain ⟨e1, e2, e3⟩ := e
  have := dynamics_are_entries_before_null 4096 0 (some earlyNullImage) 0x70000000 img himg
  refine ⟨img, himg, this.1, this.2 earlyNullImage rfl ?_, e3, ?_⟩
  · exact ⟨⟨1, 5, 0, 0, 0, 0x2000, 0x2000, 0x1000⟩, by rw [e1]; simp, rfl, by decide⟩
  · rw [e2]; decide

/-! ## Coverage of the matches, and masks of wildcards only -/

/-- Every address at or after `lo` that satisfies `P` lies in the window of `n` addresses that
starts at an element of the greedy sequence. -/
theorem GreedyFrom.covers {P : Nat → Prop} {n : Nat} :
    ∀ (l : List Nat) (lo : Nat), GreedyFrom P n lo l →
      ∀ a, lo ≤ a → P a → ∃ r ∈ l, r ≤ a ∧ a < r + n := by
  intro l
  induction l with
  | nil => intro lo h a ha hp; exact absurd hp (h a ha)
  | cons x rest ih =>
    intro lo h a ha hp
    obtain ⟨_, _, h3, h4⟩ := h
    have hxa : x ≤ a := by
      by_contra hc
      exact h3 a ha (by omega) hp
    by_cases hw : a < x + n
    · exact ⟨x, List.mem_cons_self _ _, hxa, hw⟩
    · obtain ⟨r, hr, hr1, hr2⟩ := ih (x + n) h4 a (by omega) hp
      exact ⟨r, List.mem_cons_of_mem _ hr, hr1, hr2⟩

theorem compare_true_of_no_x (mem : Nat → Byte) (pattern : Nat → Byte) (mask : List Char)
    (data idx : Nat) (h : 'x' ∉ mask) : compare mem data pattern idx mask = true := by
  apply compare_true_of_match
  intro j _ hm
  exact absurd (List.getElem?_mem hm) h

/-- The addresses `lo, lo + n, lo + 2 n, ...` are the greedy sequence of the windows of `n`
addresses that fit below `e`. -/
theorem greedy_progression (n e lo0 : Nat) (hn : 1 ≤ n) :
    ∀ (q lo : Nat), lo0 ≤ lo → (e - lo) / n = q →
      GreedyFrom (fun a => lo0 ≤ a ∧ a + n ≤ e) n lo
        ((List.range q).map fun k => lo + k * n) := by
  intro q
  induction q with
  | zero =>
    intro lo _ hq a ha hp
    have hlt : e - lo < n := by
      by_contra hc
      have := Nat.div_pos (Nat.le_of_not_lt hc) hn
      omega
    omega
  | succ q ih =>
    intro lo hlo hq
    have hge : n ≤ e - lo := by
      by_contra hc
      rw [Nat.div_eq_of_lt (Nat.lt_of_not_le hc)] at hq
      omega
    have hq' : (e - (lo + n)) / n = q := by
      have h1 : e - lo = (e - (lo + n)) + n := by omega
      rw [h1, Nat.add_div_right _ hn] at hq
      omega
    have hrest := ih (lo + n) (by omega) hq'
    rw [List.range_succ_eq_map, List.map_cons, List.map_map]
    have hf : ((fun k => lo + k * n) ∘ Nat.succ) = fun k => lo + n + k * n := by
      funext k
      show lo + (k + 1) * n = lo + n + k * n
      rw [Nat.succ_mul]
      omega
    rw [hf, Nat.zero_mul, Nat.add_zero]
    exact ⟨le_refl _, ⟨hlo, by omega⟩, fun b hb1 hb2 => by omega, hrest⟩

/-- C23: for a range `[start, end_)` fully read into the buffer, every pattern and every
non-empty mask of length `n`, every address `a` of the range at which the pattern matches
(`a + n ≤ end_`) is covered by a reported match: the result of `findBytesAll` (given enough
fuel for its loop) contains some `r` with `r ≤ a < r + n`; in particular the result is empty
only if the pattern matches nowhere in the range. -/
theorem findBytesAll_covers_matches (m : IKittyMemOp) (fuel buf0 start end_ : Nat)
    (pattern : Nat → Byte) (mask : List Char) (hlt : start < end_) (hend : end_ < UINTPTR_MOD)
    (hmask : mask ≠ []) (hbuf0 : 0 < buf0)
    (hfit : buf0 + (end_ - start) + mask.length < UINTPTR_MOD)
    (hread : scanCount m start end_ = end_ - start) (hfuel : end_ - start < fuel) :
    ∃ l, KittyScannerMgr.findBytesAll ⟨some m⟩ fuel buf0 start end_ (some pattern) mask =
        some ⟨l, [(start, end_ - start)]⟩ ∧
      (∀ a, MatchAddr (scanBuffer m start end_) pattern mask start end_ a →
        ∃ r ∈ l, r ≤ a ∧ a < r + mask.length) ∧
      (l = [] → ∀ a, ¬ MatchAddr (scanBuffer m start end_) pattern mask start end_ a) := by
  obtain ⟨l, h1, h2⟩ := findBytesAll_spec m fuel buf0 start end_ pattern mask hlt hend hmask
    hbuf0 hfit (by omega) hfuel
  have hcov : ∀ a, MatchAddr (scanBuffer m start end_) pattern mask start end_ a →
      ∃ r ∈ l, r ≤ a ∧ a < r + mask.length := by
    rintro a ⟨ha1, ha2, ha3⟩
    exact GreedyFrom.covers l start h2 a ha1
      ⟨ha1, ha2, compareAt_of_matchAt buf0 _ pattern mask start a ha3⟩
  refine ⟨l, h1, hcov, ?_⟩
  intro hl a ha
  obtain ⟨r, hr, _⟩ := hcov a ha
  rw [hl] at hr
  simp at hr

/-- C23, worked example: in the bytes `AA AA AA` the pattern `AA AA` matches at `0x1000` and
at `0x1001`; only `0x1000` is reported, and its window covers `0x1001`. -/
theorem findBytesAll_covers_matches_witness :
    ∃ l, KittyScannerMgr.findBytesAll ⟨some (fullMem [0xAA, 0xAA, 0xAA])⟩ 4 0x7f0000
        0x1000 0x1003 (some (bytesPtr [0xAA, 0xAA])) ['x', 'x'] =
        some ⟨l, [(0x1000, 0x1003 - 0x1000)]⟩ ∧
      l = [0x1000] ∧
      MatchAddr (scanBuffer (fullMem [0xAA, 0xAA, 0xAA]) 0x1000 0x1003)
        (bytesPtr [0xAA, 0xAA]) ['x', 'x'] 0x1000 0x1003 0x1001 ∧
      ∃ r ∈ l, r ≤ 0x1001 ∧ 0x1001 < r + 2 := by
  obtain ⟨l, h1, h2, _⟩ := findBytesAll_covers_matches (fullMem [0xAA, 0xAA, 0xAA]) 4 0x7f0000
    0x1000 0x1003 (bytesPtr [0xAA, 0xAA]) ['x', 'x'] (by decide) (by decide) (by decide)
    (by decide) (by decide) (by decide) (by decide)
  have hm : MatchAddr (scanBuffer (fullMem [0xAA, 0xAA, 0xAA]) 0x1000 0x1003)
      (bytesPtr [0xAA, 0xAA]) ['x', 'x'] 0x1000 0x1003 0x1001 := by decide
  refine ⟨l, h1, ?_, hm, h2 0x1001 hm⟩
  have e : KittyScannerMgr.findBytesAll ⟨some (fullMem [0xAA, 0xAA, 0xAA])⟩ 4 0x7f0000
      0x1000 0x1003 (some (bytesPtr [0xAA, 0xAA])) ['x', 'x'] =
      some ⟨[0x1000], [(0x1000, 3)]⟩ := by
    decide
  rw [e] at h1
  injection h1 with h1
  injection h1 with h1 _
  exact h1.symm

/-- C24: for a range `[start, end_)` fully read into the buffer, every pattern and every mask
of length `n ≥ 1` without `'x'` character, `findBytesAll` (given enough fuel for its loop)
returns exactly the `(end_ - start) / n` addresses `start, start + n, start + 2 n, ...`,
whatever the bytes of the buffer and of the pattern. -/
theorem findBytesAll_all_wildcards (m : IKittyMemOp) (fuel buf0 start end_ : Nat)
    (pattern : Nat → Byte) (mask : List Char) (hlt : start < end_) (hend : end_ < UINTPTR_MOD)
    (hmask : mask ≠ []) (hwild : 'x' ∉ mask) (hbuf0 : 0 < buf0)
    (hfit : buf0 + (end_ - start) + mask.length < UINTPTR_MOD)
    (hread : scanCount m start end_ = end_ - start) (hfuel : end_ - start < fuel) :
    KittyScannerMgr.findBytesAll ⟨some m⟩ fuel buf0 start end_ (some pattern) mask =
      some ⟨(List.range ((end_ - start) / mask.length)).map fun k => start + k * mask.length,
        [(start, end_ - start)]⟩ := by
  obtain ⟨l, h1, h2⟩ := findBytesAll_spec m fuel buf0 start end_ pattern mask hlt hend hmask
    hbuf0 hfit (by omega) hfuel
  have h3 : GreedyFrom (fun a => start ≤ a ∧ a + mask.length ≤ end_) mask.length start l := by
    refine GreedyFrom.congr l start ?_ h2
    intro a _
    constructor
    · rintro ⟨ha1, ha2, _⟩; exact ⟨ha1, ha2⟩
    · rintro ⟨ha1, ha2⟩
      exact ⟨ha1, ha2, compare_true_of_no_x _ _ mask _ _ hwild⟩
  have h4 := greedy_progression mask.length end_ start (mask_length_pos hmask)
    ((end_ - start) / mask.length) start (le_refl _) rfl
  rw [h1, GreedyFrom.unique _ _ start h3 h4]

/-- C24, worked example: with the mask `???` on the ten bytes of `[0x1000, 0x100a)` the three
addresses `0x1000, 0x1003, 0x1006` are returned, the pattern `AA BB CC` occurring nowhere. -/
theorem findBytesAll_all_wildcards_witness :
    KittyScannerMgr.findBytesAll ⟨some (fullMem [1, 2, 3, 4, 5, 6, 7, 8, 9, 10])⟩ 11 0x7f0000
        0x1000 0x100a (some (bytesPtr [0xAA, 0xBB, 0xCC])) ['?', '?', '?'] =
      some ⟨(List.range ((0x100a - 0x1000) / 3)).map fun k => 0x1000 + k * 3,
        [(0x1000, 0x100a - 0x1000)]⟩ ∧
    ((List.range ((0x100a - 0x1000) / 3)).map fun k => 0x1000 + k * 3) =
      [0x1000, 0x1003, 0x1006] :=
  ⟨findBytesAll_all_wildcards (fullMem [1, 2, 3, 4, 5, 6, 7, 8, 9, 10]) 11 0x7f0000
      0x1000 0x100a (bytesPtr [0xAA, 0xBB, 0xCC]) ['?', '?', '?'] (by decide) (by decide)
      (by decide) (by decide) (by decide) (by decide) (by decide) (by decide),
    by decide⟩

end KittyMemoryEx
